import Mathlib

/-!
# Verification of `mirrorer.py` (one-way directory mirroring)

Shallow embedding of the mirroring tool in `src/mirrorer.py`.  The
filesystem is modelled as a finitely branching tree of nodes: regular
files carry `size` and `mtime`; symbolic links carry their raw target
string together with two booleans recording how the OS resolves the
link at the moment it is inspected (`targetExists` = `os.path.exists`
on the link, `targetIsDir` = whether the resolved target is a
directory); directories carry an `mtime` and a list of named children.

Modelling conventions, fixed once for the whole development:
* access times and permission bits are elided (no claim mentions them);
  `os.utime`/`chmod` calls therefore only update the `mtime` field;
* modification times and the tolerance are integers (the Python floats
  are only ever compared, never rounded);
* `lstat` of a symlink reports the length of its target string as the
  size, matching POSIX `st_size` for links;
* `lstat` of a directory reports a fixed nominal size (the value is
  platform noise; no theorem depends on it);
* path lookup descends only through real directories.  Resolution of a
  symlink that appears as an intermediate path component would leave
  the modelled tree, and no theorem exercises that fragment;
* `os.symlink` stamps the new link with the current time `now`, which
  is threaded through the run as a parameter;
* Python `set`s of paths are modelled as deduplicated lists; the
  iteration order of a Python set is unspecified, so every theorem
  below depends on path lists only through membership, sortedness of
  the explicitly sorted lists, and the counters.
-/

/-- A path relative to a tree root, as its list of components.
`[]` is the root itself. -/
abbrev RelPath := List String

mutual
/-- One filesystem object (`EntryKind` of the spec plus its metadata). -/
inductive Node where
  | file (size : Nat) (mtime : Int)
  | link (target : String) (targetExists targetIsDir : Bool) (mtime : Int)
  | dir (mtime : Int) (children : Children)
/-- The named children of a directory, in directory-entry order. -/
inductive Children where
  | nil
  | cons (name : String) (node : Node) (rest : Children)
end

namespace Children

/-- First child with the given name (real directories have unique
names; well-formedness below makes the first match the only one). -/
def lookup : Children → String → Option Node
  | nil, _ => none
  | cons n c rest, m => if n = m then some c else rest.lookup m

/-- The list of child names. -/
def names : Children → List String
  | nil => []
  | cons n _ rest => n :: rest.names

/-- Remove every child with the given name (`os.unlink`/`os.rmdir` of
one directory entry). -/
def remove : Children → String → Children
  | nil, _ => nil
  | cons n c rest, m => if n = m then rest.remove m else cons n c (rest.remove m)

/-- Replace the child with the given name, or append a fresh entry
(the OS appends a new dirent). -/
def set : Children → String → Node → Children
  | nil, m, v => cons m v nil
  | cons n c rest, m, v => if n = m then cons n v rest else cons n c (rest.set m v)

/-- `true` iff the directory is empty (`os.rmdir` succeeds). -/
def isNil : Children → Bool
  | nil => true
  | cons _ _ _ => false

end Children

namespace Node

/-- `path.exists()`: follows symlinks; a dangling link does not exist. -/
def existsF : Node → Bool
  | file _ _ => true
  | link _ te _ _ => te
  | dir _ _ => true

/-- `path.is_dir()`: follows symlinks. -/
def isDirF : Node → Bool
  | file _ _ => false
  | link _ te tid _ => te && tid
  | dir _ _ => true

/-- `path.is_symlink()`. -/
def isSymlinkB : Node → Bool
  | link _ _ _ _ => true
  | _ => false

/-- Nominal `st_size` reported for directories (platform noise; no
theorem depends on the value). -/
def dirNominalSize : Nat := 4096

/-- `path.lstat().st_size` (never follows links). -/
def lstatSize : Node → Nat
  | file sz _ => sz
  | link tgt _ _ _ => tgt.length
  | dir _ _ => dirNominalSize

/-- `path.lstat().st_mtime` (never follows links). -/
def lstatMtime : Node → Int
  | file _ mt => mt
  | link _ _ _ mt => mt
  | dir mt _ => mt

end Node

/-- Resolve a relative path inside a tree (descends only through real
directories; see the module comment for the symlink convention). -/
def lookupN : Node → RelPath → Option Node
  | t, [] => some t
  | Node.dir _ cs, n :: rest =>
      match cs.lookup n with
      | some c => lookupN c rest
      | none => none
  | _, _ :: _ => none

/-- `path.exists()` at a relative path of the tree. -/
def existsAtF (t : Node) (p : RelPath) : Bool :=
  match lookupN t p with
  | some n => n.existsF
  | none => false

/-- Remove the entry at a (nonempty) relative path; other entries are
untouched.  Used for `unlink` (files, links) and `rmdir` (empty
directories), whose preconditions the callers check. -/
def removeAt : Node → RelPath → Node
  | t, [] => t
  | Node.dir m cs, [n] => Node.dir m (cs.remove n)
  | Node.dir m cs, n :: rest =>
      match cs.lookup n with
      | some c => Node.dir m (cs.set n (removeAt c rest))
      | none => Node.dir m cs
  | t, _ :: _ => t

/-- Write a node at a (nonempty) relative path whose parent chain
consists of existing directories; a no-op on a broken spine (callers
establish the spine first). -/
def setAt : Node → RelPath → Node → Node
  | _, [], v => v
  | Node.dir m cs, [n], v => Node.dir m (cs.set n v)
  | Node.dir m cs, n :: rest, v =>
      match cs.lookup n with
      | some c => Node.dir m (cs.set n (setAt c rest v))
      | none => Node.dir m cs
  | t, _ :: _, _ => t

/-- `Path.mkdir(parents=True, exist_ok=True)` / `os.makedirs`:
create every missing component as a directory (stamped `now`); fail
(`none`) if an existing non-directory blocks the chain.  A component
that is a symlink to an existing directory satisfies `exist_ok`'s
`is_dir()` check at the final position. -/
def mkdirp (now : Int) : Node → RelPath → Option Node
  | t, [] => if t.isDirF then some t else none
  | Node.dir m cs, n :: rest =>
      (match cs.lookup n with
       | some c =>
           match mkdirp now c rest with
           | some cNew => some (Node.dir m (cs.set n cNew))
           | none => none
       | none =>
           match mkdirp now (Node.dir now Children.nil) rest with
           | some cNew => some (Node.dir m (cs.set n cNew))
           | none => none)
  | _, _ :: _ => none

/-- `os.utime` at a relative path: update the entry's own `mtime`
field (made total over kinds; every call site passes a directory). -/
def setMtimeAt : Node → RelPath → Int → Node
  | t, p, mt =>
    match lookupN t p with
    | some (Node.file sz _) => setAt t p (Node.file sz mt)
    | some (Node.link tgt te tid _) => setAt t p (Node.link tgt te tid mt)
    | some (Node.dir _ cs) => setAt t p (Node.dir mt cs)
    | none => t

mutual
/-- The paths contributed by one directory entry during
`os.walk(root, followlinks=False)` as `get_relative_paths` collects
them.  `os.walk` classifies an entry via `is_dir()` (which follows
links), so a symlink resolving to a directory lands in `dirnames`;
with `followlinks=False` it is not descended into, hence never
visited, and contributes nothing.  A visited directory contributes its
own path plus its recursive contents; a file, or a symlink that does
not resolve to a directory, lands in `filenames` and contributes its
path. -/
def scanEntry : String → Node → List RelPath
  | n, Node.file _ _ => [[n]]
  | n, Node.link _ te tid _ => if te && tid then [] else [[n]]
  | n, Node.dir _ cs => [n] :: (scanChildren cs).map (fun p => n :: p)
/-- The paths collected by the walk over a whole children list. -/
def scanChildren : Children → List RelPath
  | Children.nil => []
  | Children.cons n c rest => scanEntry n c ++ scanChildren rest
end

/-- `get_relative_paths(root, follow_symlinks=False)`: the set of all
relative paths under a directory root, as a deduplicated list (the
Python function accumulates into a `set`). -/
def get_relative_paths (t : Node) : List RelPath :=
  (match t with
   | Node.dir _ cs => scanChildren cs
   | _ => []).dedup

mutual
/-- Well-formed tree: sibling names are unique, recursively (real
directories cannot repeat an entry name). -/
def wfN : Node → Bool
  | Node.file _ _ => true
  | Node.link _ _ _ _ => true
  | Node.dir _ cs => wfC cs
def wfC : Children → Bool
  | Children.nil => true
  | Children.cons n c rest => !((Children.names rest).contains n) && wfN c && wfC rest
end

mutual
/-- `true` iff the tree contains no symlink node. -/
def noLinksN : Node → Bool
  | Node.file _ _ => true
  | Node.link _ _ _ _ => false
  | Node.dir _ cs => noLinksC cs
def noLinksC : Children → Bool
  | Children.nil => true
  | Children.cons _ c rest => noLinksN c && noLinksC rest
end

/-- Render a relative path the way `str(Path(...))` does on POSIX:
components joined by `/`. -/
def pathStr : RelPath → String
  | [] => ""
  | n :: rest =>
      match rest with
      | [] => n
      | _ :: _ => n ++ "/" ++ pathStr rest

/-- `pat` occurs as a contiguous sublist of `s` (executable form). -/
def infixB (pat : List Char) : List Char → Bool
  | [] => pat.isEmpty
  | a :: s2 => pat.isPrefixOf (a :: s2) || infixB pat s2

/-- Python's `pat in s`: `pat` is a contiguous substring of `s`
(case-sensitive). -/
def strContains (s pat : String) : Bool :=
  infixB pat.data s.data

/-- The exclusion test of `sync_directories` (line 189):
`any(pat in str(p) for pat in exclude_patterns)`. -/
def excludedBy (excl : List String) (p : RelPath) : Bool :=
  excl.any (fun pat => strContains (pathStr p) pat)

/-- `is_path_inside(child, parent)`: `child.relative_to(parent)`
succeeds exactly when `parent`'s components are a prefix of
`child`'s. -/
def is_path_inside (child parent : List String) : Bool :=
  parent.isPrefixOf child

/-- `should_copy(src, dst, time_tolerance)` (lines 33-61), with the
source's `lstat` data supplied as the source node and the destination
state at the path as an optional node.  The `OSError` fallback branch
is unreachable in the model because stats never fail here. -/
def should_copy (srcN : Node) (dstN : Option Node) (tol : Int) : Bool :=
  match dstN with
  | none => true
  | some d =>
    if !d.existsF then true
    else if d.isSymlinkB then true
    else if srcN.lstatSize ≠ d.lstatSize then true
    else if tol < |srcN.lstatMtime - d.lstatMtime| then true
    else false

/-- `shutil.copy2(src, dst)` followed by the explicit
`os.utime`/`chmod` fixups of `copy_with_metadata` for a regular-file
source: writes a file node carrying the source's size and mtime.
When `dst` is an existing directory, `copy2` copies *into* it under
the source's basename.  When `dst` is an existing symlink, `copy2`
writes through the link to its target, which lies outside the
modelled tree; the tree is returned unchanged and every theorem
excludes that fragment by hypothesis. -/
def copy2At (t : Node) (p : RelPath) (sz : Nat) (mt : Int) : Option Node :=
  match lookupN t p with
  | some (Node.dir _ _) =>
      let q := p ++ [p.getLastD ""]
      match lookupN t q with
      | some (Node.dir _ _) => none
      | _ => some (setAt t q (Node.file sz mt))
  | some (Node.link _ _ _ _) => some t
  | some _ => some (setAt t p (Node.file sz mt))
  | none =>
      match lookupN t p.dropLast with
      | some (Node.dir _ _) => some (setAt t p (Node.file sz mt))
      | _ => none

/-- `os.symlink(target, dst)`: fails if `dst` already exists or its
parent is not a directory. -/
def symlinkAt (t : Node) (p : RelPath) (v : Node) : Option Node :=
  match lookupN t p.dropLast with
  | some (Node.dir _ _) =>
      if (lookupN t p).isSome then none else some (setAt t p v)
  | _ => none

/-- `copy_with_metadata(src, dst)` (lines 63-97): `none` models the
raised `OSError`, counted by the caller as a failed copy. -/
def copy_with_metadata (now : Int) (t : Node) (p : RelPath) (srcN : Node) : Option Node :=
  match srcN with
  | Node.link tgt te tid _ =>
      -- remove destination if it exists (or is a dangling link), then
      -- recreate a link with the same raw target string
      (match lookupN t p with
       | some (Node.dir _ _) => none   -- unlink of a directory raises
       | some _ => symlinkAt (removeAt t p) p (Node.link tgt te tid now)
       | none => symlinkAt t p (Node.link tgt te tid now))
  | Node.file sz mt => copy2At t p sz mt
  | Node.dir _ _ => none  -- copy2 of a directory source raises (unreachable)

/-- One iteration of the delete loop (lines 207-234), on the running
destination tree and the count of successful deletions. -/
def delStep (dry : Bool) (st : Node × Nat) (p : RelPath) : Node × Nat :=
  match lookupN st.1 p with
  | none => st   -- neither exists nor is a symlink: skip
  | some n =>
    if dry then (st.1, st.2 + 1)
    else
      match n with
      | Node.dir _ cs =>
          -- rmdir: only removes an empty directory, else skip silently
          if cs.isNil then (removeAt st.1 p, st.2 + 1) else st
      | _ => (removeAt st.1 p, st.2 + 1)

/-- The whole delete phase over the depth-sorted candidates. -/
def deletePhase (dry : Bool) (t : Node) (cands : List RelPath) : Node × Nat :=
  cands.foldl (delStep dry) (t, 0)

/-- Running state of the copy/update loop. -/
structure CopyState where
  tree : Node
  created : Nat
  copied : Nat
  failed : Nat
  dirUps : List RelPath

/-- One iteration of the copy/update loop (lines 247-292). -/
def copyStep (src : Node) (tol : Int) (dry : Bool) (now : Int)
    (st : CopyState) (p : RelPath) : CopyState :=
  match lookupN src p with
  | none => st   -- unreachable: p is drawn from the source scan
  | some srcN =>
    match srcN with
    | Node.dir _ _ =>
        -- src_path.is_dir() and not src_path.is_symlink()
        let st1 :=
          if existsAtF st.tree p then st
          else if dry then { st with created := st.created + 1 }
          else
            match mkdirp now st.tree p with
            | some tNew => { st with tree := tNew, created := st.created + 1 }
            | none => st   -- mkdir error: reported, not counted
        if !dry && existsAtF st1.tree p then
          { st1 with dirUps := st1.dirUps ++ [p] }
        else st1
    | _ =>
        if should_copy srcN (lookupN st.tree p) tol then
          if dry then { st with copied := st.copied + 1 }
          else
            -- ensure the parent directory exists, inside the same try
            -- block as the copy itself
            match (if existsAtF st.tree p.dropLast then some st.tree
                   else mkdirp now st.tree p.dropLast) with
            | none => { st with failed := st.failed + 1 }
            | some t1 =>
              match copy_with_metadata now t1 p srcN with
              | some t2 => { st with tree := t2, copied := st.copied + 1 }
              | none => { st with failed := st.failed + 1 }
        else st

/-- The whole copy/update phase over the lexically sorted filtered
source paths. -/
def copyPhase (src : Node) (tol : Int) (dry : Bool) (now : Int)
    (t : Node) (ps : List RelPath) : CopyState :=
  ps.foldl (copyStep src tol dry now) ⟨t, 0, 0, 0, []⟩

/-- The deferred directory-metadata pass (lines 296-304): reapply each
recorded directory's source mtime. -/
def fixupDirs (src : Node) (t : Node) (ups : List RelPath) : Node :=
  ups.foldl
    (fun acc p =>
      match lookupN src p with
      | some sn => setMtimeAt acc p sn.lstatMtime
      | none => acc)   -- stat failure: ignored
    t

/-- The destination-root fixup (lines 307-313). -/
def rootFixup (src : Node) (t : Node) : Node :=
  match t with
  | Node.dir _ cs => Node.dir src.lstatMtime cs
  | other => other

/-- Insertion of one path into a list sorted by `le`. -/
def insertLe (le : RelPath → RelPath → Bool) (p : RelPath) : List RelPath → List RelPath
  | [] => [p]
  | q :: rest => if le p q then p :: q :: rest else q :: insertLe le p rest

/-- Insertion sort by `le` (the theorems depend on the output only
through membership and sortedness, which is all Python's stable sort
of an unordered set determines). -/
def isortLe (le : RelPath → RelPath → Bool) : List RelPath → List RelPath
  | [] => []
  | p :: rest => insertLe le p (isortLe le rest)

/-- `sorted(paths_to_delete, key=lambda p: len(p.parts), reverse=True)`:
non-increasing depth. -/
def depthGe (p q : RelPath) : Bool := q.length ≤ p.length

/-- Code-point comparison of rendered paths, Python's `<=` on strings. -/
def charListLe : List Char → List Char → Bool
  | [], _ => true
  | _ :: _, [] => false
  | a :: as, b :: bs =>
      if a.toNat < b.toNat then true
      else if b.toNat < a.toNat then false
      else charListLe as bs

/-- `sorted(source_paths)`: `Path` order is the lexicographic order of
the rendered path strings. -/
def pathLe (p q : RelPath) : Bool := charListLe (pathStr p).data (pathStr q).data

/-- The filtered source path set (lines 177, 184-190): the scan of the
source, minus every path containing an exclusion pattern; the `if`
mirrors `if exclude_patterns:`. -/
def filtered_source (src : Node) (excl : List String) : List RelPath :=
  let sp := get_relative_paths src
  if excl = [] then sp else sp.filter (fun p => !excludedBy excl p)

/-- `paths_to_delete = dest_paths - source_paths` (line 193). -/
def paths_to_delete (destPaths srcPaths : List RelPath) : List RelPath :=
  destPaths.filter (fun p => !srcPaths.contains p)

/-- The depth-sorted deletion candidates (lines 202-205). -/
def sorted_deletes (l : List RelPath) : List RelPath := isortLe depthGe l

/-- Everything `sync_directories` consumes: the two path arguments (as
absolute component lists, for the overlap checks), the filesystem
state each denotes (`none` = no such path), and the keyword
arguments.  `now` is the clock used for creation stamps. -/
structure SyncArgs where
  sourcePath : List String
  destPath : List String
  sourceState : Option Node
  destState : Option Node
  excludePatterns : List String
  timeTolerance : Int
  dryRun : Bool
  now : Int

/-- The observable outcome: the destination state after the call, the
four returned counters, and whether the run aborted via
`sys.exit(1)`. -/
structure SyncOut where
  dest : Option Node
  created_dirs : Nat
  copied_files : Nat
  deleted_items : Nat
  failed_copies : Nat
  exited : Bool

/-- The validation prologue (lines 135-154), in source order: source
missing, source not a directory, destination equals source, either
path inside the other. -/
def validation_error (a : SyncArgs) : Bool :=
  match a.sourceState with
  | none => true
  | some s =>
    if !s.existsF then true
    else if !s.isDirF then true
    else if a.destPath = a.sourcePath then true
    else if is_path_inside a.destPath a.sourcePath then true
    else if is_path_inside a.sourcePath a.destPath then true
    else false

/-- `sync_directories` (lines 109-315).  A missing destination is
created (non-dry-run) as a fresh empty directory; in dry-run mode the
working tree stands in for reads only and the reported destination
state is the untouched input.  The scan of a just-created destination
is empty, which coincides with the `else set()` branch of line 178. -/
def sync_directories (a : SyncArgs) : SyncOut :=
  if validation_error a then
    ⟨a.destState, 0, 0, 0, 0, true⟩
  else
    let src := a.sourceState.getD (Node.dir 0 Children.nil)
    let destWork : Node :=
      match a.destState with
      | some d => d
      | none => Node.dir a.now Children.nil
    let dest_paths : List RelPath :=
      match a.destState with
      | some d => get_relative_paths d
      | none => []
    let source_paths := filtered_source src a.excludePatterns
    let toDelete := paths_to_delete dest_paths source_paths
    let (afterDel, deleted) := deletePhase a.dryRun destWork (sorted_deletes toDelete)
    let cst := copyPhase src a.timeTolerance a.dryRun a.now afterDel (isortLe pathLe source_paths)
    let final :=
      if a.dryRun then cst.tree
      else rootFixup src (fixupDirs src cst.tree cst.dirUps)
    { dest := if a.dryRun && a.destState.isNone then none else some final,
      created_dirs := cst.created,
      copied_files := cst.copied,
      deleted_items := deleted,
      failed_copies := cst.failed,
      exited := false }

/-- The entry at a scanned path in a link-free context is "visible":
not a symlink resolving to a directory. -/
def visibleEntry (n : Node) : Prop :=
  ¬(n.isSymlinkB = true ∧ n.isDirF = true)

/-- Destination tree with a single symlink entry whose target is an
existing directory. -/
def c4root : Node :=
  Node.dir 0 (Children.cons "s" (Node.link "x" true true 5) Children.nil)

/-- Entries the delete loop actually removes: non-directories
(`unlink`) and empty directories (`rmdir`). -/
def removableNode (n : Node) : Prop :=
  (∀ dm dcs, n ≠ Node.dir dm dcs) ∨ ∃ dm, n = Node.dir dm Children.nil

/-- Invariant carried through the copy/update loop in the convergence
argument: the working tree is a well-formed, link-free directory whose
nonempty live paths all lie in the filtered source set `F`;
source-file paths are never directories in it and live
source-directory paths are directories; every processed path is
present with the right kind, processed files carrying the source size
and an mtime within tolerance; recorded fixup entries are filtered
source directories; and no copy has failed. -/
def CopyInv (srcT : Node) (F : List RelPath) (tol : Int)
    (st : CopyState) (done : List RelPath) : Prop :=
  (∃ dm dcs, st.tree = Node.dir dm dcs) ∧
  wfN st.tree = true ∧
  noLinksN st.tree = true ∧
  st.failed = 0 ∧
  (∀ p, p ≠ [] → (lookupN st.tree p).isSome = true → p ∈ F) ∧
  (∀ p sz mt, p ∈ F → lookupN srcT p = some (Node.file sz mt) →
      ∀ dm dcs, lookupN st.tree p ≠ some (Node.dir dm dcs)) ∧
  (∀ p dm dcs, p ∈ F → lookupN srcT p = some (Node.dir dm dcs) →
      (lookupN st.tree p).isSome = true →
      ∃ dm2 dcs2, lookupN st.tree p = some (Node.dir dm2 dcs2)) ∧
  (∀ p dm dcs, p ∈ done → lookupN srcT p = some (Node.dir dm dcs) →
      (lookupN st.tree p).isSome = true) ∧
  (∀ p sz mt, p ∈ done → lookupN srcT p = some (Node.file sz mt) →
      ∃ mt2, lookupN st.tree p = some (Node.file sz mt2) ∧ |mt - mt2| ≤ tol) ∧
  (∀ p, p ∈ st.dirUps → p ∈ F ∧
      ∃ dm dcs, lookupN srcT p = some (Node.dir dm dcs))

/-- Empty source tree for the convergence counterexample. -/
def c1cexSrc : Node := Node.dir 0 Children.nil

/-- Destination for the convergence counterexample: a directory whose
only entry is a symlink resolving to an existing directory. -/
def c1cexDst : Node :=
  Node.dir 7 (Children.cons "d"
    (Node.dir 3 (Children.cons "s" (Node.link "x" true true 1) Children.nil))
    Children.nil)

/-- Arguments of the convergence counterexample run. -/
def c1cexArgs : SyncArgs :=
  { sourcePath := ["a"], destPath := ["b"],
    sourceState := some c1cexSrc, destState := some c1cexDst,
    excludePatterns := [], timeTolerance := 2, dryRun := false, now := 50 }

/-- Witness source tree for the amended convergence and idempotence
claims: one regular file. -/
def wSrc : Node :=
  Node.dir 0 (Children.cons "f" (Node.file 3 10) Children.nil)

/-- Witness arguments for the amended convergence and idempotence
claims. -/
def wArgs : SyncArgs :=
  { sourcePath := ["a"], destPath := ["b"],
    sourceState := some wSrc, destState := some (Node.dir 5 Children.nil),
    excludePatterns := [], timeTolerance := 2, dryRun := false, now := 100 }

/-- Source tree of the idempotence counterexample: a single dangling
symlink. -/
def c3Src : Node :=
  Node.dir 0 (Children.cons "s" (Node.link "tgt" false false 0) Children.nil)

/-- Arguments of the idempotence counterexample run. -/
def c3Args : SyncArgs :=
  { sourcePath := ["a"], destPath := ["b"],
    sourceState := some c3Src, destState := some (Node.dir 0 Children.nil),
    excludePatterns := [], timeTolerance := 2, dryRun := false, now := 50 }

/-! ## Basic lemmas about children lists -/

/-- Structure-only induction principle for `Children` (the node
component is not recursed into). -/
theorem Children.indStruct {P : Children → Prop} (hnil : P Children.nil)
    (hcons : ∀ n c rest, P rest → P (Children.cons n c rest)) :
    ∀ cs, P cs
  | Children.nil => hnil
  | Children.cons n c rest => hcons n c rest (Children.indStruct hnil hcons rest)

namespace Children

theorem lookup_set_self (cs : Children) (n : String) (v : Node) :
    (cs.set n v).lookup n = some v := by
  induction cs using Children.indStruct with
  | hnil => simp [Children.set, Children.lookup]
  | hcons m c rest ih =>
      by_cases h : m = n
      · subst h; simp [Children.set, Children.lookup]
      · simp [Children.set, Children.lookup, h, ih]

theorem lookup_set_ne (cs : Children) (n m : String) (v : Node) (h : n ≠ m) :
    (cs.set n v).lookup m = cs.lookup m := by
  induction cs using Children.indStruct with
  | hnil => simp [Children.set, Children.lookup, h]
  | hcons k c rest ih =>
      by_cases hk : k = n
      · subst hk; simp [Children.set, Children.lookup, h]
      · simp [Children.set, Children.lookup, hk, ih]

theorem lookup_remove_self (cs : Children) (n : String) :
    (cs.remove n).lookup n = none := by
  induction cs using Children.indStruct with
  | hnil => simp [Children.remove, Children.lookup]
  | hcons m c rest ih =>
      by_cases h : m = n
      · subst h; simp [Children.remove, ih]
      · simp [Children.remove, Children.lookup, h, ih]

theorem lookup_remove_ne (cs : Children) (n m : String) (h : n ≠ m) :
    (cs.remove n).lookup m = cs.lookup m := by
  induction cs using Children.indStruct with
  | hnil => simp [Children.remove]
  | hcons k c rest ih =>
      by_cases hk : k = n
      · subst hk; simp [Children.remove, Children.lookup, h, ih]
      · simp [Children.remove, Children.lookup, hk, ih]

theorem lookup_none_iff (cs : Children) (n : String) :
    cs.lookup n = none ↔ n ∉ cs.names := by
  induction cs using Children.indStruct with
  | hnil => simp [Children.lookup, Children.names]
  | hcons m c rest ih =>
      by_cases h : m = n
      · subst h; simp [Children.lookup, Children.names]
      · simp [Children.lookup, Children.names, h, ih, Ne.symm h]

theorem remove_of_not_mem (cs : Children) (n : String)
    (h : n ∉ cs.names) : cs.remove n = cs := by
  induction cs using Children.indStruct with
  | hnil => simp [Children.remove]
  | hcons m c rest ih =>
      simp only [Children.names, List.mem_cons, not_or] at h
      simp [Children.remove, Ne.symm h.1, ih h.2]

theorem set_self_eq (cs : Children) (n : String) (c : Node)
    (h : cs.lookup n = some c) : cs.set n c = cs := by
  induction cs using Children.indStruct with
  | hnil => simp [Children.lookup] at h
  | hcons m d rest ih =>
      by_cases hm : m = n
      · subst hm
        simp [Children.lookup] at h
        simp [Children.set, h]
      · simp [Children.lookup, hm] at h
        simp [Children.set, hm, ih h]

theorem isNil_iff_lookup (cs : Children) :
    cs.isNil = true ↔ ∀ n, cs.lookup n = none := by
  cases cs with
  | nil => simp [Children.isNil, Children.lookup]
  | cons m c rest =>
      simp only [Children.isNil, Bool.false_eq_true, false_iff, not_forall]
      exact ⟨m, by simp [Children.lookup]⟩

end Children

/-! ## Lookup surgery lemmas -/

theorem lookupN_append (t : Node) (q r : RelPath) :
    lookupN t (q ++ r) = (lookupN t q).bind (fun n => lookupN n r) := by
  induction q generalizing t with
  | nil => simp [lookupN]
  | cons n q ih =>
      cases t with
      | file sz mt => simp [lookupN]
      | link a b c d => simp [lookupN]
      | dir m cs =>
          simp only [List.cons_append, lookupN]
          cases cs.lookup n with
          | none => simp
          | some c => simpa using ih c

/-- Every proper prefix of a resolvable path resolves to a directory. -/
theorem lookupN_prefix_dir (t : Node) (q : RelPath) (x : String) (r : RelPath)
    (n : Node) (h : lookupN t (q ++ x :: r) = some n) :
    ∃ m cs, lookupN t q = some (Node.dir m cs) := by
  rw [lookupN_append] at h
  cases hq : lookupN t q with
  | none => rw [hq] at h; simp at h
  | some c =>
      rw [hq] at h
      cases c with
      | file sz mt => simp [lookupN] at h
      | link a b cc d => simp [lookupN] at h
      | dir m cs => exact ⟨m, cs, rfl⟩

theorem lookupN_removeAt_self (t : Node) (q : RelPath) (hq : q ≠ []) :
    lookupN (removeAt t q) q = none := by
  induction q generalizing t with
  | nil => exact absurd rfl hq
  | cons n rest ih =>
      cases t with
      | file sz mt => simp [removeAt, lookupN]
      | link a b c d => simp [removeAt, lookupN]
      | dir m cs =>
          cases rest with
          | nil => simp [removeAt, lookupN, Children.lookup_remove_self]
          | cons x xs =>
              simp only [removeAt]
              cases h : cs.lookup n with
              | none => simp [lookupN, h]
              | some c =>
                  simp [lookupN, Children.lookup_set_self, ih c (by simp)]

theorem removeAt_of_lookup_none (t : Node) (q : RelPath)
    (h : lookupN t q = none) : removeAt t q = t := by
  induction q generalizing t with
  | nil => simp [lookupN] at h
  | cons n rest ih =>
      cases t with
      | file sz mt => simp [removeAt]
      | link a b c d => simp [removeAt]
      | dir m cs =>
          cases rest with
          | nil =>
              simp only [lookupN] at h
              cases hl : cs.lookup n with
              | some c => rw [hl] at h; simp [lookupN] at h
              | none =>
                  simp only [removeAt]
                  rw [Children.remove_of_not_mem cs n
                    ((Children.lookup_none_iff cs n).mp hl)]
          | cons x xs =>
              simp only [lookupN] at h
              cases hl : cs.lookup n with
              | none => simp [removeAt, hl]
              | some c =>
                  rw [hl] at h
                  simp only [removeAt, hl]
                  rw [ih c h, Children.set_self_eq cs n c hl]

theorem lookupN_removeAt_disjoint (t : Node) (q r : RelPath)
    (hq : ¬ q <+: r) (hr : ¬ r <+: q) :
    lookupN (removeAt t q) r = lookupN t r := by
  induction q generalizing t r with
  | nil => exact absurd (List.nil_prefix) hq
  | cons n q ih =>
      cases r with
      | nil => exact absurd (List.nil_prefix) hr
      | cons m r =>
          cases t with
          | file sz mt => simp [removeAt]
          | link a b c d => simp [removeAt]
          | dir mm cs =>
              by_cases hnm : n = m
              · subst hnm
                have hq2 : ¬ q <+: r := fun h => hq (List.cons_prefix_cons.mpr ⟨rfl, h⟩)
                have hr2 : ¬ r <+: q := fun h => hr (List.cons_prefix_cons.mpr ⟨rfl, h⟩)
                cases q with
                | nil => exact absurd (List.nil_prefix) hq2
                | cons y ys =>
                    simp only [removeAt]
                    cases hl : cs.lookup n with
                    | none => simp [lookupN, hl]
                    | some c =>
                        simp only [lookupN, hl, Children.lookup_set_self]
                        exact ih c r hq2 hr2
              · cases q with
                | nil =>
                    simp [removeAt, lookupN, Children.lookup_remove_ne cs n m hnm]
                | cons y ys =>
                    simp only [removeAt]
                    cases hl : cs.lookup n with
                    | none => simp [lookupN, hl]
                    | some c =>
                        simp [lookupN, Children.lookup_set_ne cs n m _ hnm]

theorem lookupN_removeAt_prefix_dir (t : Node) (q r : RelPath)
    (hpre : r <+: q) (hne : r ≠ q) (dm : Int) (dcs : Children)
    (h : lookupN t r = some (Node.dir dm dcs)) :
    ∃ dcs2, lookupN (removeAt t q) r = some (Node.dir dm dcs2) := by
  induction r generalizing t q with
  | nil =>
      simp only [lookupN] at h
      cases h
      cases q with
      | nil => exact absurd rfl hne
      | cons n rest =>
          cases rest with
          | nil => exact ⟨dcs.remove n, rfl⟩
          | cons y ys =>
              simp only [removeAt]
              cases hl : dcs.lookup n with
              | none => exact ⟨dcs, rfl⟩
              | some c => exact ⟨_, rfl⟩
  | cons x r ih =>
      obtain ⟨q2, hq2⟩ := hpre
      cases q2 with
      | nil => exact absurd (by simpa using hq2) hne
      | cons z zs =>
          subst hq2
          cases t with
          | file sz mt => simp [lookupN] at h
          | link a b c d => simp [lookupN] at h
          | dir m0 cs0 =>
              simp only [lookupN] at h
              cases hl : cs0.lookup x with
              | none => rw [hl] at h; simp at h
              | some c =>
                  rw [hl] at h
                  obtain ⟨w, ws, hws⟩ : ∃ w ws, r ++ z :: zs = w :: ws := by
                    cases hrz : r ++ z :: zs with
                    | nil => simp at hrz
                    | cons w ws => exact ⟨w, ws, rfl⟩
                  have hpre2 : r <+: w :: ws := hws ▸ List.prefix_append r _
                  have hne2 : r ≠ w :: ws := by
                    rw [← hws]
                    intro hcontra
                    have := congrArg List.length hcontra
                    simp at this
                  obtain ⟨dcs2, hd⟩ := ih c (w :: ws) hpre2 hne2 h
                  refine ⟨dcs2, ?_⟩
                  show lookupN (removeAt (Node.dir m0 cs0) (x :: (r ++ z :: zs))) (x :: r) = _
                  rw [hws]
                  simp only [removeAt, hl, lookupN, Children.lookup_set_self]
                  exact hd

theorem lookupN_setAt_disjoint (t : Node) (q r : RelPath) (v : Node)
    (hq : ¬ q <+: r) (hr : ¬ r <+: q) :
    lookupN (setAt t q v) r = lookupN t r := by
  induction q generalizing t r with
  | nil => exact absurd (List.nil_prefix) hq
  | cons n q ih =>
      cases r with
      | nil => exact absurd (List.nil_prefix) hr
      | cons m r =>
          cases t with
          | file sz mt => simp [setAt]
          | link a b c d => simp [setAt]
          | dir mm cs =>
              by_cases hnm : n = m
              · subst hnm
                have hq2 : ¬ q <+: r := fun h => hq (List.cons_prefix_cons.mpr ⟨rfl, h⟩)
                have hr2 : ¬ r <+: q := fun h => hr (List.cons_prefix_cons.mpr ⟨rfl, h⟩)
                cases q with
                | nil => exact absurd (List.nil_prefix) hq2
                | cons y ys =>
                    simp only [setAt]
                    cases hl : cs.lookup n with
                    | none => simp [lookupN, hl]
                    | some c =>
                        simp only [lookupN, hl, Children.lookup_set_self]
                        exact ih c r hq2 hr2
              · cases q with
                | nil =>
                    simp [setAt, lookupN, Children.lookup_set_ne cs n m v hnm]
                | cons y ys =>
                    simp only [setAt]
                    cases hl : cs.lookup n with
                    | none => simp [lookupN, hl]
                    | some c =>
                        simp [lookupN, Children.lookup_set_ne cs n m _ hnm]

theorem lookupN_setAt_self (t : Node) (q : RelPath) (v : Node)
    (hsp : ∀ s, s <+: q → s ≠ q → ∃ dm dcs, lookupN t s = some (Node.dir dm dcs)) :
    lookupN (setAt t q v) q = some v := by
  induction q generalizing t with
  | nil => simp [setAt, lookupN]
  | cons n q ih =>
      obtain ⟨dm, dcs, hroot⟩ := hsp [] List.nil_prefix (by simp)
      simp only [lookupN] at hroot
      cases hroot
      cases q with
      | nil => simp [setAt, lookupN, Children.lookup_set_self]
      | cons y ys =>
          obtain ⟨dm1, dcs1, hn⟩ := hsp [n] ⟨y :: ys, rfl⟩ (by simp)
          simp only [lookupN] at hn
          cases hl : dcs.lookup n with
          | none => rw [hl] at hn; simp at hn
          | some c =>
              rw [hl] at hn
              simp only [setAt, hl, lookupN, Children.lookup_set_self]
              refine ih c ?_
              intro s hpre hne
              have := hsp (n :: s) (List.cons_prefix_cons.mpr ⟨rfl, hpre⟩)
                (by simpa using hne)
              simpa only [lookupN, hl] using this

theorem lookupN_setAt_prefix_dir (t : Node) (q r : RelPath) (v : Node)
    (hpre : r <+: q) (hne : r ≠ q) (dm : Int) (dcs : Children)
    (h : lookupN t r = some (Node.dir dm dcs)) :
    ∃ dcs2, lookupN (setAt t q v) r = some (Node.dir dm dcs2) := by
  induction r generalizing t q with
  | nil =>
      simp only [lookupN] at h
      cases h
      cases q with
      | nil => exact absurd rfl hne
      | cons n rest =>
          cases rest with
          | nil => exact ⟨dcs.set n v, rfl⟩
          | cons y ys =>
              simp only [setAt]
              cases hl : dcs.lookup n with
              | none => exact ⟨dcs, rfl⟩
              | some c => exact ⟨_, rfl⟩
  | cons x r ih =>
      obtain ⟨q2, hq2⟩ := hpre
      cases q2 with
      | nil => exact absurd (by simpa using hq2) hne
      | cons z zs =>
          subst hq2
          cases t with
          | file sz mt => simp [lookupN] at h
          | link a b c d => simp [lookupN] at h
          | dir m0 cs0 =>
              simp only [lookupN] at h
              cases hl : cs0.lookup x with
              | none => rw [hl] at h; simp at h
              | some c =>
                  rw [hl] at h
                  obtain ⟨w, ws, hws⟩ : ∃ w ws, r ++ z :: zs = w :: ws := by
                    cases hrz : r ++ z :: zs with
                    | nil => simp at hrz
                    | cons w ws => exact ⟨w, ws, rfl⟩
                  have hpre2 : r <+: w :: ws := hws ▸ List.prefix_append r _
                  have hne2 : r ≠ w :: ws := by
                    rw [← hws]
                    intro hcontra
                    have := congrArg List.length hcontra
                    simp at this
                  obtain ⟨dcs2, hd⟩ := ih c (w :: ws) hpre2 hne2 h
                  refine ⟨dcs2, ?_⟩
                  show lookupN (setAt (Node.dir m0 cs0) (x :: (r ++ z :: zs)) v) (x :: r) = _
                  rw [hws]
                  simp only [setAt, hl, lookupN, Children.lookup_set_self]
                  exact hd

theorem lookupN_removeAt_isSome (t : Node) (q r : RelPath)
    (h : (lookupN (removeAt t q) r).isSome = true) :
    (lookupN t r).isSome = true := by
  induction q generalizing t r with
  | nil => simpa [removeAt] using h
  | cons n q ih =>
      cases t with
      | file sz mt => simpa [removeAt] using h
      | link a b c d => simpa [removeAt] using h
      | dir mm cs =>
          cases r with
          | nil => simp [lookupN]
          | cons m r =>
              by_cases hnm : n = m
              · subst hnm
                cases q with
                | nil =>
                    simp only [removeAt, lookupN, Children.lookup_remove_self] at h
                    simp at h
                | cons y ys =>
                    simp only [removeAt] at h
                    cases hl : cs.lookup n with
                    | none => rw [hl] at h; simp [lookupN, hl] at h
                    | some c =>
                        rw [hl] at h
                        simp only [lookupN, Children.lookup_set_self] at h
                        simp only [lookupN, hl]
                        exact ih c r h
              · cases q with
                | nil =>
                    simp only [removeAt, lookupN,
                      Children.lookup_remove_ne cs n m hnm] at h
                    simpa [lookupN] using h
                | cons y ys =>
                    simp only [removeAt] at h
                    cases hl : cs.lookup n with
                    | none => rw [hl] at h; simpa [lookupN, hl] using h
                    | some c =>
                        rw [hl] at h
                        simp only [lookupN,
                          Children.lookup_set_ne cs n m _ hnm] at h
                        simpa [lookupN] using h

theorem lookupN_setAt_isSome (t : Node) (q r : RelPath) (v : Node)
    (h : (lookupN (setAt t q v) r).isSome = true) :
    (lookupN t r).isSome = true ∨ q <+: r := by
  induction q generalizing t r with
  | nil => exact Or.inr (List.nil_prefix)
  | cons n q ih =>
      cases t with
      | file sz mt => exact Or.inl (by simpa [setAt] using h)
      | link a b c d => exact Or.inl (by simpa [setAt] using h)
      | dir mm cs =>
          cases r with
          | nil => exact Or.inl (by simp [lookupN])
          | cons m r =>
              by_cases hnm : n = m
              · subst hnm
                cases q with
                | nil => exact Or.inr (List.cons_prefix_cons.mpr ⟨rfl, List.nil_prefix⟩)
                | cons y ys =>
                    simp only [setAt] at h
                    cases hl : cs.lookup n with
                    | none =>
                        rw [hl] at h
                        exact Or.inl h
                    | some c =>
                        rw [hl] at h
                        simp only [lookupN, Children.lookup_set_self] at h
                        rcases ih c r h with h2 | h2
                        · exact Or.inl (by simpa [lookupN, hl] using h2)
                        · exact Or.inr (List.cons_prefix_cons.mpr ⟨rfl, h2⟩)
              · cases q with
                | nil =>
                    simp only [setAt, lookupN,
                      Children.lookup_set_ne cs n m v hnm] at h
                    exact Or.inl (by simpa [lookupN] using h)
                | cons y ys =>
                    simp only [setAt] at h
                    cases hl : cs.lookup n with
                    | none =>
                        rw [hl] at h
                        exact Or.inl h
                    | some c =>
                        rw [hl] at h
                        simp only [lookupN,
                          Children.lookup_set_ne cs n m _ hnm] at h
                        exact Or.inl (by simpa [lookupN] using h)

@[simp] theorem lookupN_nil (t : Node) : lookupN t [] = some t := by
  cases t <;> rfl

/-- Full characterization of a successful `mkdirp`: it succeeds when
every already-present prefix entry of the target is a directory, it
preserves every directory's mtime and every non-directory node
exactly, and it makes alive exactly the old entries plus the target's
prefix chain. -/
theorem mkdirp_spec (now : Int) (q : RelPath) (t : Node)
    (hsp : ∀ s n, s <+: q → lookupN t s = some n →
      ∃ dm dcs, n = Node.dir dm dcs) :
    ∃ t2, mkdirp now t q = some t2 ∧
      (∀ r dm dcs, lookupN t r = some (Node.dir dm dcs) →
          ∃ dcs2, lookupN t2 r = some (Node.dir dm dcs2)) ∧
      (∀ r n, lookupN t r = some n → (∀ dm dcs, n ≠ Node.dir dm dcs) →
          lookupN t2 r = some n) ∧
      (∀ r, (lookupN t2 r).isSome = true ↔
        ((lookupN t r).isSome = true ∨ r <+: q)) ∧
      (∀ r, r <+: q → ∃ dm dcs, lookupN t2 r = some (Node.dir dm dcs)) := by
  induction q generalizing t with
  | nil =>
      obtain ⟨dm, dcs, hd⟩ := hsp [] t List.nil_prefix (lookupN_nil t)
      subst hd
      refine ⟨Node.dir dm dcs, by simp [mkdirp, Node.isDirF], ?_, ?_, ?_, ?_⟩
      · intro r dm2 dcs2 h; exact ⟨dcs2, h⟩
      · intro r n h _; exact h
      · intro r
        constructor
        · exact fun h => Or.inl h
        · rintro (h | h)
          · exact h
          · rw [List.prefix_nil] at h; subst h; simp
      · intro r hr
        rw [List.prefix_nil] at hr
        subst hr
        exact ⟨dm, dcs, by simp⟩
  | cons n q ih =>
      obtain ⟨mm, cs, hd⟩ := hsp [] t List.nil_prefix (lookupN_nil t)
      subst hd
      cases hl : cs.lookup n with
      | some c =>
          obtain ⟨dm1, dcs1, hc⟩ := hsp [n] c ⟨q, rfl⟩ (by simp [lookupN, hl])
          subst hc
          have hsp2 : ∀ s ns, s <+: q → lookupN (Node.dir dm1 dcs1) s = some ns →
              ∃ dm dcs, ns = Node.dir dm dcs := by
            intro s ns hpre hlk
            exact hsp (n :: s) ns (List.cons_prefix_cons.mpr ⟨rfl, hpre⟩)
              (by simp [lookupN, hl, hlk])
          obtain ⟨c2, hmk, hcl1, hcl2, hcl3, hcl4⟩ := ih (Node.dir dm1 dcs1) hsp2
          refine ⟨Node.dir mm (cs.set n c2), by simp [mkdirp, hl, hmk], ?_, ?_, ?_, ?_⟩
          · intro r dm dcs hr
            cases r with
            | nil =>
                rw [lookupN_nil] at hr
                injection hr with h1
                injection h1 with h2 h3
                subst h2
                exact ⟨cs.set n c2, lookupN_nil _⟩
            | cons m r =>
                by_cases hnm : n = m
                · subst hnm
                  simp only [lookupN, hl] at hr
                  simp only [lookupN, Children.lookup_set_self]
                  exact hcl1 r dm dcs hr
                · simp only [lookupN, Children.lookup_set_ne cs n m _ hnm]
                  exact ⟨dcs, by simpa only [lookupN] using hr⟩
          · intro r nd hr hnd
            cases r with
            | nil =>
                rw [lookupN_nil] at hr
                injection hr with h1
                exact absurd h1.symm (hnd mm cs)
            | cons m r =>
                by_cases hnm : n = m
                · subst hnm
                  simp only [lookupN, hl] at hr
                  simp only [lookupN, Children.lookup_set_self]
                  exact hcl2 r nd hr hnd
                · simp only [lookupN, Children.lookup_set_ne cs n m _ hnm]
                  simpa only [lookupN] using hr
          · intro r
            cases r with
            | nil => simp
            | cons m r =>
                by_cases hnm : n = m
                · subst hnm
                  simp only [lookupN, Children.lookup_set_self, hl]
                  rw [hcl3 r]
                  constructor
                  · rintro (h | h)
                    · exact Or.inl h
                    · exact Or.inr (List.cons_prefix_cons.mpr ⟨rfl, h⟩)
                  · rintro (h | h)
                    · exact Or.inl h
                    · exact Or.inr ((List.cons_prefix_cons.mp h).2)
                · simp only [lookupN, Children.lookup_set_ne cs n m _ hnm]
                  constructor
                  · exact fun h => Or.inl h
                  · rintro (h | h)
                    · exact h
                    · exact absurd (List.cons_prefix_cons.mp h).1 (fun he => hnm he.symm)
          · intro r hr
            cases r with
            | nil => exact ⟨mm, cs.set n c2, by simp⟩
            | cons m r =>
                have hm := (List.cons_prefix_cons.mp hr).1
                subst hm
                simp only [lookupN, Children.lookup_set_self]
                exact hcl4 r (List.cons_prefix_cons.mp hr).2
      | none =>
          have hsp3 : ∀ s ns, s <+: q → lookupN (Node.dir now Children.nil) s = some ns →
              ∃ dm dcs, ns = Node.dir dm dcs := by
            intro s ns hpre hlk
            cases s with
            | nil =>
                rw [lookupN_nil] at hlk
                injection hlk with h1
                exact ⟨now, Children.nil, h1.symm⟩
            | cons a b => simp [lookupN, Children.lookup] at hlk
          obtain ⟨c2, hmk, hcl1, hcl2, hcl3, hcl4⟩ := ih (Node.dir now Children.nil) hsp3
          refine ⟨Node.dir mm (cs.set n c2), by simp [mkdirp, hl, hmk], ?_, ?_, ?_, ?_⟩
          · intro r dm dcs hr
            cases r with
            | nil =>
                rw [lookupN_nil] at hr
                injection hr with h1
                injection h1 with h2 h3
                subst h2
                exact ⟨cs.set n c2, lookupN_nil _⟩
            | cons m r =>
                by_cases hnm : n = m
                · subst hnm
                  simp only [lookupN, hl] at hr
                  cases hr
                · simp only [lookupN, Children.lookup_set_ne cs n m _ hnm]
                  exact ⟨dcs, by simpa only [lookupN] using hr⟩
          · intro r nd hr hnd
            cases r with
            | nil =>
                rw [lookupN_nil] at hr
                injection hr with h1
                exact absurd h1.symm (hnd mm cs)
            | cons m r =>
                by_cases hnm : n = m
                · subst hnm
                  simp only [lookupN, hl] at hr
                  cases hr
                · simp only [lookupN, Children.lookup_set_ne cs n m _ hnm]
                  simpa only [lookupN] using hr
          · intro r
            cases r with
            | nil => simp
            | cons m r =>
                by_cases hnm : n = m
                · subst hnm
                  simp only [lookupN, Children.lookup_set_self, hl]
                  rw [hcl3 r]
                  constructor
                  · rintro (h | h)
                    · cases r with
                      | nil =>
                          exact Or.inr (List.cons_prefix_cons.mpr
                            ⟨rfl, List.nil_prefix⟩)
                      | cons a b => simp [lookupN, Children.lookup] at h
                    · exact Or.inr (List.cons_prefix_cons.mpr ⟨rfl, h⟩)
                  · rintro (h | h)
                    · simp at h
                    · cases r with
                      | nil => exact Or.inl (by simp)
                      | cons a b =>
                          exact Or.inr ((List.cons_prefix_cons.mp h).2)
                · simp only [lookupN, Children.lookup_set_ne cs n m _ hnm]
                  constructor
                  · exact fun h => Or.inl h
                  · rintro (h | h)
                    · exact h
                    · exact absurd (List.cons_prefix_cons.mp h).1 (fun he => hnm he.symm)
          · intro r hr
            cases r with
            | nil => exact ⟨mm, cs.set n c2, by simp⟩
            | cons m r =>
                have hm := (List.cons_prefix_cons.mp hr).1
                subst hm
                simp only [lookupN, Children.lookup_set_self]
                exact hcl4 r (List.cons_prefix_cons.mp hr).2

/-! ## Preservation of well-formedness and link-freeness -/

theorem Children.lookup_wf (cs : Children) (n : String) (c : Node)
    (hwf : wfC cs = true) (h : cs.lookup n = some c) : wfN c = true := by
  induction cs using Children.indStruct with
  | hnil => simp [Children.lookup] at h
  | hcons m d rest ih =>
      simp only [wfC, Bool.and_eq_true] at hwf
      by_cases hm : m = n
      · subst hm
        simp only [Children.lookup, if_pos rfl] at h
        cases h
        exact hwf.1.2
      · simp only [Children.lookup, if_neg hm] at h
        exact ih hwf.2 h

theorem lookupN_wf (t : Node) (p : RelPath) (n : Node)
    (hwf : wfN t = true) (h : lookupN t p = some n) : wfN n = true := by
  induction p generalizing t with
  | nil => rw [lookupN_nil] at h; cases h; exact hwf
  | cons x p ih =>
      cases t with
      | file sz mt => simp [lookupN] at h
      | link a b c d => simp [lookupN] at h
      | dir m cs =>
          simp only [lookupN] at h
          cases hl : cs.lookup x with
          | none => rw [hl] at h; cases h
          | some c =>
              rw [hl] at h
              exact ih c (Children.lookup_wf cs x c (by simpa [wfN] using hwf) hl) h

theorem Children.lookup_noLinks (cs : Children) (n : String) (c : Node)
    (hnl : noLinksC cs = true) (h : cs.lookup n = some c) : noLinksN c = true := by
  induction cs using Children.indStruct with
  | hnil => simp [Children.lookup] at h
  | hcons m d rest ih =>
      simp only [noLinksC, Bool.and_eq_true] at hnl
      by_cases hm : m = n
      · subst hm
        simp only [Children.lookup, if_pos rfl] at h
        cases h
        exact hnl.1
      · simp only [Children.lookup, if_neg hm] at h
        exact ih hnl.2 h

theorem lookupN_noLinks (t : Node) (p : RelPath) (n : Node)
    (hnl : noLinksN t = true) (h : lookupN t p = some n) : noLinksN n = true := by
  induction p generalizing t with
  | nil => rw [lookupN_nil] at h; cases h; exact hnl
  | cons x p ih =>
      cases t with
      | file sz mt => simp [lookupN] at h
      | link a b c d => simp [lookupN] at h
      | dir m cs =>
          simp only [lookupN] at h
          cases hl : cs.lookup x with
          | none => rw [hl] at h; cases h
          | some c =>
              rw [hl] at h
              exact ih c (Children.lookup_noLinks cs x c (by simpa [noLinksN] using hnl) hl) h

/-- In a link-free tree an entry exists (in the `path.exists()` sense)
iff its lookup succeeds. -/
theorem existsAtF_of_noLinks (t : Node) (p : RelPath)
    (hnl : noLinksN t = true) :
    existsAtF t p = (lookupN t p).isSome := by
  unfold existsAtF
  cases h : lookupN t p with
  | none => rfl
  | some n =>
      have := lookupN_noLinks t p n hnl h
      cases n with
      | file sz mt => rfl
      | link a b c d => simp [noLinksN] at this
      | dir m cs => rfl

theorem Children.names_set (cs : Children) (n : String) (v : Node) :
    (cs.set n v).names = if n ∈ cs.names then cs.names else cs.names ++ [n] := by
  induction cs using Children.indStruct with
  | hnil => simp [Children.set, Children.names]
  | hcons m c rest ih =>
      by_cases hm : m = n
      · subst hm; simp [Children.set, Children.names]
      · simp only [Children.set, if_neg hm, Children.names, ih, List.mem_cons]
        by_cases hn : n ∈ rest.names
        · simp [hn, Ne.symm hm]
        · simp [hn, Ne.symm hm]

theorem Children.mem_names_remove (cs : Children) (n x : String)
    (h : x ∈ (cs.remove n).names) : x ∈ cs.names := by
  induction cs using Children.indStruct with
  | hnil => simpa [Children.remove] using h
  | hcons m c rest ih =>
      by_cases hm : m = n
      · subst hm
        simp only [Children.remove, if_pos rfl] at h
        exact List.mem_cons_of_mem _ (ih h)
      · simp only [Children.remove, if_neg hm, Children.names, List.mem_cons] at h
        rcases h with h | h
        · simp [Children.names, h]
        · exact List.mem_cons_of_mem _ (ih h)

theorem List.contains_eq_false_iff_not_mem {α : Type} [BEq α] [LawfulBEq α]
    (l : List α) (a : α) : l.contains a = false ↔ a ∉ l := by
  rw [← Bool.not_eq_true, List.contains, List.elem_iff]

theorem Children.wf_remove (cs : Children) (n : String)
    (hwf : wfC cs = true) : wfC (cs.remove n) = true := by
  induction cs using Children.indStruct with
  | hnil => simpa [Children.remove] using hwf
  | hcons m c rest ih =>
      simp only [wfC, Bool.and_eq_true] at hwf
      by_cases hm : m = n
      · subst hm
        simp only [Children.remove, if_pos rfl]
        exact ih hwf.2
      · simp only [Children.remove, if_neg hm, wfC, Bool.and_eq_true]
        refine ⟨⟨?_, hwf.1.2⟩, ih hwf.2⟩
        simp only [Bool.not_eq_true', List.contains_eq_false_iff_not_mem] at hwf ⊢
        exact fun hc => hwf.1.1 (Children.mem_names_remove rest n m hc)

theorem Children.wf_set (cs : Children) (n : String) (v : Node)
    (hwf : wfC cs = true) (hv : wfN v = true) : wfC (cs.set n v) = true := by
  induction cs using Children.indStruct with
  | hnil => simp [Children.set, wfC, Children.names, hv]
  | hcons m c rest ih =>
      simp only [wfC, Bool.and_eq_true] at hwf
      by_cases hm : m = n
      · subst hm
        simp only [Children.set, if_pos rfl, wfC, Bool.and_eq_true]
        exact ⟨⟨hwf.1.1, hv⟩, hwf.2⟩
      · simp only [Children.set, if_neg hm, wfC, Bool.and_eq_true]
        refine ⟨⟨?_, hwf.1.2⟩, ih hwf.2⟩
        simp only [Bool.not_eq_true', List.contains_eq_false_iff_not_mem] at hwf ⊢
        intro hc
        rw [Children.names_set] at hc
        by_cases hnr : n ∈ rest.names
        · rw [if_pos hnr] at hc; exact hwf.1.1 hc
        · rw [if_neg hnr] at hc
          rcases List.mem_append.mp hc with hc | hc
          · exact hwf.1.1 hc
          · simp at hc; exact hm hc

theorem Children.noLinks_remove (cs : Children) (n : String)
    (hnl : noLinksC cs = true) : noLinksC (cs.remove n) = true := by
  induction cs using Children.indStruct with
  | hnil => simpa [Children.remove] using hnl
  | hcons m c rest ih =>
      simp only [noLinksC, Bool.and_eq_true] at hnl
      by_cases hm : m = n
      · subst hm
        simp only [Children.remove, if_pos rfl]
        exact ih hnl.2
      · simp only [Children.remove, if_neg hm, noLinksC, Bool.and_eq_true]
        exact ⟨hnl.1, ih hnl.2⟩

theorem Children.noLinks_set (cs : Children) (n : String) (v : Node)
    (hnl : noLinksC cs = true) (hv : noLinksN v = true) :
    noLinksC (cs.set n v) = true := by
  induction cs using Children.indStruct with
  | hnil => simp [Children.set, noLinksC, hv]
  | hcons m c rest ih =>
      simp only [noLinksC, Bool.and_eq_true] at hnl
      by_cases hm : m = n
      · subst hm
        simp only [Children.set, if_pos rfl, noLinksC, Bool.and_eq_true]
        exact ⟨hv, hnl.2⟩
      · simp only [Children.set, if_neg hm, noLinksC, Bool.and_eq_true]
        exact ⟨hnl.1, ih hnl.2⟩

theorem wfN_removeAt (t : Node) (q : RelPath) (hwf : wfN t = true) :
    wfN (removeAt t q) = true := by
  induction q generalizing t with
  | nil => simpa [removeAt] using hwf
  | cons n rest ih =>
      cases t with
      | file sz mt => simpa [removeAt] using hwf
      | link a b c d => simpa [removeAt] using hwf
      | dir m cs =>
          simp only [wfN] at hwf
          cases rest with
          | nil => simpa [removeAt, wfN] using Children.wf_remove cs n hwf
          | cons y ys =>
              simp only [removeAt]
              cases hl : cs.lookup n with
              | none => simpa [wfN] using hwf
              | some c =>
                  simp only [wfN]
                  exact Children.wf_set cs n _ hwf
                    (ih c (Children.lookup_wf cs n c hwf hl))

theorem wfN_setAt (t : Node) (q : RelPath) (v : Node)
    (hwf : wfN t = true) (hv : wfN v = true) : wfN (setAt t q v) = true := by
  induction q generalizing t with
  | nil => simpa [setAt] using hv
  | cons n rest ih =>
      cases t with
      | file sz mt => simpa [setAt] using hwf
      | link a b c d => simpa [setAt] using hwf
      | dir m cs =>
          simp only [wfN] at hwf
          cases rest with
          | nil => simpa [setAt, wfN] using Children.wf_set cs n v hwf hv
          | cons y ys =>
              simp only [setAt]
              cases hl : cs.lookup n with
              | none => simpa [wfN] using hwf
              | some c =>
                  simp only [wfN]
                  exact Children.wf_set cs n _ hwf
                    (ih c (Children.lookup_wf cs n c hwf hl))

theorem noLinksN_removeAt (t : Node) (q : RelPath) (hnl : noLinksN t = true) :
    noLinksN (removeAt t q) = true := by
  induction q generalizing t with
  | nil => simpa [removeAt] using hnl
  | cons n rest ih =>
      cases t with
      | file sz mt => simpa [removeAt] using hnl
      | link a b c d => simpa [removeAt] using hnl
      | dir m cs =>
          simp only [noLinksN] at hnl
          cases rest with
          | nil => simpa [removeAt, noLinksN] using Children.noLinks_remove cs n hnl
          | cons y ys =>
              simp only [removeAt]
              cases hl : cs.lookup n with
              | none => simpa [noLinksN] using hnl
              | some c =>
                  simp only [noLinksN]
                  exact Children.noLinks_set cs n _ hnl
                    (ih c (Children.lookup_noLinks cs n c hnl hl))

theorem noLinksN_setAt (t : Node) (q : RelPath) (v : Node)
    (hnl : noLinksN t = true) (hv : noLinksN v = true) :
    noLinksN (setAt t q v) = true := by
  induction q generalizing t with
  | nil => simpa [setAt] using hv
  | cons n rest ih =>
      cases t with
      | file sz mt => simpa [setAt] using hnl
      | link a b c d => simpa [setAt] using hnl
      | dir m cs =>
          simp only [noLinksN] at hnl
          cases rest with
          | nil => simpa [setAt, noLinksN] using Children.noLinks_set cs n v hnl hv
          | cons y ys =>
              simp only [setAt]
              cases hl : cs.lookup n with
              | none => simpa [noLinksN] using hnl
              | some c =>
                  simp only [noLinksN]
                  exact Children.noLinks_set cs n _ hnl
                    (ih c (Children.lookup_noLinks cs n c hnl hl))

theorem wfN_mkdirp (now : Int) (q : RelPath) :
    ∀ (t t2 : Node), mkdirp now t q = some t2 → wfN t = true → wfN t2 = true := by
  induction q with
  | nil =>
      intro t t2 h hwf
      simp only [mkdirp] at h
      by_cases hd : t.isDirF
      · rw [if_pos hd] at h; cases h; exact hwf
      · rw [if_neg hd] at h; cases h
  | cons n rest ih =>
      intro t t2 h hwf
      cases t with
      | file sz mt => simp [mkdirp] at h
      | link a b c d => simp [mkdirp] at h
      | dir m cs =>
          simp only [wfN] at hwf
          simp only [mkdirp] at h
          cases hl : cs.lookup n with
          | some c =>
              simp only [hl] at h
              cases hmk : mkdirp now c rest with
              | none => simp [hmk] at h
              | some c2 =>
                  simp only [hmk, Option.some.injEq] at h
                  subst h
                  simp only [wfN]
                  exact Children.wf_set cs n c2 hwf
                    (ih c c2 hmk (Children.lookup_wf cs n c hwf hl))
          | none =>
              simp only [hl] at h
              cases hmk : mkdirp now (Node.dir now Children.nil) rest with
              | none => simp [hmk] at h
              | some c2 =>
                  simp only [hmk, Option.some.injEq] at h
                  subst h
                  simp only [wfN]
                  exact Children.wf_set cs n c2 hwf (ih _ c2 hmk (by simp [wfN, wfC]))

theorem noLinksN_mkdirp (now : Int) (q : RelPath) :
    ∀ (t t2 : Node), mkdirp now t q = some t2 → noLinksN t = true →
      noLinksN t2 = true := by
  induction q with
  | nil =>
      intro t t2 h hnl
      simp only [mkdirp] at h
      by_cases hd : t.isDirF
      · rw [if_pos hd] at h; cases h; exact hnl
      · rw [if_neg hd] at h; cases h
  | cons n rest ih =>
      intro t t2 h hnl
      cases t with
      | file sz mt => simp [mkdirp] at h
      | link a b c d => simp [mkdirp] at h
      | dir m cs =>
          simp only [noLinksN] at hnl
          simp only [mkdirp] at h
          cases hl : cs.lookup n with
          | some c =>
              simp only [hl] at h
              cases hmk : mkdirp now c rest with
              | none => simp [hmk] at h
              | some c2 =>
                  simp only [hmk, Option.some.injEq] at h
                  subst h
                  simp only [noLinksN]
                  exact Children.noLinks_set cs n c2 hnl
                    (ih c c2 hmk (Children.lookup_noLinks cs n c hnl hl))
          | none =>
              simp only [hl] at h
              cases hmk : mkdirp now (Node.dir now Children.nil) rest with
              | none => simp [hmk] at h
              | some c2 =>
                  simp only [hmk, Option.some.injEq] at h
                  subst h
                  simp only [noLinksN]
                  exact Children.noLinks_set cs n c2 hnl
                    (ih _ c2 hmk (by simp [noLinksN, noLinksC]))

/-! ## Scanner characterization -/

/-- Paths contributed by one entry start with that entry's name. -/
theorem mem_scanEntry_head (n : String) (c : Node) (q : RelPath)
    (h : q ∈ scanEntry n c) : ∃ r, q = n :: r := by
  cases c with
  | file sz mt => simp only [scanEntry, List.mem_singleton] at h; exact ⟨[], h⟩
  | link a te tid d =>
      by_cases htd : (te && tid) = true
      · simp [scanEntry, htd] at h
      · simp only [scanEntry, if_neg htd, List.mem_singleton] at h
        exact ⟨[], h⟩
  | dir m cs =>
      simp only [scanEntry, List.mem_cons, List.mem_map] at h
      rcases h with h | ⟨r, _, hr⟩
      · exact ⟨[], h⟩
      · exact ⟨r, hr.symm⟩

theorem not_nil_mem_scanChildren (cs : Children) :
    [] ∉ scanChildren cs := by
  induction cs using Children.indStruct with
  | hnil => simp [scanChildren]
  | hcons n c rest ih =>
      simp only [scanChildren, List.mem_append]
      rintro (h | h)
      · obtain ⟨r, hr⟩ := mem_scanEntry_head n c [] h
        cases hr
      · exact ih h

theorem mem_scanChildren_cons (cs : Children) (x : String) (r : RelPath)
    (hwf : wfC cs = true) :
    (x :: r) ∈ scanChildren cs ↔
      ∃ c, cs.lookup x = some c ∧ (x :: r) ∈ scanEntry x c := by
  induction cs using Children.indStruct with
  | hnil => simp [scanChildren, Children.lookup]
  | hcons n c rest ih =>
      simp only [wfC, Bool.and_eq_true] at hwf
      simp only [scanChildren, List.mem_append]
      by_cases hnx : n = x
      · subst hnx
        simp only [Children.lookup, if_pos rfl]
        constructor
        · rintro (h | h)
          · exact ⟨c, rfl, h⟩
          · -- a path starting with n cannot come from the rest: names unique
            exfalso
            obtain ⟨c2, hl2, hm2⟩ : ∃ c2, rest.lookup n = some c2 ∧
                (n :: r) ∈ scanEntry n c2 := (ih hwf.2).mp h
            have : n ∈ rest.names := by
              by_contra hmem
              rw [(Children.lookup_none_iff rest n).mpr hmem] at hl2
              cases hl2
            have hcont := hwf.1.1
            rw [Bool.not_eq_true', List.contains_eq_false_iff_not_mem] at hcont
            exact hcont this
        · rintro ⟨c2, hc2, hm2⟩
          cases hc2
          exact Or.inl hm2
      · simp only [Children.lookup, if_neg hnx]
        constructor
        · rintro (h | h)
          · obtain ⟨r2, hr2⟩ := mem_scanEntry_head n c _ h
            cases hr2
            exact absurd rfl hnx
          · exact (ih hwf.2).mp h
        · intro h
          exact Or.inr ((ih hwf.2).mpr h)

/-- Membership characterization for one entry's contribution. -/
theorem mem_scanEntry_iff (n : String) (c : Node) (r : RelPath) :
    (n :: r) ∈ scanEntry n c ↔
      (match c with
       | Node.file _ _ => r = []
       | Node.link _ te tid _ => r = [] ∧ ¬(te = true ∧ tid = true)
       | Node.dir _ cs => r = [] ∨ r ∈ scanChildren cs) := by
  cases c with
  | file sz mt => simp [scanEntry]
  | link a te tid d =>
      by_cases htd : (te && tid) = true
      · rw [Bool.and_eq_true] at htd
        simp [scanEntry, htd, Bool.and_eq_true]
      · rw [Bool.and_eq_true] at htd
        simp only [scanEntry, Bool.and_eq_true, if_neg htd, List.mem_singleton,
          List.cons.injEq, true_and]
        constructor
        · exact fun h => ⟨h, htd⟩
        · exact fun h => h.1
  | dir m cs =>
      simp only [scanEntry, List.mem_cons, List.cons.injEq, true_and,
        List.mem_map]
      constructor
      · rintro (h | ⟨q, hq, hq2⟩)
        · exact Or.inl h
        · subst hq2
          exact Or.inr hq
      · rintro (h | h)
        · exact Or.inl h
        · exact Or.inr ⟨r, h, rfl⟩

/-- The walk of a well-formed directory collects exactly the nonempty
relative paths whose entry resolves and is not a symlink to a
directory. -/
theorem mem_scanChildren_iff_lookup (p : RelPath) :
    ∀ (m : Int) (cs : Children), wfC cs = true →
      (p ∈ scanChildren cs ↔
        p ≠ [] ∧ ∃ n, lookupN (Node.dir m cs) p = some n ∧ visibleEntry n) := by
  induction p with
  | nil =>
      intro m cs hwf
      constructor
      · intro h
        exact absurd h (not_nil_mem_scanChildren cs)
      · rintro ⟨h, -⟩
        exact absurd rfl h
  | cons x r ih =>
      intro m cs hwf
      rw [mem_scanChildren_cons cs x r hwf]
      constructor
      · rintro ⟨c, hl, hm⟩
        rw [mem_scanEntry_iff] at hm
        refine ⟨by simp, ?_⟩
        cases c with
        | file sz mt =>
            subst hm
            exact ⟨Node.file sz mt, by simp [lookupN, hl], by
              simp [visibleEntry, Node.isSymlinkB]⟩
        | link a te tid d =>
            obtain ⟨hr, htd⟩ := hm
            subst hr
            refine ⟨Node.link a te tid d, by simp [lookupN, hl], ?_⟩
            simp only [visibleEntry, Node.isSymlinkB, Node.isDirF, true_and]
            rw [Bool.and_eq_true]
            exact htd
        | dir m2 cs2 =>
            rcases hm with hr | hr
            · subst hr
              exact ⟨Node.dir m2 cs2, by simp [lookupN, hl], by
                simp [visibleEntry, Node.isSymlinkB]⟩
            · have hwf2 : wfC cs2 = true := by
                have := Children.lookup_wf cs x _ hwf hl
                simpa [wfN] using this
              obtain ⟨-, n, hn, hv⟩ := (ih m2 cs2 hwf2).mp hr
              exact ⟨n, by simp [lookupN, hl]; exact hn, hv⟩
      · rintro ⟨-, n, hn, hv⟩
        simp only [lookupN] at hn
        cases hl : cs.lookup x with
        | none => simp [hl] at hn
        | some c =>
            simp only [hl] at hn
            refine ⟨c, rfl, ?_⟩
            rw [mem_scanEntry_iff]
            cases c with
            | file sz mt =>
                cases r with
                | nil => rfl
                | cons y ys => simp [lookupN] at hn
            | link a te tid d =>
                cases r with
                | nil =>
                    rw [lookupN_nil] at hn
                    cases hn
                    refine ⟨rfl, ?_⟩
                    simpa [visibleEntry, Node.isSymlinkB, Node.isDirF,
                      Bool.and_eq_true] using hv
                | cons y ys => simp [lookupN] at hn
            | dir m2 cs2 =>
                cases r with
                | nil => exact Or.inl rfl
                | cons y ys =>
                    refine Or.inr ?_
                    have hwf2 : wfC cs2 = true := by
                      have := Children.lookup_wf cs x _ hwf hl
                      simpa [wfN] using this
                    exact (ih m2 cs2 hwf2).mpr ⟨by simp, n, hn, hv⟩

/-- `get_relative_paths` membership: the characterization above, for
a well-formed directory root. -/
theorem mem_get_relative_paths (m : Int) (cs : Children) (p : RelPath)
    (hwf : wfC cs = true) :
    p ∈ get_relative_paths (Node.dir m cs) ↔
      p ≠ [] ∧ ∃ n, lookupN (Node.dir m cs) p = some n ∧ visibleEntry n := by
  unfold get_relative_paths
  rw [List.mem_dedup]
  exact mem_scanChildren_iff_lookup p m cs hwf

/-! ## Rendered-path and exclusion lemmas -/

theorem infixB_iff (pat s : List Char) :
    infixB pat s = true ↔ pat <:+: s := by
  induction s with
  | nil =>
      simp only [infixB, List.isEmpty_iff, List.infix_nil]
  | cons a s2 ih =>
      simp only [infixB, Bool.or_eq_true, List.isPrefixOf_iff_prefix, ih,
        List.infix_cons_iff]

theorem pathStr_singleton (n : String) : pathStr [n] = n := rfl

theorem pathStr_cons_cons (x y : String) (ys : List String) :
    pathStr (x :: y :: ys) = x ++ "/" ++ pathStr (y :: ys) := rfl

/-- The rendered form of a nonempty ancestor is a string prefix of the
rendered form of any extension. -/
theorem pathStr_prefix_mono (p q : RelPath) (hne : p ≠ []) (hpre : p <+: q) :
    (pathStr p).data <+: (pathStr q).data := by
  induction p generalizing q with
  | nil => exact absurd rfl hne
  | cons x p ih =>
      obtain ⟨ext, hext⟩ := hpre
      subst hext
      cases p with
      | nil =>
          cases ext with
          | nil => simp
          | cons y ys =>
              rw [List.singleton_append, pathStr_cons_cons, pathStr_singleton]
              simp only [String.data_append]
              exact ⟨"/".data ++ (pathStr (y :: ys)).data, by simp⟩
      | cons z zs =>
          have hq : (z :: zs) ++ ext = z :: (zs ++ ext) := rfl
          rw [List.cons_append, hq, pathStr_cons_cons, pathStr_cons_cons, ← hq]
          simp only [String.data_append]
          rw [List.append_assoc, List.append_assoc]
          exact (List.prefix_append_right_inj _).mpr
            ((List.prefix_append_right_inj _).mpr
              (ih ((z :: zs) ++ ext) (by simp) (List.prefix_append _ _)))

/-- Downward closure of the substring-based exclusion filter: an
excluded path excludes its whole subtree. -/
theorem excludedBy_closure (excl : List String) (p q : RelPath)
    (hne : p ≠ []) (hpre : p <+: q) (h : excludedBy excl p = true) :
    excludedBy excl q = true := by
  simp only [excludedBy, List.any_eq_true] at h ⊢
  obtain ⟨pat, hmem, hc⟩ := h
  refine ⟨pat, hmem, ?_⟩
  rw [strContains, infixB_iff] at hc ⊢
  exact hc.trans (pathStr_prefix_mono p q hne hpre).isInfix

/-! ## Sorting lemmas -/

theorem mem_insertLe (le : RelPath → RelPath → Bool) (p q : RelPath)
    (l : List RelPath) : q ∈ insertLe le p l ↔ q = p ∨ q ∈ l := by
  induction l with
  | nil => simp [insertLe]
  | cons x xs ih =>
      simp only [insertLe]
      by_cases h : le p x = true
      · simp [h]
      · simp only [if_neg h, List.mem_cons, ih]
        tauto

theorem mem_isortLe (le : RelPath → RelPath → Bool) (p : RelPath)
    (l : List RelPath) : p ∈ isortLe le l ↔ p ∈ l := by
  induction l with
  | nil => simp [isortLe]
  | cons x xs ih =>
      simp only [isortLe, mem_insertLe, ih, List.mem_cons]

theorem pairwise_insertLe (le : RelPath → RelPath → Bool)
    (htot : ∀ a b, le a b = true ∨ le b a = true)
    (htrans : ∀ a b c, le a b = true → le b c = true → le a c = true)
    (p : RelPath) (l : List RelPath)
    (h : l.Pairwise (fun a b => le a b = true)) :
    (insertLe le p l).Pairwise (fun a b => le a b = true) := by
  induction l with
  | nil => simp [insertLe]
  | cons x xs ih =>
      rcases List.pairwise_cons.mp h with ⟨hx, hxs⟩
      by_cases hle : le p x = true
      · simp only [insertLe, if_pos hle]
        refine List.pairwise_cons.mpr ⟨?_, h⟩
        intro b hb
        rcases List.mem_cons.mp hb with hb | hb
        · exact hb ▸ hle
        · exact htrans p x b hle (hx b hb)
      · simp only [insertLe, if_neg hle]
        refine List.pairwise_cons.mpr ⟨?_, ih hxs⟩
        intro b hb
        rcases (mem_insertLe le p b xs).mp hb with hb | hb
        · rw [hb]
          rcases htot p x with hpx | hxp
          · exact absurd hpx hle
          · exact hxp
        · exact hx b hb

theorem pairwise_isortLe (le : RelPath → RelPath → Bool)
    (htot : ∀ a b, le a b = true ∨ le b a = true)
    (htrans : ∀ a b c, le a b = true → le b c = true → le a c = true)
    (l : List RelPath) :
    (isortLe le l).Pairwise (fun a b => le a b = true) := by
  induction l with
  | nil => simp [isortLe]
  | cons x xs ih =>
      simp only [isortLe]
      exact pairwise_insertLe le htot htrans x (isortLe le xs) ih

theorem depthGe_total (a b : RelPath) : depthGe a b = true ∨ depthGe b a = true := by
  simp only [depthGe, decide_eq_true_eq]
  omega

theorem depthGe_trans (a b c : RelPath) (h1 : depthGe a b = true)
    (h2 : depthGe b c = true) : depthGe a c = true := by
  simp only [depthGe, decide_eq_true_eq] at h1 h2 ⊢
  omega

theorem sorted_deletes_pairwise (l : List RelPath) :
    (sorted_deletes l).Pairwise (fun a b => b.length ≤ a.length) := by
  have := pairwise_isortLe depthGe depthGe_total depthGe_trans l
  refine this.imp ?_
  intro a b h
  simpa [depthGe] using h

/-! ## Claim C5: size/time tolerance law -/

/-- C5: when the destination exists, is not a symlink, and both
`lstat`s succeed (stats never fail in the model), `should_copy`
returns true iff the sizes differ or the absolute mtime difference
strictly exceeds the tolerance; in particular equal sizes within
tolerance give false, and a 1-byte size change or a past-tolerance
mtime change flips it to true. -/
theorem C5_should_copy_tolerance_law (s d : Node) (tol : Int)
    (hns : d.isSymlinkB = false) (hex : d.existsF = true) :
    should_copy s (some d) tol = true ↔
      (s.lstatSize ≠ d.lstatSize ∨ tol < |s.lstatMtime - d.lstatMtime|) := by
  cases d with
  | link a te tid mt => simp [Node.isSymlinkB] at hns
  | file sz mt =>
      by_cases h1 : s.lstatSize ≠ (Node.file sz mt).lstatSize
      · simp [should_copy, Node.existsF, Node.isSymlinkB, h1]
      · by_cases h2 : tol < |s.lstatMtime - (Node.file sz mt).lstatMtime|
        · simp [should_copy, Node.existsF, Node.isSymlinkB, h1, h2]
        · simp [should_copy, Node.existsF, Node.isSymlinkB, h1, h2]
  | dir m cs =>
      by_cases h1 : s.lstatSize ≠ (Node.dir m cs).lstatSize
      · simp [should_copy, Node.existsF, Node.isSymlinkB, h1]
      · by_cases h2 : tol < |s.lstatMtime - (Node.dir m cs).lstatMtime|
        · simp [should_copy, Node.existsF, Node.isSymlinkB, h1, h2]
        · simp [should_copy, Node.existsF, Node.isSymlinkB, h1, h2]

theorem C5_should_copy_tolerance_law_witness :
    (Node.file 5 1).isSymlinkB = false ∧ (Node.file 5 1).existsF = true ∧
      (should_copy (Node.file 5 0) (some (Node.file 5 1)) 2 = true ↔
        ((Node.file 5 0).lstatSize ≠ (Node.file 5 1).lstatSize ∨
          2 < |(Node.file 5 0).lstatMtime - (Node.file 5 1).lstatMtime|)) :=
  ⟨rfl, rfl, C5_should_copy_tolerance_law (Node.file 5 0) (Node.file 5 1) 2 rfl rfl⟩

/-! ## Claim C6: diff and exclusion semantics -/

/-- C6: the reconciler keeps exactly the source paths that contain no
exclusion pattern as a substring of their rendered form (the
destination scan is used as-is), and the deletion candidates are
exactly the destination paths missing from the filtered source set. -/
theorem C6_diff_and_exclusion (src : Node) (excl : List String)
    (destPaths : List RelPath) :
    (∀ p, p ∈ filtered_source src excl ↔
        (p ∈ get_relative_paths src ∧
          ∀ pat ∈ excl, ¬ (pat.data <:+: (pathStr p).data))) ∧
    (∀ q, q ∈ paths_to_delete destPaths (filtered_source src excl) ↔
        (q ∈ destPaths ∧ q ∉ filtered_source src excl)) := by
  constructor
  · intro p
    unfold filtered_source
    by_cases he : excl = []
    · subst he
      simp
    · rw [if_neg he, List.mem_filter]
      simp [excludedBy, strContains, infixB_iff]
  · intro q
    unfold paths_to_delete
    rw [List.mem_filter]
    rw [Bool.not_eq_true', List.contains_eq_false_iff_not_mem]

theorem C6_diff_and_exclusion_witness :
    (["a", "b.txt"] ∈ filtered_source
        (Node.dir 10 (Children.cons "a"
          (Node.dir 11 (Children.cons "b.txt" (Node.file 512 50) Children.nil))
          Children.nil)) ["zzz"] ↔
      (["a", "b.txt"] ∈ get_relative_paths
          (Node.dir 10 (Children.cons "a"
            (Node.dir 11 (Children.cons "b.txt" (Node.file 512 50) Children.nil))
            Children.nil)) ∧
        ∀ pat ∈ ["zzz"], ¬ (pat.data <:+: (pathStr ["a", "b.txt"]).data))) :=
  (C6_diff_and_exclusion
    (Node.dir 10 (Children.cons "a"
      (Node.dir 11 (Children.cons "b.txt" (Node.file 512 50) Children.nil))
      Children.nil)) ["zzz"] []).1 ["a", "b.txt"]

/-! ## Claim C10: exclusion filtering is downward closed -/

/-- C10: if an exclusion pattern rejects a path `p`, it rejects every
extension of `p` (the rendered form of the extension contains that of
`p`); consequently the whole destination subtree below an excluded
path is a deletion candidate. -/
theorem C10_exclusion_downward_closed (excl : List String) :
    (∀ p q : RelPath, p ≠ [] → p <+: q →
        excludedBy excl p = true → excludedBy excl q = true) ∧
    (∀ (src : Node) (destPaths : List RelPath) (p q : RelPath),
        p ≠ [] → p <+: q → excludedBy excl p = true → q ∈ destPaths →
        q ∈ paths_to_delete destPaths (filtered_source src excl)) := by
  constructor
  · exact fun p q hne hpre h => excludedBy_closure excl p q hne hpre h
  · intro src destPaths p q hne hpre h hq
    unfold paths_to_delete
    rw [List.mem_filter]
    refine ⟨hq, ?_⟩
    rw [Bool.not_eq_true', List.contains_eq_false_iff_not_mem]
    intro hmem
    have hqex : excludedBy excl q = true := excludedBy_closure excl p q hne hpre h
    unfold filtered_source at hmem
    by_cases he : excl = []
    · subst he
      simp [excludedBy] at hqex
    · rw [if_neg he, List.mem_filter] at hmem
      rw [hqex] at hmem
      simp at hmem

theorem C10_exclusion_downward_closed_witness :
    (["a"] : RelPath) ≠ [] ∧ (["a"] : RelPath) <+: ["a", "b"] ∧
      excludedBy ["a"] ["a"] = true ∧ excludedBy ["a"] ["a", "b"] = true :=
  ⟨by decide, ⟨["b"], rfl⟩, by decide,
    (C10_exclusion_downward_closed ["a"]).1 ["a"] ["a", "b"] (by decide)
      ⟨["b"], rfl⟩ (by decide)⟩

/-! ## Claim C9: validation atomicity -/

/-- C9: if the source is missing or not a directory, the destination
equals the source, or either path lies inside the other, the run stops
with `sys.exit(1)` before any filesystem operation: the reported
destination state is the input state, all counters are zero, and the
exit flag is set (the model performs no I/O before these checks, in
the order of lines 135-154). -/
theorem C9_validation_atomicity (a : SyncArgs)
    (h : a.sourceState = none ∨
      (∃ s, a.sourceState = some s ∧ (s.existsF = false ∨ s.isDirF = false)) ∨
      a.destPath = a.sourcePath ∨
      is_path_inside a.destPath a.sourcePath = true ∨
      is_path_inside a.sourcePath a.destPath = true) :
    sync_directories a = ⟨a.destState, 0, 0, 0, 0, true⟩ := by
  have hv : validation_error a = true := by
    unfold validation_error
    cases hss : a.sourceState with
    | none => rfl
    | some s =>
        dsimp only
        split_ifs with h1 h2 h3 h4 h5
        · rfl
        · rfl
        · rfl
        · rfl
        · rfl
        · exfalso
          rcases h with h | ⟨s2, hs2, h8⟩ | h | h | h
          · rw [hss] at h; cases h
          · rw [hss] at hs2
            injection hs2 with he
            subst he
            rcases h8 with h8 | h8
            · simp [h8] at h1
            · simp [h8] at h2
          · exact h3 h
          · exact h4 h
          · exact h5 h
  unfold sync_directories
  simp [hv]

theorem C9_validation_atomicity_witness :
    sync_directories
      { sourcePath := ["r", "src"], destPath := ["r", "src", "sub"],
        sourceState := some (Node.dir 0 Children.nil),
        destState := some (Node.dir 7 Children.nil),
        excludePatterns := [], timeTolerance := 2, dryRun := false,
        now := 0 } =
      ⟨some (Node.dir 7 Children.nil), 0, 0, 0, 0, true⟩ :=
  C9_validation_atomicity _
    (Or.inr (Or.inr (Or.inr (Or.inl (by decide)))))

/-! ## Claim C7: depth-descending deletion order -/

/-- C7: the sorted deletion-candidate list is ordered by non-increasing
path depth and contains exactly the candidates; consequently any
candidate strictly deeper than another is attempted strictly earlier,
and every candidate is attempted before any of its proper ancestors. -/
theorem C7_depth_descending_order (l : List RelPath) :
    (∀ q, q ∈ sorted_deletes l ↔ q ∈ l) ∧
    (sorted_deletes l).Pairwise (fun p q => q.length ≤ p.length) ∧
    (∀ i j (hi : i < (sorted_deletes l).length)
        (hj : j < (sorted_deletes l).length),
        ((sorted_deletes l).get ⟨j, hj⟩).length <
          ((sorted_deletes l).get ⟨i, hi⟩).length → i < j) ∧
    (∀ i j (hi : i < (sorted_deletes l).length)
        (hj : j < (sorted_deletes l).length),
        (sorted_deletes l).get ⟨j, hj⟩ ≠ (sorted_deletes l).get ⟨i, hi⟩ →
        (sorted_deletes l).get ⟨j, hj⟩ <+: (sorted_deletes l).get ⟨i, hi⟩ →
        i < j) := by
  have hpw := sorted_deletes_pairwise l
  have hget := List.pairwise_iff_get.mp hpw
  refine ⟨fun q => mem_isortLe depthGe q l, hpw, ?_, ?_⟩
  · intro i j hi hj hlen
    by_contra hij
    push_neg at hij
    rcases Nat.lt_or_ge j i with hji | hji
    · have := hget ⟨j, hj⟩ ⟨i, hi⟩ hji
      omega
    · have : i = j := by omega
      subst this
      omega
  · intro i j hi hj hne hpre
    have hlt : ((sorted_deletes l).get ⟨j, hj⟩).length <
        ((sorted_deletes l).get ⟨i, hi⟩).length := by
      rcases Nat.lt_or_ge ((sorted_deletes l).get ⟨j, hj⟩).length
          ((sorted_deletes l).get ⟨i, hi⟩).length with hlt | hge
      · exact hlt
      · exfalso
        have hle := hpre.length_le
        have : ((sorted_deletes l).get ⟨j, hj⟩).length =
            ((sorted_deletes l).get ⟨i, hi⟩).length := by omega
        exact hne (List.IsPrefix.eq_of_length hpre this)
    by_contra hij
    push_neg at hij
    rcases Nat.lt_or_ge j i with hji | hji
    · have := hget ⟨j, hj⟩ ⟨i, hi⟩ hji
      omega
    · have : i = j := by omega
      subst this
      omega

/-! ## Claim C4: scanner treatment of symlinks -/

/-- C4 counterexample: `"s"` is a symlink entry of the root (its
target an existing directory), yet the scan omits it entirely —
`os.walk` places it in `dirnames` and, with `follow_symlinks=False`,
never visits it, so no branch records it. -/
theorem C4_counterexample :
    lookupN c4root ["s"] = some (Node.link "x" true true 5) ∧
    (Node.link "x" true true 5).isSymlinkB = true ∧
    ["s"] ∉ get_relative_paths c4root :=
  ⟨rfl, rfl, by decide⟩

/-- C4 amended: the scan of a well-formed root contains exactly the
nonempty relative paths of entries that are directories, files, or
symlinks not resolving to a directory; symlinks whose target is a
directory are omitted entirely (not merely not descended into). -/
theorem C4_amended_scan_characterization (m : Int) (cs : Children)
    (p : RelPath) (hwf : wfC cs = true) :
    p ∈ get_relative_paths (Node.dir m cs) ↔
      (p ≠ [] ∧ ∃ n, lookupN (Node.dir m cs) p = some n ∧
        ¬(n.isSymlinkB = true ∧ n.isDirF = true)) := by
  simpa [visibleEntry] using mem_get_relative_paths m cs p hwf

theorem C4_amended_scan_characterization_witness :
    wfC (Children.cons "a" (Node.file 1 2) Children.nil) = true ∧
      (["a"] ∈ get_relative_paths
          (Node.dir 0 (Children.cons "a" (Node.file 1 2) Children.nil)) ↔
        ((["a"] : RelPath) ≠ [] ∧ ∃ n,
          lookupN (Node.dir 0 (Children.cons "a" (Node.file 1 2) Children.nil))
              ["a"] = some n ∧
            ¬(n.isSymlinkB = true ∧ n.isDirF = true))) :=
  ⟨by decide, C4_amended_scan_characterization 0
    (Children.cons "a" (Node.file 1 2) Children.nil) ["a"] (by decide)⟩

/-! ## Delete-phase lemmas -/

theorem lookupN_below_removable (t : Node) (q p : RelPath) (n : Node)
    (hq : lookupN t q = some n) (hrem : removableNode n)
    (hpre : q <+: p) (hne : q ≠ p) :
    lookupN t p = none := by
  obtain ⟨ext, hext⟩ := hpre
  cases ext with
  | nil => exact absurd (by simpa using hext) hne
  | cons x ext2 =>
      subst hext
      rw [lookupN_append, hq]
      rcases hrem with hnd | ⟨dm, hdm⟩
      · cases n with
        | file sz mt => rfl
        | link a b c d => rfl
        | dir dm dcs => exact absurd rfl (hnd dm dcs)
      · subst hdm
        simp [lookupN, Children.lookup]

/-- Removing a removable entry changes the aliveness of no other
path. -/
theorem alive_removeAt (t : Node) (q p : RelPath) (n : Node)
    (hq : lookupN t q = some n) (hrem : removableNode n) (hne : p ≠ q) :
    (lookupN (removeAt t q) p).isSome = (lookupN t p).isSome := by
  by_cases hq0 : q = []
  · subst hq0
    simp [removeAt]
  · by_cases h1 : q <+: p
    · have hbelow := lookupN_below_removable t q p n hq hrem h1 (Ne.symm hne)
      have hafter : lookupN (removeAt t q) p = none := by
        obtain ⟨ext, hext⟩ := h1
        cases ext with
        | nil => exact absurd (by simpa using hext) (Ne.symm hne)
        | cons x ext2 =>
            subst hext
            rw [lookupN_append, lookupN_removeAt_self t q hq0]
            rfl
      rw [hafter, hbelow]
    · by_cases h2 : p <+: q
      · obtain ⟨ext, hext⟩ := h2
        cases ext with
        | nil => exact absurd (by simpa using hext) hne
        | cons x ext2 =>
            obtain ⟨dm, dcs, hdm⟩ := lookupN_prefix_dir t p x ext2 n
              (by rw [hext]; exact hq)
            obtain ⟨dcs2, hdm2⟩ := lookupN_removeAt_prefix_dir t q p
              ⟨x :: ext2, hext⟩ hne dm dcs hdm
            simp [hdm, hdm2]
      · rw [lookupN_removeAt_disjoint t q p h1 h2]

/-- Removing a removable entry preserves every other non-directory
entry exactly. -/
theorem nondir_removeAt (t : Node) (q p : RelPath) (n v : Node)
    (hq : lookupN t q = some n) (hrem : removableNode n) (hne : p ≠ q)
    (hv : lookupN t p = some v) (hvnd : ∀ dm dcs, v ≠ Node.dir dm dcs) :
    lookupN (removeAt t q) p = some v := by
  by_cases h1 : q <+: p
  · have := lookupN_below_removable t q p n hq hrem h1 (Ne.symm hne)
    rw [this] at hv
    cases hv
  · by_cases h2 : p <+: q
    · obtain ⟨ext, hext⟩ := h2
      cases ext with
      | nil => exact absurd (by simpa using hext) hne
      | cons x ext2 =>
          obtain ⟨dm, dcs, hdm⟩ := lookupN_prefix_dir t p x ext2 n
            (by rw [hext]; exact hq)
          rw [hdm] at hv
          cases hv
          exact absurd rfl (hvnd dm dcs)
    · rw [lookupN_removeAt_disjoint t q p h1 h2]
      exact hv

/-- Removing a removable entry preserves every other directory entry's
existence, mtime and dir-ness. -/
theorem dir_removeAt (t : Node) (q p : RelPath) (n : Node) (dm : Int)
    (dcs : Children)
    (hq : lookupN t q = some n) (hrem : removableNode n) (hne : p ≠ q)
    (hv : lookupN t p = some (Node.dir dm dcs)) :
    ∃ dcs2, lookupN (removeAt t q) p = some (Node.dir dm dcs2) := by
  by_cases h1 : q <+: p
  · have := lookupN_below_removable t q p n hq hrem h1 (Ne.symm hne)
    rw [this] at hv
    cases hv
  · by_cases h2 : p <+: q
    · exact lookupN_removeAt_prefix_dir t q p h2 hne dm dcs hv
    · rw [lookupN_removeAt_disjoint t q p h1 h2]
      exact ⟨dcs, hv⟩

theorem Children.exists_lookup_isSome_of_not_nil (cs : Children)
    (h : cs.isNil = false) : ∃ x, (cs.lookup x).isSome = true := by
  cases cs with
  | nil => simp [Children.isNil] at h
  | cons n c rest => exact ⟨n, by simp [Children.lookup]⟩

/-- Master description of the non-dry delete loop over depth-sorted,
duplicate-free candidates: nothing outside the candidate list changes
aliveness; non-directory entries outside the list are preserved
exactly, directory entries keep their dir-ness and mtime; candidate
files/symlinks are removed; a candidate directory survives iff it
still has a child in the final tree (the `rmdir`-only-if-empty
policy, applied deepest first). -/
theorem deleteFold_spec (cands : List RelPath) :
    ∀ (t : Node) (c : Nat),
    cands.Pairwise (fun a b => b.length ≤ a.length) →
    cands.Nodup →
    [] ∉ cands →
    (∀ p, (lookupN ((cands.foldl (delStep false) (t, c)).1) p).isSome = true →
        (lookupN t p).isSome = true) ∧
    (∀ p, p ∉ cands →
        ((lookupN ((cands.foldl (delStep false) (t, c)).1) p).isSome =
          (lookupN t p).isSome)) ∧
    (∀ p v, p ∉ cands → lookupN t p = some v →
        (∀ dm dcs, v ≠ Node.dir dm dcs) →
        lookupN ((cands.foldl (delStep false) (t, c)).1) p = some v) ∧
    (∀ p dm dcs, p ∉ cands → lookupN t p = some (Node.dir dm dcs) →
        ∃ dcs2, lookupN ((cands.foldl (delStep false) (t, c)).1) p =
          some (Node.dir dm dcs2)) ∧
    (∀ p v, p ∈ cands → lookupN t p = some v →
        (∀ dm dcs, v ≠ Node.dir dm dcs) →
        lookupN ((cands.foldl (delStep false) (t, c)).1) p = none) ∧
    (∀ p dm dcs, p ∈ cands → lookupN t p = some (Node.dir dm dcs) →
        ((lookupN ((cands.foldl (delStep false) (t, c)).1) p).isSome = true ↔
          ∃ x, (lookupN ((cands.foldl (delStep false) (t, c)).1)
            (p ++ [x])).isSome = true)) := by
  induction cands with
  | nil =>
      intro t c _ _ _
      refine ⟨fun p h => h, fun p _ => rfl, fun p v _ hv _ => hv,
        fun p dm dcs _ hv => ⟨dcs, hv⟩, fun p v hp => absurd hp (by simp),
        fun p dm dcs hp => absurd hp (by simp)⟩
  | cons q rest ih =>
      intro t c hsort hnodup hnn
      rcases List.pairwise_cons.mp hsort with ⟨hqlen, hsort2⟩
      rcases List.nodup_cons.mp hnodup with ⟨hqrest, hnodup2⟩
      have hqne : q ≠ [] := fun h => hnn (h ▸ List.mem_cons_self q rest)
      have hnn2 : [] ∉ rest := fun h => hnn (List.mem_cons_of_mem q h)
      -- characterize the first step
      obtain ⟨t1, c1, hstep, hrel⟩ :
          ∃ t1 c1, delStep false (t, c) q = (t1, c1) ∧
            (t1 = t ∨
             ∃ n, lookupN t q = some n ∧ removableNode n ∧ t1 = removeAt t q) := by
        unfold delStep
        cases hlq : lookupN t q with
        | none => exact ⟨t, c, rfl, Or.inl rfl⟩
        | some n =>
            cases n with
            | dir dm dcs =>
                cases hnil : dcs.isNil with
                | true =>
                    refine ⟨removeAt t q, c + 1, by simp [hnil], Or.inr ?_⟩
                    refine ⟨Node.dir dm dcs, rfl, Or.inr ⟨dm, ?_⟩, rfl⟩
                    cases dcs with
                    | nil => rfl
                    | cons a b r => simp [Children.isNil] at hnil
                | false => exact ⟨t, c, by simp [hnil], Or.inl rfl⟩
            | file sz mt =>
                exact ⟨removeAt t q, c + 1, rfl,
                  Or.inr ⟨Node.file sz mt, rfl, Or.inl (by intro dm dcs h; cases h),
                    rfl⟩⟩
            | link a b cc d =>
                exact ⟨removeAt t q, c + 1, rfl,
                  Or.inr ⟨Node.link a b cc d, rfl, Or.inl (by intro dm dcs h; cases h),
                    rfl⟩⟩
      have hfold : (q :: rest).foldl (delStep false) (t, c) =
          rest.foldl (delStep false) (t1, c1) := by
        rw [List.foldl_cons, hstep]
      obtain ⟨ih1, ih2, ih3, ih4, ih5, ih6⟩ := ih t1 c1 hsort2 hnodup2 hnn2
      -- aliveness transfer from t to t1 for paths other than q
      have halive1 : ∀ p, p ≠ q →
          (lookupN t1 p).isSome = (lookupN t p).isSome := by
        intro p hpq
        rcases hrel with h | ⟨n, hn, hrem, h⟩
        · rw [h]
        · rw [h]; exact alive_removeAt t q p n hn hrem hpq
      have hnondir1 : ∀ p v, p ≠ q → lookupN t p = some v →
          (∀ dm dcs, v ≠ Node.dir dm dcs) → lookupN t1 p = some v := by
        intro p v hpq hv hvnd
        rcases hrel with h | ⟨n, hn, hrem, h⟩
        · rw [h]; exact hv
        · rw [h]; exact nondir_removeAt t q p n v hn hrem hpq hv hvnd
      have hdir1 : ∀ p dm dcs, p ≠ q → lookupN t p = some (Node.dir dm dcs) →
          ∃ dcs2, lookupN t1 p = some (Node.dir dm dcs2) := by
        intro p dm dcs hpq hv
        rcases hrel with h | ⟨n, hn, hrem, h⟩
        · rw [h]; exact ⟨dcs, hv⟩
        · rw [h]; exact dir_removeAt t q p n dm dcs hn hrem hpq hv
      have halive1' : ∀ p, (lookupN t1 p).isSome = true →
          (lookupN t p).isSome = true := by
        intro p hp
        rcases hrel with h | ⟨n, hn, hrem, h⟩
        · rw [h] at hp; exact hp
        · rw [h] at hp; exact lookupN_removeAt_isSome t q p hp
      rw [hfold]
      refine ⟨?_, ?_, ?_, ?_, ?_, ?_⟩
      · intro p hp
        exact halive1' p (ih1 p hp)
      · intro p hp
        have hpq : p ≠ q := fun h => hp (h ▸ List.mem_cons_self q rest)
        have hprest : p ∉ rest := fun h => hp (List.mem_cons_of_mem q h)
        rw [ih2 p hprest, halive1 p hpq]
      · intro p v hp hv hvnd
        have hpq : p ≠ q := fun h => hp (h ▸ List.mem_cons_self q rest)
        have hprest : p ∉ rest := fun h => hp (List.mem_cons_of_mem q h)
        exact ih3 p v hprest (hnondir1 p v hpq hv hvnd) hvnd
      · intro p dm dcs hp hv
        have hpq : p ≠ q := fun h => hp (h ▸ List.mem_cons_self q rest)
        have hprest : p ∉ rest := fun h => hp (List.mem_cons_of_mem q h)
        obtain ⟨dcs2, h2⟩ := hdir1 p dm dcs hpq hv
        exact ih4 p dm dcs2 hprest h2
      · intro p v hp hv hvnd
        rcases List.mem_cons.mp hp with hpq | hprest
        · subst hpq
          -- the head candidate with a non-directory entry is unlinked
          have ht1 : lookupN t1 p = none := by
            rcases hrel with h | ⟨n, hn, hrem, h⟩
            · -- the step left the tree unchanged: impossible, the entry
              -- exists and is not a directory, so the unlink branch fired
              exfalso
              unfold delStep at hstep
              rw [hv] at hstep
              cases v with
              | dir dm dcs => exact absurd rfl (hvnd dm dcs)
              | file sz mt =>
                  simp only at hstep
                  injection hstep with h1 h2
                  -- h1 : removeAt t p = t1 = t cannot be used directly;
                  -- instead derive the contradiction from aliveness
                  rw [h] at h1
                  have := lookupN_removeAt_self t p hqne
                  rw [h1, hv] at this
                  cases this
              | link a b cc d =>
                  simp only at hstep
                  injection hstep with h1 h2
                  rw [h] at h1
                  have := lookupN_removeAt_self t p hqne
                  rw [h1, hv] at this
                  cases this
            · rw [h]
              exact lookupN_removeAt_self t p hqne
          have : (lookupN ((rest.foldl (delStep false) (t1, c1)).1) p).isSome =
              (lookupN t1 p).isSome := ih2 p hqrest
          rw [ht1] at this
          cases hfin : lookupN ((rest.foldl (delStep false) (t1, c1)).1) p with
          | none => rfl
          | some w => rw [hfin] at this; simp at this
        · have hpq : p ≠ q := by
            intro h
            subst h
            exact hqrest hprest
          exact ih5 p v hprest (hnondir1 p v hpq hv hvnd) hvnd
      · intro p dm dcs hp hv
        rcases List.mem_cons.mp hp with hpq | hprest
        · subst hpq
          -- the head candidate is the deepest: its children are untouched
          -- candidates-wise, and it is removed exactly when already empty
          cases hnil : dcs.isNil with
          | true =>
              -- removed; nothing below it is alive afterwards
              have hdcs : dcs = Children.nil := by
                cases dcs with
                | nil => rfl
                | cons a b r => simp [Children.isNil] at hnil
              subst hdcs
              have ht1 : lookupN t1 p = none := by
                rcases hrel with h | ⟨n, hn, hrem, h⟩
                · exfalso
                  unfold delStep at hstep
                  rw [hv] at hstep
                  simp only [Children.isNil] at hstep
                  injection hstep with h1 h2
                  rw [h] at h1
                  have := lookupN_removeAt_self t p hqne
                  rw [h1, hv] at this
                  cases this
                · rw [h]
                  exact lookupN_removeAt_self t p hqne
              have hTp : (lookupN ((rest.foldl (delStep false) (t1, c1)).1) p).isSome =
                  (lookupN t1 p).isSome := ih2 p hqrest
              rw [ht1] at hTp
              constructor
              · intro h
                rw [h] at hTp
                simp at hTp
              · rintro ⟨x, hx⟩
                exfalso
                have hx1 : (lookupN t1 (p ++ [x])).isSome = true := ih1 _ hx
                have hx0 : (lookupN t (p ++ [x])).isSome = true := halive1' _ hx1
                rw [lookupN_append, hv] at hx0
                simp [lookupN, Children.lookup] at hx0
          | false =>
              -- skipped; it survives, and so does one of its children
              have ht1 : t1 = t := by
                rcases hrel with h | ⟨n, hn, hrem, h⟩
                · exact h
                · exfalso
                  have heq : n = Node.dir dm dcs := by
                    injection (hn.symm.trans hv)
                  rcases hrem with hnd | ⟨dm2, hdm2⟩
                  · exact hnd dm dcs heq
                  · have hcontra : Node.dir dm dcs = Node.dir dm2 Children.nil :=
                      heq.symm.trans hdm2
                    injection hcontra with he1 he2
                    rw [he2] at hnil
                    simp [Children.isNil] at hnil
              subst ht1
              have hTp : (lookupN ((rest.foldl (delStep false) (t1, c1)).1) p).isSome =
                  (lookupN t1 p).isSome := ih2 p hqrest
              constructor
              · intro _
                obtain ⟨x, hx⟩ := Children.exists_lookup_isSome_of_not_nil dcs hnil
                refine ⟨x, ?_⟩
                have hxrest : (p ++ [x]) ∉ rest := by
                  intro hmem
                  have := hqlen _ hmem
                  simp at this
                have := ih2 (p ++ [x]) hxrest
                rw [this, lookupN_append, hv]
                obtain ⟨cnode, hcx⟩ := Option.isSome_iff_exists.mp hx
                simp [lookupN, hcx]
              · intro _
                rw [hTp, hv]
                rfl
        · have hpq : p ≠ q := by
            intro h
            subst h
            exact hqrest hprest
          obtain ⟨dcs2, h2⟩ := hdir1 p dm dcs hpq hv
          exact ih6 p dm dcs2 hprest h2

theorem nodup_insertLe (le : RelPath → RelPath → Bool) (p : RelPath)
    (l : List RelPath) (hp : p ∉ l) (h : l.Nodup) :
    (insertLe le p l).Nodup := by
  induction l with
  | nil => simp [insertLe]
  | cons x xs ih =>
      rcases List.nodup_cons.mp h with ⟨hx, hxs⟩
      by_cases hle : le p x = true
      · simp only [insertLe, if_pos hle]
        exact List.nodup_cons.mpr ⟨hp, h⟩
      · simp only [insertLe, if_neg hle]
        refine List.nodup_cons.mpr ⟨?_, ih (fun hm => hp (List.mem_cons_of_mem x hm)) hxs⟩
        intro hm
        rcases (mem_insertLe le p x xs).mp hm with hm | hm
        · exact hp (hm ▸ List.mem_cons_self x xs)
        · exact hx hm

theorem nodup_isortLe (le : RelPath → RelPath → Bool) (l : List RelPath)
    (h : l.Nodup) : (isortLe le l).Nodup := by
  induction l with
  | nil => simp [isortLe]
  | cons x xs ih =>
      rcases List.nodup_cons.mp h with ⟨hx, hxs⟩
      simp only [isortLe]
      exact nodup_insertLe le x (isortLe le xs)
        (fun hm => hx ((mem_isortLe le x xs).mp hm)) (ih hxs)

theorem nil_not_mem_get_relative_paths (t : Node) :
    [] ∉ get_relative_paths t := by
  unfold get_relative_paths
  rw [List.mem_dedup]
  cases t with
  | file sz mt => simp
  | link a b c d => simp
  | dir m cs => exact not_nil_mem_scanChildren cs

/-! ## Claim C2: deletion safety -/

/-- C2: in a non-dry-run pass with candidates
`destPaths − filteredSourcePaths` sorted deepest first, (a) every path
outside the candidate set — in particular every filtered-source path —
keeps its aliveness (no collateral or recursive deletion); (b) a
candidate whose destination entry is a file or symlink is removed;
(c) a candidate directory survives the phase iff it still has a child
after the phase (it is removed iff empty when attempted, else skipped
silently). -/
theorem C2_deletion_safety (src d : Node) (excl : List String)
    (cands : List RelPath) (T : Node)
    (hc : cands = sorted_deletes (paths_to_delete (get_relative_paths d)
      (filtered_source src excl)))
    (hT : T = (deletePhase false d cands).1) :
    (∀ p, p ∈ filtered_source src excl →
        (lookupN T p).isSome = (lookupN d p).isSome) ∧
    (∀ p, p ∉ cands → (lookupN T p).isSome = (lookupN d p).isSome) ∧
    (∀ p v, p ∈ cands → lookupN d p = some v →
        (∀ dm dcs, v ≠ Node.dir dm dcs) → lookupN T p = none) ∧
    (∀ p dm dcs, p ∈ cands → lookupN d p = some (Node.dir dm dcs) →
        ((lookupN T p).isSome = true ↔
          ∃ x, (lookupN T (p ++ [x])).isSome = true)) := by
  have hsort : cands.Pairwise (fun a b => b.length ≤ a.length) := by
    rw [hc]; exact sorted_deletes_pairwise _
  have hnodup : cands.Nodup := by
    rw [hc]
    exact nodup_isortLe _ _ ((List.nodup_dedup _).filter _)
  have hnn : [] ∉ cands := by
    rw [hc]
    intro hm
    rw [sorted_deletes, mem_isortLe] at hm
    unfold paths_to_delete at hm
    exact nil_not_mem_get_relative_paths d (List.mem_of_mem_filter hm)
  obtain ⟨h1, h2, h3, h4, h5, h6⟩ :=
    deleteFold_spec cands d 0 hsort hnodup hnn
  have hTf : T = (cands.foldl (delStep false) (d, 0)).1 := hT
  refine ⟨?_, ?_, ?_, ?_⟩
  · intro p hp
    have hpc : p ∉ cands := by
      rw [hc, sorted_deletes, mem_isortLe]
      unfold paths_to_delete
      intro hm
      have := List.of_mem_filter hm
      rw [Bool.not_eq_true', List.contains_eq_false_iff_not_mem] at this
      exact this hp
    rw [hTf]
    exact h2 p hpc
  · intro p hp
    rw [hTf]
    exact h2 p hp
  · intro p v hp hv hvnd
    rw [hTf]
    exact h5 p v hp hv hvnd
  · intro p dm dcs hp hv
    rw [hTf]
    exact h6 p dm dcs hp hv

theorem C2_deletion_safety_witness :
    lookupN ((deletePhase false
        (Node.dir 0 (Children.cons "x" (Node.file 1 2) Children.nil))
        [["x"]]).1) ["x"] = none :=
  (C2_deletion_safety (Node.dir 0 Children.nil)
      (Node.dir 0 (Children.cons "x" (Node.file 1 2) Children.nil)) []
      [["x"]]
      ((deletePhase false
        (Node.dir 0 (Children.cons "x" (Node.file 1 2) Children.nil))
        [["x"]]).1)
      (by decide) rfl).2.2.1
    ["x"] (Node.file 1 2) (by decide) rfl (by intro dm dcs h; cases h)

/-! ## Dry-run frame lemmas -/

theorem delete_dry_tree (cands : List RelPath) (t : Node) (c : Nat) :
    (cands.foldl (delStep true) (t, c)).1 = t := by
  induction cands generalizing c with
  | nil => rfl
  | cons q rest ih =>
      rw [List.foldl_cons]
      have : (delStep true (t, c) q).1 = t := by
        unfold delStep
        cases lookupN t q with
        | none => rfl
        | some n => rfl
      cases hstep : delStep true (t, c) q with
      | mk t1 c1 =>
          have ht1 : t1 = t := by rw [← this, hstep]
          subst ht1
          exact ih c1

theorem copy_dry_tree (src : Node) (tol : Int) (now : Int)
    (ps : List RelPath) (st : CopyState) :
    (ps.foldl (copyStep src tol true now) st).tree = st.tree := by
  induction ps generalizing st with
  | nil => rfl
  | cons p rest ih =>
      rw [List.foldl_cons]
      rw [ih]
      unfold copyStep
      cases lookupN src p with
      | none => rfl
      | some srcN =>
          cases srcN with
          | dir dm dcs =>
              simp only [Bool.not_true, Bool.false_and, if_false]
              by_cases hex : existsAtF st.tree p
              · simp [hex]
              · simp [hex]
          | file sz mt =>
              by_cases hsc : should_copy (Node.file sz mt) (lookupN st.tree p) tol
              · simp [hsc]
              · simp [hsc]
          | link a b cc d =>
              by_cases hsc : should_copy (Node.link a b cc d) (lookupN st.tree p) tol
              · simp [hsc]
              · simp [hsc]

theorem deletePhase_dry (t : Node) (cands : List RelPath) :
    (deletePhase true t cands).1 = t :=
  delete_dry_tree cands t 0

theorem copyPhase_dry (src : Node) (tol : Int) (now : Int) (t : Node)
    (ps : List RelPath) :
    (copyPhase src tol true now t ps).tree = t :=
  copy_dry_tree src tol now ps ⟨t, 0, 0, 0, []⟩

/-- Dry-run leaves the reported destination state untouched, for every
input (validating or not, destination present or absent). -/
theorem sync_dry_frame (a : SyncArgs) (hdry : a.dryRun = true) :
    (sync_directories a).dest = a.destState := by
  unfold sync_directories
  by_cases hv : validation_error a = true
  · simp [hv]
  · rw [if_neg hv]
    cases hds : a.destState with
    | none => simp [hdry, deletePhase_dry, copyPhase_dry]
    | some d => simp [hdry, deletePhase_dry, copyPhase_dry]

/-! ## Dry-run counter lemmas -/

theorem delete_dry_count_mono (cands : List RelPath) (t : Node) (c : Nat) :
    c ≤ (cands.foldl (delStep true) (t, c)).2 := by
  induction cands generalizing t c with
  | nil => exact Nat.le_refl c
  | cons q rest ih =>
      rw [List.foldl_cons]
      unfold delStep
      cases lookupN t q with
      | none => exact ih t c
      | some n =>
          simp only
          exact Nat.le_trans (Nat.le_succ c) (ih t (c + 1))

theorem delete_dry_count_pos (cands : List RelPath) (p : RelPath) :
    ∀ (t : Node) (c : Nat), p ∈ cands → (lookupN t p).isSome = true →
      c + 1 ≤ (cands.foldl (delStep true) (t, c)).2 := by
  induction cands with
  | nil =>
      intro t c hp _
      simp at hp
  | cons q rest ih =>
      intro t c hp halive
      rw [List.foldl_cons]
      rcases List.mem_cons.mp hp with hpq | hprest
      · subst hpq
        obtain ⟨n, hn⟩ := Option.isSome_iff_exists.mp halive
        have hs : delStep true (t, c) p = (t, c + 1) := by
          simp [delStep, hn]
        rw [hs]
        exact delete_dry_count_mono rest t (c + 1)
      · obtain ⟨c1, hs, hc1⟩ : ∃ c1, delStep true (t, c) q = (t, c1) ∧ c ≤ c1 := by
          unfold delStep
          cases hl : lookupN t q with
          | none => exact ⟨c, rfl, Nat.le_refl c⟩
          | some n => exact ⟨c + 1, rfl, Nat.le_succ c⟩
        rw [hs]
        have := ih t c1 hprest halive
        omega

theorem copyStep_dry_tree (src : Node) (tol : Int) (now : Int)
    (st : CopyState) (q : RelPath) :
    (copyStep src tol true now st q).tree = st.tree := by
  unfold copyStep
  cases lookupN src q with
  | none => rfl
  | some srcN =>
      cases srcN with
      | dir dm dcs =>
          simp only [Bool.not_true, Bool.false_and, if_false]
          by_cases hex : existsAtF st.tree q
          · simp [hex]
          · simp [hex]
      | file sz mt =>
          by_cases hsc : should_copy (Node.file sz mt) (lookupN st.tree q) tol
          · simp [hsc]
          · simp [hsc]
      | link a b cc d =>
          by_cases hsc : should_copy (Node.link a b cc d) (lookupN st.tree q) tol
          · simp [hsc]
          · simp [hsc]

theorem copyStep_dry_mono (src : Node) (tol : Int) (now : Int)
    (st : CopyState) (q : RelPath) :
    st.created ≤ (copyStep src tol true now st q).created ∧
    st.copied ≤ (copyStep src tol true now st q).copied := by
  unfold copyStep
  cases lookupN src q with
  | none => exact ⟨Nat.le_refl _, Nat.le_refl _⟩
  | some srcN =>
      cases srcN with
      | dir dm dcs =>
          simp only [Bool.not_true, Bool.false_and, if_false]
          by_cases hex : existsAtF st.tree q
          · simp [hex]
          · simp [hex]
      | file sz mt =>
          by_cases hsc : should_copy (Node.file sz mt) (lookupN st.tree q) tol
          · simp [hsc]
          · simp [hsc]
      | link a b cc d =>
          by_cases hsc : should_copy (Node.link a b cc d) (lookupN st.tree q) tol
          · simp [hsc]
          · simp [hsc]

theorem copy_dry_counts_mono (src : Node) (tol : Int) (now : Int)
    (ps : List RelPath) (st : CopyState) :
    st.created ≤ (ps.foldl (copyStep src tol true now) st).created ∧
    st.copied ≤ (ps.foldl (copyStep src tol true now) st).copied := by
  induction ps generalizing st with
  | nil => exact ⟨Nat.le_refl _, Nat.le_refl _⟩
  | cons p rest ih =>
      rw [List.foldl_cons]
      obtain ⟨h1, h2⟩ := ih (copyStep src tol true now st p)
      obtain ⟨h3, h4⟩ := copyStep_dry_mono src tol now st p
      exact ⟨Nat.le_trans h3 h1, Nat.le_trans h4 h2⟩

theorem copy_dry_created_pos (src : Node) (tol : Int) (now : Int)
    (ps : List RelPath) (p : RelPath) (dm : Int) (dcs : Children)
    (hsn : lookupN src p = some (Node.dir dm dcs)) :
    ∀ (st : CopyState), p ∈ ps → existsAtF st.tree p = false →
      st.created + 1 ≤ (ps.foldl (copyStep src tol true now) st).created := by
  induction ps with
  | nil =>
      intro st hp _
      simp at hp
  | cons q rest ih =>
      intro st hp hne
      rw [List.foldl_cons]
      rcases List.mem_cons.mp hp with hpq | hprest
      · subst hpq
        have hstep : (copyStep src tol true now st p).created = st.created + 1 := by
          unfold copyStep
          rw [hsn]
          simp only [Bool.not_true, Bool.false_and, if_false, hne]
          simp
        have hmono := (copy_dry_counts_mono src tol now rest
          (copyStep src tol true now st p)).1
        omega
      · have hcr := (copyStep_dry_mono src tol now st q).1
        have hne2 : existsAtF (copyStep src tol true now st q).tree p = false := by
          rw [copyStep_dry_tree]
          exact hne
        have := ih (copyStep src tol true now st q) hprest hne2
        omega

theorem copy_dry_copied_pos (src : Node) (tol : Int) (now : Int)
    (ps : List RelPath) (p : RelPath) (sn : Node)
    (hsn : lookupN src p = some sn)
    (hnd : ∀ dm dcs, sn ≠ Node.dir dm dcs) :
    ∀ (st : CopyState), p ∈ ps →
      should_copy sn (lookupN st.tree p) tol = true →
      st.copied + 1 ≤ (ps.foldl (copyStep src tol true now) st).copied := by
  induction ps with
  | nil =>
      intro st hp _
      simp at hp
  | cons q rest ih =>
      intro st hp hsc
      rw [List.foldl_cons]
      rcases List.mem_cons.mp hp with hpq | hprest
      · subst hpq
        have hstep : (copyStep src tol true now st p).copied = st.copied + 1 := by
          unfold copyStep
          rw [hsn]
          cases sn with
          | dir dm dcs => exact absurd rfl (hnd dm dcs)
          | file sz mt => simp [hsc]
          | link a b cc d => simp [hsc]
        have hmono := (copy_dry_counts_mono src tol now rest
          (copyStep src tol true now st p)).2
        omega
      · have hcr := (copyStep_dry_mono src tol now st q).2
        have hsc2 : should_copy sn (lookupN (copyStep src tol true now st q).tree p) tol = true := by
          rw [copyStep_dry_tree]
          exact hsc
        have := ih (copyStep src tol true now st q) hprest hsc2
        omega

/-! ## Sync-level helpers -/

/-- Unfolding of `sync_directories` past a passing validation. -/
theorem sync_directories_eq (a : SyncArgs) (srcT : Node)
    (hval : validation_error a = false) (hsrc : a.sourceState = some srcT) :
    sync_directories a =
      { dest :=
          if a.dryRun && a.destState.isNone then none
          else some (if a.dryRun then
              (copyPhase srcT a.timeTolerance a.dryRun a.now
                (deletePhase a.dryRun
                  (match a.destState with
                   | some d => d
                   | none => Node.dir a.now Children.nil)
                  (sorted_deletes (paths_to_delete
                    (match a.destState with
                     | some d => get_relative_paths d
                     | none => [])
                    (filtered_source srcT a.excludePatterns)))).1
                (isortLe pathLe (filtered_source srcT a.excludePatterns))).tree
            else rootFixup srcT (fixupDirs srcT
              (copyPhase srcT a.timeTolerance a.dryRun a.now
                (deletePhase a.dryRun
                  (match a.destState with
                   | some d => d
                   | none => Node.dir a.now Children.nil)
                  (sorted_deletes (paths_to_delete
                    (match a.destState with
                     | some d => get_relative_paths d
                     | none => [])
                    (filtered_source srcT a.excludePatterns)))).1
                (isortLe pathLe (filtered_source srcT a.excludePatterns))).tree
              (copyPhase srcT a.timeTolerance a.dryRun a.now
                (deletePhase a.dryRun
                  (match a.destState with
                   | some d => d
                   | none => Node.dir a.now Children.nil)
                  (sorted_deletes (paths_to_delete
                    (match a.destState with
                     | some d => get_relative_paths d
                     | none => [])
                    (filtered_source srcT a.excludePatterns)))).1
                (isortLe pathLe (filtered_source srcT a.excludePatterns))).dirUps)),
        created_dirs :=
          (copyPhase srcT a.timeTolerance a.dryRun a.now
            (deletePhase a.dryRun
              (match a.destState with
               | some d => d
               | none => Node.dir a.now Children.nil)
              (sorted_deletes (paths_to_delete
                (match a.destState with
                 | some d => get_relative_paths d
                 | none => [])
                (filtered_source srcT a.excludePatterns)))).1
            (isortLe pathLe (filtered_source srcT a.excludePatterns))).created,
        copied_files :=
          (copyPhase srcT a.timeTolerance a.dryRun a.now
            (deletePhase a.dryRun
              (match a.destState with
               | some d => d
               | none => Node.dir a.now Children.nil)
              (sorted_deletes (paths_to_delete
                (match a.destState with
                 | some d => get_relative_paths d
                 | none => [])
                (filtered_source srcT a.excludePatterns)))).1
            (isortLe pathLe (filtered_source srcT a.excludePatterns))).copied,
        deleted_items :=
          (deletePhase a.dryRun
            (match a.destState with
             | some d => d
             | none => Node.dir a.now Children.nil)
            (sorted_deletes (paths_to_delete
              (match a.destState with
               | some d => get_relative_paths d
               | none => [])
              (filtered_source srcT a.excludePatterns)))).2,
        failed_copies :=
          (copyPhase srcT a.timeTolerance a.dryRun a.now
            (deletePhase a.dryRun
              (match a.destState with
               | some d => d
               | none => Node.dir a.now Children.nil)
              (sorted_deletes (paths_to_delete
                (match a.destState with
                 | some d => get_relative_paths d
                 | none => [])
                (filtered_source srcT a.excludePatterns)))).1
            (isortLe pathLe (filtered_source srcT a.excludePatterns))).failed,
        exited := false } := by
  unfold sync_directories
  rw [if_neg (by simp [hval]), hsrc]
  rfl

theorem filtered_source_subset (src : Node) (excl : List String) (p : RelPath)
    (h : p ∈ filtered_source src excl) : p ∈ get_relative_paths src := by
  unfold filtered_source at h
  by_cases he : excl = []
  · rw [if_pos he] at h
    exact h
  · rw [if_neg he] at h
    exact List.mem_of_mem_filter h

theorem mem_get_relative_paths_iff_alive (d : Node) (hwf : wfN d = true)
    (hnl : noLinksN d = true) (p : RelPath) (hp : p ≠ []) :
    p ∈ get_relative_paths d ↔ (lookupN d p).isSome = true := by
  cases d with
  | file sz mt =>
      simp only [get_relative_paths, List.dedup_nil]
      cases p with
      | nil => exact absurd rfl hp
      | cons x r => simp [lookupN]
  | link a b c dd =>
      simp only [get_relative_paths, List.dedup_nil]
      cases p with
      | nil => exact absurd rfl hp
      | cons x r => simp [lookupN]
  | dir m cs =>
      rw [mem_get_relative_paths m cs p (by simpa [wfN] using hwf)]
      constructor
      · rintro ⟨-, n, hn, -⟩
        simp [hn]
      · intro h
        obtain ⟨n, hn⟩ := Option.isSome_iff_exists.mp h
        refine ⟨hp, n, hn, ?_⟩
        have := lookupN_noLinks _ p n hnl hn
        cases n with
        | file sz mt => simp [visibleEntry, Node.isSymlinkB]
        | link a2 b2 c2 d2 => simp [noLinksN] at this
        | dir m2 cs2 => simp [visibleEntry, Node.isSymlinkB]

theorem noLinks_isDirF_dir (n : Node) (hnl : noLinksN n = true)
    (hd : n.isDirF = true) : ∃ m cs, n = Node.dir m cs := by
  cases n with
  | file sz mt => simp [Node.isDirF] at hd
  | link a b c d => simp [noLinksN] at hnl
  | dir m cs => exact ⟨m, cs, rfl⟩

/-! ## Claim C8: dry-run non-mutation and reporting -/

/-- C8 counterexample: source and destination differ (the file's mtime
differs by 1 second, within the 2-second tolerance), yet a dry run
reports zero planned operations in every counter. -/
theorem C8_counterexample :
    (sync_directories
      { sourcePath := ["r", "s"], destPath := ["r", "d"],
        sourceState := some (Node.dir 0 (Children.cons "f" (Node.file 1 0) Children.nil)),
        destState := some (Node.dir 0 (Children.cons "f" (Node.file 1 1) Children.nil)),
        excludePatterns := [], timeTolerance := 2, dryRun := true,
        now := 9 }).created_dirs = 0 ∧
    (sync_directories
      { sourcePath := ["r", "s"], destPath := ["r", "d"],
        sourceState := some (Node.dir 0 (Children.cons "f" (Node.file 1 0) Children.nil)),
        destState := some (Node.dir 0 (Children.cons "f" (Node.file 1 1) Children.nil)),
        excludePatterns := [], timeTolerance := 2, dryRun := true,
        now := 9 }).copied_files = 0 ∧
    (sync_directories
      { sourcePath := ["r", "s"], destPath := ["r", "d"],
        sourceState := some (Node.dir 0 (Children.cons "f" (Node.file 1 0) Children.nil)),
        destState := some (Node.dir 0 (Children.cons "f" (Node.file 1 1) Children.nil)),
        excludePatterns := [], timeTolerance := 2, dryRun := true,
        now := 9 }).deleted_items = 0 ∧
    (sync_directories
      { sourcePath := ["r", "s"], destPath := ["r", "d"],
        sourceState := some (Node.dir 0 (Children.cons "f" (Node.file 1 0) Children.nil)),
        destState := some (Node.dir 0 (Children.cons "f" (Node.file 1 1) Children.nil)),
        excludePatterns := [], timeTolerance := 2, dryRun := true,
        now := 9 }).failed_copies = 0 ∧
    (Node.dir 0 (Children.cons "f" (Node.file 1 0) Children.nil) ≠
      Node.dir 0 (Children.cons "f" (Node.file 1 1) Children.nil)) := by
  refine ⟨rfl, rfl, rfl, rfl, ?_⟩
  intro h
  injection h with hm hc
  injection hc with hn hnode hrest
  injection hnode with hsz hmt
  exact absurd hmt (by decide)

/-- C8 (amended): a dry run returns the destination state bit-for-bit
unchanged for every input; and, when validation passes and both trees
are well-formed and symlink-free, the counters report at least one
planned operation whenever the filtered source path set and the
destination path set differ, or some filtered file/symlink satisfies
`should_copy`.  (Trees that differ only in metadata within tolerance
yield all-zero counters, which is why the trigger is stated this way
rather than as plain tree inequality.) -/
theorem C8_amended_dry_run (a : SyncArgs) (hdry : a.dryRun = true) :
    (sync_directories a).dest = a.destState ∧
    (∀ srcT : Node,
      a.sourceState = some srcT →
      validation_error a = false →
      wfN srcT = true → noLinksN srcT = true →
      (∀ d, a.destState = some d → wfN d = true ∧ noLinksN d = true) →
      ((∃ p, (p ∈ filtered_source srcT a.excludePatterns ∧
          p ∉ (match a.destState with
               | some d => get_relative_paths d
               | none => ([] : List RelPath))) ∨
        (p ∈ (match a.destState with
              | some d => get_relative_paths d
              | none => ([] : List RelPath)) ∧
          p ∉ filtered_source srcT a.excludePatterns)) ∨
       (∃ p sn, p ∈ filtered_source srcT a.excludePatterns ∧
          lookupN srcT p = some sn ∧ (∀ dm dcs, sn ≠ Node.dir dm dcs) ∧
          should_copy sn (lookupN (match a.destState with
            | some d => d
            | none => Node.dir a.now Children.nil) p) a.timeTolerance = true)) →
      1 ≤ (sync_directories a).created_dirs + (sync_directories a).copied_files +
        (sync_directories a).deleted_items) := by
  refine ⟨sync_dry_frame a hdry, ?_⟩
  intro srcT hsrc hval hwfs hnls hdual hdiff
  rw [sync_directories_eq a srcT hval hsrc]
  simp only [hdry, deletePhase_dry]
  have hnld : noLinksN (match a.destState with
      | some d => d
      | none => Node.dir a.now Children.nil) = true := by
    cases hds : a.destState with
    | some d => exact (hdual d hds).2
    | none => simp [noLinksN, noLinksC]
  have hwfd : wfN (match a.destState with
      | some d => d
      | none => Node.dir a.now Children.nil) = true := by
    cases hds : a.destState with
    | some d => exact (hdual d hds).1
    | none => simp [wfN, wfC]
  have hdestAlive : ∀ p, p ≠ [] →
      (p ∈ (match a.destState with
        | some d => get_relative_paths d
        | none => ([] : List RelPath)) ↔
       (lookupN (match a.destState with
         | some d => d
         | none => Node.dir a.now Children.nil) p).isSome = true) := by
    intro p hp
    cases hds : a.destState with
    | some d =>
        exact mem_get_relative_paths_iff_alive d (hdual d hds).1 (hdual d hds).2 p hp
    | none =>
        simp only [List.not_mem_nil, false_iff]
        cases p with
        | nil => exact absurd rfl hp
        | cons x r => simp [lookupN, Children.lookup]
  rcases hdiff with ⟨p, ⟨hpF, hpD⟩ | ⟨hpD, hpF⟩⟩ | ⟨p, sn, hpF, hsn, hnd, hsc⟩
  · -- p in the filtered source but not in the destination set
    have hpne : p ≠ [] := by
      intro h
      exact nil_not_mem_get_relative_paths srcT
        (h ▸ filtered_source_subset srcT a.excludePatterns p hpF)
    have hsrcAlive : (lookupN srcT p).isSome = true :=
      (mem_get_relative_paths_iff_alive srcT hwfs hnls p hpne).mp
        (filtered_source_subset srcT a.excludePatterns p hpF)
    obtain ⟨sn, hsn⟩ := Option.isSome_iff_exists.mp hsrcAlive
    have hdeadD : (lookupN (match a.destState with
        | some d => d
        | none => Node.dir a.now Children.nil) p).isSome = false := by
      cases hD : (lookupN (match a.destState with
          | some d => d
          | none => Node.dir a.now Children.nil) p).isSome
      · rfl
      · exact absurd ((hdestAlive p hpne).mpr hD) hpD
    have hex : existsAtF (match a.destState with
        | some d => d
        | none => Node.dir a.now Children.nil) p = false := by
      rw [existsAtF_of_noLinks _ p hnld]
      exact hdeadD
    have hmemL : p ∈ isortLe pathLe (filtered_source srcT a.excludePatterns) :=
      (mem_isortLe pathLe p _).mpr hpF
    cases sn with
    | dir dm dcs =>
        have := copy_dry_created_pos srcT a.timeTolerance a.now
          (isortLe pathLe (filtered_source srcT a.excludePatterns)) p dm dcs hsn
          ⟨(match a.destState with
            | some d => d
            | none => Node.dir a.now Children.nil), 0, 0, 0, []⟩ hmemL hex
        unfold copyPhase
        omega
    | file sz mt =>
        have hlnone : lookupN (match a.destState with
            | some d => d
            | none => Node.dir a.now Children.nil) p = none :=
          Option.not_isSome_iff_eq_none.mp (by simp [hdeadD])
        have := copy_dry_copied_pos srcT a.timeTolerance a.now
          (isortLe pathLe (filtered_source srcT a.excludePatterns)) p
          (Node.file sz mt) hsn (by intro dm dcs h; cases h)
          ⟨(match a.destState with
            | some d => d
            | none => Node.dir a.now Children.nil), 0, 0, 0, []⟩ hmemL
          (by rw [hlnone]; rfl)
        unfold copyPhase
        omega
    | link la lb lc ld =>
        have hlnone : lookupN (match a.destState with
            | some d => d
            | none => Node.dir a.now Children.nil) p = none :=
          Option.not_isSome_iff_eq_none.mp (by simp [hdeadD])
        have := copy_dry_copied_pos srcT a.timeTolerance a.now
          (isortLe pathLe (filtered_source srcT a.excludePatterns)) p
          (Node.link la lb lc ld) hsn (by intro dm dcs h; cases h)
          ⟨(match a.destState with
            | some d => d
            | none => Node.dir a.now Children.nil), 0, 0, 0, []⟩ hmemL
          (by rw [hlnone]; rfl)
        unfold copyPhase
        omega
  · -- p in the destination set but not in the filtered source
    have hpne : p ≠ [] := by
      intro h
      cases hds : a.destState with
      | some d =>
          rw [hds] at hpD
          exact nil_not_mem_get_relative_paths d (h ▸ hpD)
      | none =>
          rw [hds] at hpD
          simp at hpD
    have hmemDel : p ∈ sorted_deletes (paths_to_delete
        (match a.destState with
         | some d => get_relative_paths d
         | none => ([] : List RelPath))
        (filtered_source srcT a.excludePatterns)) := by
      rw [sorted_deletes, mem_isortLe]
      unfold paths_to_delete
      refine List.mem_filter.mpr ⟨hpD, ?_⟩
      rw [Bool.not_eq_true', List.contains_eq_false_iff_not_mem]
      exact hpF
    have halive : (lookupN (match a.destState with
        | some d => d
        | none => Node.dir a.now Children.nil) p).isSome = true :=
      (hdestAlive p hpne).mp hpD
    have := delete_dry_count_pos (sorted_deletes (paths_to_delete
        (match a.destState with
         | some d => get_relative_paths d
         | none => ([] : List RelPath))
        (filtered_source srcT a.excludePatterns))) p
      (match a.destState with
       | some d => d
       | none => Node.dir a.now Children.nil) 0 hmemDel halive
    unfold deletePhase
    omega
  · -- a filtered file/symlink already requires copying
    have hmemL : p ∈ isortLe pathLe (filtered_source srcT a.excludePatterns) :=
      (mem_isortLe pathLe p _).mpr hpF
    have := copy_dry_copied_pos srcT a.timeTolerance a.now
      (isortLe pathLe (filtered_source srcT a.excludePatterns)) p sn hsn hnd
      ⟨(match a.destState with
        | some d => d
        | none => Node.dir a.now Children.nil), 0, 0, 0, []⟩ hmemL hsc
    unfold copyPhase
    omega

theorem C8_amended_dry_run_witness :
    (sync_directories
      { sourcePath := ["r", "s"], destPath := ["r", "d"],
        sourceState := some (Node.dir 0 Children.nil),
        destState := some (Node.dir 3 Children.nil),
        excludePatterns := [], timeTolerance := 2, dryRun := true,
        now := 9 }).dest = some (Node.dir 3 Children.nil) :=
  (C8_amended_dry_run
    { sourcePath := ["r", "s"], destPath := ["r", "d"],
      sourceState := some (Node.dir 0 Children.nil),
      destState := some (Node.dir 3 Children.nil),
      excludePatterns := [], timeTolerance := 2, dryRun := true,
      now := 9 } rfl).1

theorem C7_depth_descending_order_witness :
    ["a", "b"] ∈ sorted_deletes [["a"], ["a", "b"]] ↔
      ["a", "b"] ∈ [["a"], ["a", "b"]] :=
  (C7_depth_descending_order [["a"], ["a", "b"]]).1 ["a", "b"]

/-! ## Helpers for the convergence argument -/

theorem lookupN_prefix_alive (t : Node) (p r : RelPath)
    (h : (lookupN t p).isSome = true) (hpre : r <+: p) :
    (lookupN t r).isSome = true := by
  obtain ⟨ext, hext⟩ := hpre
  subst hext
  rw [lookupN_append] at h
  cases hr : lookupN t r with
  | none => rw [hr] at h; simp at h
  | some n => rfl

theorem lookupN_dir_mtime_irrel (m1 m2 : Int) (cs : Children) (p : RelPath)
    (hp : p ≠ []) : lookupN (Node.dir m1 cs) p = lookupN (Node.dir m2 cs) p := by
  cases p with
  | nil => exact absurd rfl hp
  | cons x r => rfl

theorem scan_prefix_mem (m : Int) (cs : Children) (hwf : wfC cs = true)
    (p r : RelPath) (hp : p ∈ get_relative_paths (Node.dir m cs))
    (hpre : r <+: p) (hrne : r ≠ []) :
    r ∈ get_relative_paths (Node.dir m cs) := by
  by_cases hrp : r = p
  · exact hrp ▸ hp
  · rw [mem_get_relative_paths m cs p hwf] at hp
    obtain ⟨hpne, n, hn, hv⟩ := hp
    obtain ⟨ext, hext⟩ := hpre
    have hextne : ext ≠ [] := by
      intro h
      subst h
      exact hrp (by simpa using hext)
    obtain ⟨x, ext2, hx⟩ : ∃ x ext2, ext = x :: ext2 := by
      cases ext with
      | nil => exact absurd rfl hextne
      | cons x ext2 => exact ⟨x, ext2, rfl⟩
    obtain ⟨dm, dcs, hdm⟩ := lookupN_prefix_dir (Node.dir m cs) r x ext2 n
      (by rw [← hx, hext]; exact hn)
    rw [mem_get_relative_paths m cs r hwf]
    exact ⟨hrne, Node.dir dm dcs, hdm, by simp [visibleEntry, Node.isSymlinkB]⟩

theorem filtered_source_prefix_closed (srcT : Node) (excl : List String)
    (m : Int) (cs : Children) (hsrc : srcT = Node.dir m cs)
    (hwf : wfC cs = true) (p r : RelPath)
    (hp : p ∈ filtered_source srcT excl) (hpre : r <+: p) (hrne : r ≠ []) :
    r ∈ filtered_source srcT excl := by
  subst hsrc
  unfold filtered_source at hp ⊢
  by_cases he : excl = []
  · rw [if_pos he] at hp ⊢
    exact scan_prefix_mem m cs hwf p r hp hpre hrne
  · rw [if_neg he] at hp ⊢
    rw [List.mem_filter] at hp ⊢
    refine ⟨scan_prefix_mem m cs hwf p r hp.1 hpre hrne, ?_⟩
    have hpex := hp.2
    rw [Bool.not_eq_true'] at hpex ⊢
    by_cases hre : excludedBy excl r = true
    · rw [excludedBy_closure excl r p hrne hpre hre] at hpex
      cases hpex
    · simpa using hre

theorem listMax_bound (l : List RelPath) (q : RelPath) (hq : q ∈ l) :
    q.length ≤ (l.map List.length).foldr max 0 := by
  induction l with
  | nil => simp at hq
  | cons x xs ih =>
      rcases List.mem_cons.mp hq with h | h
      · subst h
        simp only [List.map_cons, List.foldr_cons]
        exact Nat.le_max_left _ _
      · simp only [List.map_cons, List.foldr_cons]
        exact Nat.le_trans (ih h) (Nat.le_max_right _ _)

theorem wfN_deleteFold (cands : List RelPath) :
    ∀ (t : Node) (c : Nat), wfN t = true →
      wfN ((cands.foldl (delStep false) (t, c)).1) = true := by
  induction cands with
  | nil => exact fun t c h => h
  | cons q rest ih =>
      intro t c hwf
      rw [List.foldl_cons]
      obtain ⟨t1, c1, hstep, hrel⟩ :
          ∃ t1 c1, delStep false (t, c) q = (t1, c1) ∧
            (t1 = t ∨ t1 = removeAt t q) := by
        unfold delStep
        cases lookupN t q with
        | none => exact ⟨t, c, rfl, Or.inl rfl⟩
        | some n =>
            cases n with
            | dir dm dcs =>
                cases hnil : dcs.isNil with
                | true => exact ⟨removeAt t q, c + 1, by simp [hnil], Or.inr rfl⟩
                | false => exact ⟨t, c, by simp [hnil], Or.inl rfl⟩
            | file sz mt => exact ⟨removeAt t q, c + 1, rfl, Or.inr rfl⟩
            | link a b cc d => exact ⟨removeAt t q, c + 1, rfl, Or.inr rfl⟩
      rw [hstep]
      refine ih t1 c1 ?_
      rcases hrel with h | h
      · exact h ▸ hwf
      · exact h ▸ wfN_removeAt t q hwf

theorem noLinksN_deleteFold (cands : List RelPath) :
    ∀ (t : Node) (c : Nat), noLinksN t = true →
      noLinksN ((cands.foldl (delStep false) (t, c)).1) = true := by
  induction cands with
  | nil => exact fun t c h => h
  | cons q rest ih =>
      intro t c hnl
      rw [List.foldl_cons]
      obtain ⟨t1, c1, hstep, hrel⟩ :
          ∃ t1 c1, delStep false (t, c) q = (t1, c1) ∧
            (t1 = t ∨ t1 = removeAt t q) := by
        unfold delStep
        cases lookupN t q with
        | none => exact ⟨t, c, rfl, Or.inl rfl⟩
        | some n =>
            cases n with
            | dir dm dcs =>
                cases hnil : dcs.isNil with
                | true => exact ⟨removeAt t q, c + 1, by simp [hnil], Or.inr rfl⟩
                | false => exact ⟨t, c, by simp [hnil], Or.inl rfl⟩
            | file sz mt => exact ⟨removeAt t q, c + 1, rfl, Or.inr rfl⟩
            | link a b cc d => exact ⟨removeAt t q, c + 1, rfl, Or.inr rfl⟩
      rw [hstep]
      refine ih t1 c1 ?_
      rcases hrel with h | h
      · exact h ▸ hnl
      · exact h ▸ noLinksN_removeAt t q hnl

theorem should_copy_false_spec (sn : Node) (dO : Option Node) (tol : Int)
    (h : should_copy sn dO tol = false) :
    ∃ d, dO = some d ∧ d.existsF = true ∧ d.isSymlinkB = false ∧
      sn.lstatSize = d.lstatSize ∧ |sn.lstatMtime - d.lstatMtime| ≤ tol := by
  cases dO with
  | none => simp [should_copy] at h
  | some d =>
      refine ⟨d, rfl, ?_⟩
      simp only [should_copy] at h
      split_ifs at h with h1 h2 h3 h4
      refine ⟨?_, ?_, ?_, ?_⟩
      · simpa using h1
      · simpa using h2
      · simpa using h3
      · exact Int.not_lt.mp h4

theorem setMtimeAt_dir_spec (t : Node) (p : RelPath) (mt : Int) (dm : Int)
    (dcs : Children) (h : lookupN t p = some (Node.dir dm dcs)) :
    (∀ r, (lookupN (setMtimeAt t p mt) r).isSome = (lookupN t r).isSome) ∧
    (∀ r v, lookupN t r = some v → (∀ a b, v ≠ Node.dir a b) →
        lookupN (setMtimeAt t p mt) r = some v) ∧
    (∀ r a b, lookupN t r = some (Node.dir a b) →
        ∃ a2 b2, lookupN (setMtimeAt t p mt) r = some (Node.dir a2 b2)) ∧
    (wfN t = true → wfN (setMtimeAt t p mt) = true) ∧
    (noLinksN t = true → noLinksN (setMtimeAt t p mt) = true) := by
  have hset : setMtimeAt t p mt = setAt t p (Node.dir mt dcs) := by
    simp only [setMtimeAt, h]
  rw [hset]
  cases hp0 : p with
  | nil =>
      subst hp0
      rw [lookupN_nil] at h
      injection h with h2
      subst h2
      have hkey : ∀ r, lookupN (setAt (Node.dir dm dcs) [] (Node.dir mt dcs)) r =
          lookupN (Node.dir mt dcs) r := fun r => rfl
      refine ⟨?_, ?_, ?_, ?_, ?_⟩
      · intro r
        rw [hkey]
        cases r with
        | nil => simp
        | cons x e => rw [lookupN_dir_mtime_irrel mt dm dcs (x :: e) (by simp)]
      · intro r v hv hvnd
        rw [hkey]
        cases r with
        | nil =>
            rw [lookupN_nil] at hv
            injection hv with hv2
            exact absurd hv2.symm (hvnd dm dcs)
        | cons x e =>
            rw [lookupN_dir_mtime_irrel mt dm dcs (x :: e) (by simp)]
            exact hv
      · intro r a b hv
        rw [hkey]
        cases r with
        | nil => exact ⟨mt, dcs, by simp⟩
        | cons x e =>
            rw [lookupN_dir_mtime_irrel mt dm dcs (x :: e) (by simp)]
            exact ⟨a, b, hv⟩
      · intro hwf
        show wfN (Node.dir mt dcs) = true
        simpa [wfN] using hwf
      · intro hnl
        show noLinksN (Node.dir mt dcs) = true
        simpa [noLinksN] using hnl
  | cons p0 prest =>
      rw [← hp0]
      have hpne : p ≠ [] := by rw [hp0]; simp
      have hsp : ∀ s, s <+: p → s ≠ p →
          ∃ a b, lookupN t s = some (Node.dir a b) := by
        intro s hpre hne
        obtain ⟨ext, hext⟩ := hpre
        cases ext with
        | nil => exact absurd (by simpa using hext) hne
        | cons x e =>
            exact lookupN_prefix_dir t s x e _ (by rw [hext]; exact h)
      have hself : lookupN (setAt t p (Node.dir mt dcs)) p =
          some (Node.dir mt dcs) := lookupN_setAt_self t p _ hsp
      have hext : ∀ x e, lookupN (setAt t p (Node.dir mt dcs)) (p ++ x :: e) =
          lookupN t (p ++ x :: e) := by
        intro x e
        rw [lookupN_append, hself, lookupN_append, h]
        show lookupN (Node.dir mt dcs) (x :: e) = lookupN (Node.dir dm dcs) (x :: e)
        exact lookupN_dir_mtime_irrel mt dm dcs (x :: e) (by simp)
      have hother : ∀ r, ¬ p <+: r → ¬ r <+: p →
          lookupN (setAt t p (Node.dir mt dcs)) r = lookupN t r :=
        fun r h1 h2 => lookupN_setAt_disjoint t p r _ h1 h2
      refine ⟨?_, ?_, ?_, ?_, ?_⟩
      · intro r
        by_cases h1 : p <+: r
        · obtain ⟨ext, hexteq⟩ := h1
          cases ext with
          | nil =>
              have : r = p := by simpa using hexteq.symm
              subst this
              rw [hself, h]
              rfl
          | cons x e =>
              rw [← hexteq, hext x e]
        · by_cases h2 : r <+: p
          · have hne : r ≠ p := fun he => h1 (he ▸ List.prefix_refl r)
            obtain ⟨a, b, hab⟩ := hsp r h2 hne
            obtain ⟨b2, hb2⟩ := lookupN_setAt_prefix_dir t p r _ h2 hne a b hab
            rw [hab, hb2]
            rfl
          · rw [hother r h1 h2]
      · intro r v hv hvnd
        by_cases h1 : p <+: r
        · obtain ⟨ext, hexteq⟩ := h1
          cases ext with
          | nil =>
              have : r = p := by simpa using hexteq.symm
              subst this
              rw [h] at hv
              injection hv with hv2
              exact absurd hv2.symm (hvnd dm dcs)
          | cons x e =>
              rw [← hexteq, hext x e]
              rw [← hexteq] at hv
              exact hv
        · by_cases h2 : r <+: p
          · have hne : r ≠ p := fun he => h1 (he ▸ List.prefix_refl r)
            obtain ⟨a, b, hab⟩ := hsp r h2 hne
            rw [hab] at hv
            injection hv with hv2
            exact absurd hv2.symm (hvnd a b)
          · rw [hother r h1 h2]
            exact hv
      · intro r a b hv
        by_cases h1 : p <+: r
        · obtain ⟨ext, hexteq⟩ := h1
          cases ext with
          | nil =>
              have : r = p := by simpa using hexteq.symm
              subst this
              exact ⟨mt, dcs, hself⟩
          | cons x e =>
              rw [← hexteq, hext x e]
              rw [← hexteq] at hv
              exact ⟨a, b, hv⟩
        · by_cases h2 : r <+: p
          · have hne : r ≠ p := fun he => h1 (he ▸ List.prefix_refl r)
            obtain ⟨b2, hb2⟩ := lookupN_setAt_prefix_dir t p r _ h2 hne a b hv
            exact ⟨a, b2, hb2⟩
          · rw [hother r h1 h2]
            exact ⟨a, b, hv⟩
      · intro hwf
        refine wfN_setAt t p _ hwf ?_
        have := lookupN_wf t p _ hwf h
        simpa [wfN] using this
      · intro hnl
        refine noLinksN_setAt t p _ hnl ?_
        have := lookupN_noLinks t p _ hnl h
        simpa [noLinksN] using this

theorem prefix_dropLast (r q : RelPath) (h : r <+: q) (hne : r ≠ q) :
    r <+: q.dropLast := by
  obtain ⟨ext, hext⟩ := h
  cases ext with
  | nil => exact absurd (by simpa using hext) hne
  | cons x e =>
      subst hext
      rw [List.dropLast_append_cons]
      exact List.prefix_append _ _

/-! ## Establishing the copy-loop invariant after the delete phase -/

theorem cands_mem_iff (d : Node) (F cands : List RelPath)
    (hc : cands = sorted_deletes (paths_to_delete (get_relative_paths d) F)) :
    ∀ p, p ∈ cands ↔ (p ∈ get_relative_paths d ∧ p ∉ F) := by
  intro p
  subst hc
  unfold sorted_deletes paths_to_delete
  rw [mem_isortLe, List.mem_filter]
  constructor
  · rintro ⟨h1, h2⟩
    refine ⟨h1, fun hpF => ?_⟩
    rw [Bool.not_eq_true'] at h2
    exact (List.contains_eq_false_iff_not_mem F p).mp h2 hpF
  · rintro ⟨h1, h2⟩
    refine ⟨h1, ?_⟩
    rw [Bool.not_eq_true']
    exact (List.contains_eq_false_iff_not_mem F p).mpr h2

theorem cands_nodup (d : Node) (F cands : List RelPath)
    (hc : cands = sorted_deletes (paths_to_delete (get_relative_paths d) F)) :
    cands.Nodup := by
  subst hc
  refine nodup_isortLe _ _ (List.Nodup.filter _ ?_)
  unfold get_relative_paths
  exact List.nodup_dedup _

theorem cands_not_nil (d : Node) (F cands : List RelPath)
    (hc : cands = sorted_deletes (paths_to_delete (get_relative_paths d) F)) :
    [] ∉ cands := by
  intro h
  have := ((cands_mem_iff d F cands hc []).mp h).1
  exact nil_not_mem_get_relative_paths d this

theorem cands_sorted (d : Node) (F cands : List RelPath)
    (hc : cands = sorted_deletes (paths_to_delete (get_relative_paths d) F)) :
    cands.Pairwise (fun a b => b.length ≤ a.length) := by
  subst hc
  exact sorted_deletes_pairwise _

/-- After the real delete phase, every deletion candidate is gone: the
depth-descending order guarantees each candidate directory is emptied
of its (also-candidate) children before its own `rmdir` runs, provided
the survivor set `F` is prefix-closed. -/
theorem delete_candidates_dead (d : Node) (F cands : List RelPath)
    (hwfd : wfN d = true) (hnld : noLinksN d = true)
    (hc : cands = sorted_deletes (paths_to_delete (get_relative_paths d) F))
    (hFpre : ∀ p r, p ∈ F → r <+: p → r ≠ [] → r ∈ F) :
    ∀ p, p ∈ cands → lookupN ((deletePhase false d cands).1) p = none := by
  have hmem := cands_mem_iff d F cands hc
  have hnodup := cands_nodup d F cands hc
  have hnn := cands_not_nil d F cands hc
  have hsorted := cands_sorted d F cands hc
  obtain ⟨s1, s2, s3, s4, s5, s6⟩ := deleteFold_spec cands d 0 hsorted hnodup hnn
  have main : ∀ (j : Nat), ∀ p, p ∈ cands →
      (cands.map List.length).foldr max 0 + 1 - p.length ≤ j →
      lookupN ((deletePhase false d cands).1) p = none := by
    intro j
    induction j with
    | zero =>
        intro p hp hj
        have := listMax_bound cands p hp
        omega
    | succ j ih =>
        intro p hp hj
        have hpne : p ≠ [] := fun h => hnn (h ▸ hp)
        cases hd : lookupN d p with
        | none =>
            cases ht : lookupN ((deletePhase false d cands).1) p with
            | none => rfl
            | some n =>
                have := s1 p (by simp [deletePhase] at ht ⊢; simp [ht])
                rw [hd] at this
                simp at this
        | some v =>
            cases v with
            | file sz mt => exact s5 p _ hp hd (by intro a b h; cases h)
            | link a b c dd => exact s5 p _ hp hd (by intro a2 b2 h; cases h)
            | dir dm dcs =>
                cases ht : lookupN ((deletePhase false d cands).1) p with
                | none => rfl
                | some n =>
                    exfalso
                    have hiff := s6 p dm dcs hp hd
                    have : ∃ x, (lookupN ((cands.foldl (delStep false) (d, 0)).1)
                        (p ++ [x])).isSome = true := by
                      refine hiff.mp ?_
                      show (lookupN ((deletePhase false d cands).1) p).isSome = true
                      rw [ht]; rfl
                    obtain ⟨x, hx⟩ := this
                    have hxd : (lookupN d (p ++ [x])).isSome = true := s1 _ hx
                    have hqscan : p ++ [x] ∈ get_relative_paths d := by
                      rw [mem_get_relative_paths_iff_alive d hwfd hnld _ (by simp)]
                      exact hxd
                    have hqnF : p ++ [x] ∉ F := by
                      intro hqF
                      exact ((hmem p).mp hp).2
                        (hFpre (p ++ [x]) p hqF (List.prefix_append _ _) hpne)
                    have hqc : p ++ [x] ∈ cands := (hmem _).mpr ⟨hqscan, hqnF⟩
                    have hlen : (p ++ [x]).length = p.length + 1 := by simp
                    have hmax := listMax_bound cands p hp
                    have := ih (p ++ [x]) hqc (by omega)
                    show False
                    rw [show (deletePhase false d cands).1 =
                      (cands.foldl (delStep false) (d, 0)).1 from rfl] at this
                    rw [this] at hx
                    simp at hx
  intro p hp
  exact main ((cands.map List.length).foldr max 0 + 1) p hp (by omega)

/-- The copy-loop invariant holds at loop entry, on the tree produced
by the delete phase, given kind-compatibility between the filtered
source and the original destination. -/
theorem copyInv_initial (srcT d : Node) (F cands : List RelPath) (tol : Int)
    (hwfd : wfN d = true) (hnld : noLinksN d = true)
    (hddir : ∃ dm dcs, d = Node.dir dm dcs)
    (hc : cands = sorted_deletes (paths_to_delete (get_relative_paths d) F))
    (hFpre : ∀ p r, p ∈ F → r <+: p → r ≠ [] → r ∈ F)
    (hcompatF : ∀ p sz mt, p ∈ F → lookupN srcT p = some (Node.file sz mt) →
        ∀ x y, lookupN d p ≠ some (Node.dir x y))
    (hcompatD : ∀ p x y, p ∈ F → lookupN srcT p = some (Node.dir x y) →
        (lookupN d p).isSome = true →
        ∃ x2 y2, lookupN d p = some (Node.dir x2 y2)) :
    CopyInv srcT F tol ⟨(deletePhase false d cands).1, 0, 0, 0, []⟩ [] := by
  have hmem := cands_mem_iff d F cands hc
  have hnodup := cands_nodup d F cands hc
  have hnn := cands_not_nil d F cands hc
  have hsorted := cands_sorted d F cands hc
  obtain ⟨s1, s2, s3, s4, s5, s6⟩ := deleteFold_spec cands d 0 hsorted hnodup hnn
  have hdead := delete_candidates_dead d F cands hwfd hnld hc hFpre
  have hFnc : ∀ p, p ∈ F → p ∉ cands := by
    intro p hpF hpc
    exact ((hmem p).mp hpc).2 hpF
  have hfold : (deletePhase false d cands).1 = (cands.foldl (delStep false) (d, 0)).1 := rfl
  refine ⟨?_, ?_, ?_, rfl, ?_, ?_, ?_, ?_, ?_, ?_⟩
  · -- root stays a directory
    obtain ⟨dm, dcs, hd⟩ := hddir
    have hroot : lookupN d [] = some (Node.dir dm dcs) := by rw [hd, lookupN_nil]
    obtain ⟨dcs2, h2⟩ := s4 [] dm dcs hnn hroot
    rw [← hfold, lookupN_nil] at h2
    injection h2 with h3
    exact ⟨dm, dcs2, h3⟩
  · exact wfN_deleteFold cands d 0 hwfd
  · exact noLinksN_deleteFold cands d 0 hnld
  · -- every live nonempty path survived the filter
    intro p hpne halive
    have halived : (lookupN d p).isSome = true := s1 p (by rw [← hfold]; exact halive)
    have hpd : p ∈ get_relative_paths d := by
      rw [mem_get_relative_paths_iff_alive d hwfd hnld p hpne]
      exact halived
    by_contra hpF
    have hpc : p ∈ cands := (hmem p).mpr ⟨hpd, hpF⟩
    have := hdead p hpc
    rw [this] at halive
    simp at halive
  · -- F-paths that are source files are never directories here
    intro p sz mt hpF hsf x y hdir
    have hpnc := hFnc p hpF
    have halive : (lookupN ((deletePhase false d cands).1) p).isSome = true := by
      rw [hdir]; rfl
    have halived : (lookupN d p).isSome = true := by
      rw [hfold, s2 p hpnc] at halive
      exact halive
    obtain ⟨w, hw⟩ := Option.isSome_iff_exists.mp halived
    cases w with
    | dir a b => exact hcompatF p sz mt hpF hsf a b hw
    | file s2' m2' =>
        have := s3 p _ hpnc hw (fun a b h => by cases h)
        rw [← hfold] at this
        rw [this] at hdir
        cases hdir
    | link a2 b2 c2 d2 =>
        have := s3 p _ hpnc hw (fun a b h => by cases h)
        rw [← hfold] at this
        rw [this] at hdir
        cases hdir
  · -- F-paths that are source directories are directories here if alive
    intro p x y hpF hsd halive
    have hpnc := hFnc p hpF
    have halived : (lookupN d p).isSome = true := by
      rw [hfold, s2 p hpnc] at halive
      exact halive
    obtain ⟨x2, y2, hw⟩ := hcompatD p x y hpF hsd halived
    obtain ⟨y3, h3⟩ := s4 p x2 y2 hpnc hw
    rw [← hfold] at h3
    exact ⟨x2, y3, h3⟩
  · rintro p x y hp -
    simp at hp
  · rintro p sz mt hp -
    simp at hp
  · rintro p hp
    simp at hp

/-- Every proper prefix of a resolvable source path is a source
directory. -/
theorem src_prefix_dir (srcT : Node) (q s : RelPath)
    (hsq : (lookupN srcT q).isSome = true) (hpre : s <+: q) (hne : s ≠ q) :
    ∃ x y, lookupN srcT s = some (Node.dir x y) := by
  obtain ⟨ext, hext⟩ := hpre
  cases ext with
  | nil => exact absurd (by simpa using hext) hne
  | cons x e =>
      obtain ⟨n, hn⟩ := Option.isSome_iff_exists.mp hsq
      rw [← hext] at hn
      exact lookupN_prefix_dir srcT s x e n hn

/-- Under the copy-loop invariant, every live proper prefix of a
filtered source path resolves to a directory in the working tree. -/
theorem inv_spine_dir (srcT t : Node) (F : List RelPath) (q : RelPath)
    (dm0 : Int) (dcs0 : Children) (hroot : t = Node.dir dm0 dcs0)
    (halive : ∀ p, p ≠ [] → (lookupN t p).isSome = true → p ∈ F)
    (hfdir : ∀ p x y, p ∈ F → lookupN srcT p = some (Node.dir x y) →
        (lookupN t p).isSome = true → ∃ x2 y2, lookupN t p = some (Node.dir x2 y2))
    (hsq : (lookupN srcT q).isSome = true)
    (s : RelPath) (n : Node) (hpre : s <+: q) (hne : s ≠ q)
    (hlook : lookupN t s = some n) : ∃ x y, n = Node.dir x y := by
  by_cases hse : s = []
  · subst hse
    rw [lookupN_nil] at hlook
    injection hlook with h2
    exact ⟨dm0, dcs0, by rw [← h2, hroot]⟩
  · have hsF : s ∈ F := halive s hse (by rw [hlook]; rfl)
    obtain ⟨a, b, hab⟩ := src_prefix_dir srcT q s hsq hpre hne
    obtain ⟨x2, y2, hxy⟩ := hfdir s a b hsF hab (by rw [hlook]; rfl)
    rw [hlook] at hxy
    injection hxy with h3
    exact ⟨x2, y2, h3⟩

/-- One non-dry iteration of the copy loop preserves the invariant and
marks its path as processed. -/
theorem copyStep_inv (srcT : Node) (F : List RelPath) (tol now : Int)
    (st : CopyState) (done : List RelPath) (q : RelPath)
    (hinv : CopyInv srcT F tol st done)
    (hq : q ∈ F) (hqne : q ≠ [])
    (hFsrc : ∀ p, p ∈ F → (lookupN srcT p).isSome = true)
    (hFpre : ∀ p r, p ∈ F → r <+: p → r ≠ [] → r ∈ F)
    (hsnl : noLinksN srcT = true)
    (htol : 0 ≤ tol) :
    CopyInv srcT F tol (copyStep srcT tol false now st q) (q :: done) := by
  obtain ⟨⟨dm0, dcs0, hroot⟩, hwf, hnl, hf0, halive, hffile, hfdir, hdoneD, hdoneF, hups⟩ := hinv
  obtain ⟨srcN, hsrcN⟩ := Option.isSome_iff_exists.mp (hFsrc q hq)
  have hex := existsAtF_of_noLinks st.tree q hnl
  cases srcN with
  | link a b c dd =>
      have := lookupN_noLinks srcT q _ hsnl hsrcN
      simp [noLinksN] at this
  | dir sm scs =>
      by_cases halq : (lookupN st.tree q).isSome = true
      · -- the directory already exists: only the fixup list changes
        have heq : copyStep srcT tol false now st q =
            { st with dirUps := st.dirUps ++ [q] } := by
          unfold copyStep
          rw [hsrcN]
          simp [hex, halq]
        rw [heq]
        refine ⟨⟨dm0, dcs0, hroot⟩, hwf, hnl, hf0, halive, hffile, hfdir, ?_, ?_, ?_⟩
        · intro p x y hp hsd
          rcases List.mem_cons.mp hp with rfl | hp2
          · exact halq
          · exact hdoneD p x y hp2 hsd
        · intro p sz' mt' hp hsf
          rcases List.mem_cons.mp hp with rfl | hp2
          · rw [hsrcN] at hsf
            simp at hsf
          · exact hdoneF p sz' mt' hp2 hsf
        · intro p hp
          rcases List.mem_append.mp hp with hp2 | hp2
          · exact hups p hp2
          · have hpq : p = q := by simpa using hp2
            subst hpq
            exact ⟨hq, sm, scs, hsrcN⟩
      · -- the directory is missing: mkdir -p creates the chain
        have halq0 : lookupN st.tree q = none := Option.not_isSome_iff_eq_none.mp halq
        have hsp : ∀ s n, s <+: q → lookupN st.tree s = some n →
            ∃ x y, n = Node.dir x y := by
          intro s n hpre hlook
          by_cases hs : s = q
          · subst hs
            rw [halq0] at hlook
            simp at hlook
          · exact inv_spine_dir srcT st.tree F q dm0 dcs0 hroot halive hfdir
              (by rw [hsrcN]; rfl) s n hpre hs hlook
        obtain ⟨t2, hmk, mk1, mk2, mk3, mk4⟩ := mkdirp_spec now q st.tree hsp
        have hexF : existsAtF st.tree q = false := by
          rw [hex, halq0]
          rfl
        have hex2 : existsAtF t2 q = true := by
          obtain ⟨x, y, hxy⟩ := mk4 q (List.prefix_refl q)
          unfold existsAtF
          rw [hxy]
          rfl
        have heq : copyStep srcT tol false now st q =
            { st with tree := t2, created := st.created + 1,
                      dirUps := st.dirUps ++ [q] } := by
          unfold copyStep
          rw [hsrcN]
          simp [hexF, hmk, hex2]
        rw [heq]
        refine ⟨?_, ?_, ?_, hf0, ?_, ?_, ?_, ?_, ?_, ?_⟩
        · obtain ⟨x, y, hxy⟩ := mk4 [] List.nil_prefix
          rw [lookupN_nil] at hxy
          injection hxy with h3
          exact ⟨x, y, h3⟩
        · exact wfN_mkdirp now q st.tree t2 hmk hwf
        · exact noLinksN_mkdirp now q st.tree t2 hmk hnl
        · intro p hpne hal
          rcases (mk3 p).mp hal with h | h
          · exact halive p hpne h
          · exact hFpre q p hq h hpne
        · intro p sz' mt' hpF hsf x y hdir
          by_cases hpq : p <+: q
          · by_cases hpq2 : p = q
            · subst hpq2
              rw [hsrcN] at hsf
              simp at hsf
            · obtain ⟨a, b, hab⟩ := src_prefix_dir srcT q p (by rw [hsrcN]; rfl) hpq hpq2
              rw [hsf] at hab
              simp at hab
          · have hal : (lookupN t2 p).isSome = true := by rw [hdir]; rfl
            rcases (mk3 p).mp hal with h | h
            · obtain ⟨v, hv⟩ := Option.isSome_iff_exists.mp h
              cases v with
              | dir a b => exact absurd hv (hffile p sz' mt' hpF hsf a b)
              | file s2 m2 =>
                  have h5 := mk2 p _ hv (fun a b h2 => by cases h2)
                  rw [h5] at hdir
                  simp at hdir
              | link a b c d2 =>
                  have := lookupN_noLinks st.tree p _ hnl hv
                  simp [noLinksN] at this
            · exact hpq h
        · intro p x y hpF hsd hal
          by_cases hpq : p <+: q
          · exact mk4 p hpq
          · rcases (mk3 p).mp hal with h | h
            · obtain ⟨x2, y2, hxy2⟩ := hfdir p x y hpF hsd h
              obtain ⟨y3, hy3⟩ := mk1 p x2 y2 hxy2
              exact ⟨x2, y3, hy3⟩
            · exact absurd h hpq
        · intro p x y hp hsd
          rcases List.mem_cons.mp hp with rfl | hp2
          · exact (mk3 p).mpr (Or.inr (List.prefix_refl p))
          · exact (mk3 p).mpr (Or.inl (hdoneD p x y hp2 hsd))
        · intro p sz' mt' hp hsf
          rcases List.mem_cons.mp hp with rfl | hp2
          · rw [hsrcN] at hsf
            simp at hsf
          · obtain ⟨mt2, hm2, hb2⟩ := hdoneF p sz' mt' hp2 hsf
            exact ⟨mt2, mk2 p _ hm2 (fun a b h => by cases h), hb2⟩
        · intro p hp
          rcases List.mem_append.mp hp with hp2 | hp2
          · exact hups p hp2
          · have hpq : p = q := by simpa using hp2
            subst hpq
            exact ⟨hq, sm, scs, hsrcN⟩
  | file sz mt =>
      have hdrop : q.dropLast <+: q := List.dropLast_prefix q
      have hnotq : ∀ r, r <+: q.dropLast → r ≠ q := by
        intro r hr heq2
        subst heq2
        have h1 := List.IsPrefix.length_le hr
        rw [List.length_dropLast] at h1
        cases r with
        | nil => exact hqne rfl
        | cons a as =>
            rw [List.length_cons] at h1
            omega
      by_cases hsc : should_copy (Node.file sz mt) (lookupN st.tree q) tol = true
      · -- the file is (re)copied
        have hspineq : ∀ s n, s <+: q → s ≠ q → lookupN st.tree s = some n →
            ∃ x y, n = Node.dir x y := fun s n hpre hne hlook =>
          inv_spine_dir srcT st.tree F q dm0 dcs0 hroot halive hfdir
            (by rw [hsrcN]; rfl) s n hpre hne hlook
        obtain ⟨t1, hensure, P1, P2, P3, P4, Pwf, Pnl⟩ :
            ∃ t1, (if existsAtF st.tree q.dropLast then some st.tree
                   else mkdirp now st.tree q.dropLast) = some t1 ∧
              (∀ r x y, lookupN st.tree r = some (Node.dir x y) →
                  ∃ y2, lookupN t1 r = some (Node.dir x y2)) ∧
              (∀ r v, lookupN st.tree r = some v → (∀ x y, v ≠ Node.dir x y) →
                  lookupN t1 r = some v) ∧
              (∀ r, (lookupN t1 r).isSome = true ↔
                  ((lookupN st.tree r).isSome = true ∨ r <+: q.dropLast)) ∧
              (∀ r, r <+: q.dropLast → ∃ x y, lookupN t1 r = some (Node.dir x y)) ∧
              wfN t1 = true ∧ noLinksN t1 = true := by
          by_cases hpal : (lookupN st.tree q.dropLast).isSome = true
          · refine ⟨st.tree, ?_, ?_, ?_, ?_, ?_, hwf, hnl⟩
            · rw [existsAtF_of_noLinks st.tree q.dropLast hnl, hpal]
              rfl
            · intro r x y h
              exact ⟨y, h⟩
            · intro r v h _
              exact h
            · intro r
              constructor
              · exact Or.inl
              · rintro (h | h)
                · exact h
                · exact lookupN_prefix_alive st.tree q.dropLast r hpal h
            · intro r hr
              have hral : (lookupN st.tree r).isSome = true :=
                lookupN_prefix_alive st.tree q.dropLast r hpal hr
              obtain ⟨n, hn⟩ := Option.isSome_iff_exists.mp hral
              obtain ⟨x, y, hxy⟩ := hspineq r n (hr.trans hdrop) (hnotq r hr) hn
              rw [hxy] at hn
              exact ⟨x, y, hn⟩
          · have hsp2 : ∀ s n, s <+: q.dropLast → lookupN st.tree s = some n →
                ∃ x y, n = Node.dir x y := by
              intro s n hpre hlook
              exact hspineq s n (hpre.trans hdrop) (hnotq s hpre) hlook
            obtain ⟨t2, hmk, mk1, mk2, mk3, mk4⟩ := mkdirp_spec now q.dropLast st.tree hsp2
            have h0 : existsAtF st.tree q.dropLast = false := by
              rw [existsAtF_of_noLinks st.tree q.dropLast hnl,
                Option.not_isSome_iff_eq_none.mp hpal]
              rfl
            refine ⟨t2, ?_, mk1, mk2, mk3, mk4,
              wfN_mkdirp now q.dropLast st.tree t2 hmk hwf,
              noLinksN_mkdirp now q.dropLast st.tree t2 hmk hnl⟩
            rw [h0]
            simp [hmk]
        have hq_t1 : ∀ x y, lookupN t1 q ≠ some (Node.dir x y) := by
          intro x y hdir
          have halive1 : (lookupN t1 q).isSome = true := by rw [hdir]; rfl
          rcases (P3 q).mp halive1 with h | h
          · obtain ⟨v, hv⟩ := Option.isSome_iff_exists.mp h
            cases v with
            | dir a b => exact absurd hv (hffile q sz mt hq hsrcN a b)
            | file s2 m2 =>
                have h5 := P2 q _ hv (fun a b h2 => by cases h2)
                rw [h5] at hdir
                simp at hdir
            | link a2 b2 c2 d2 =>
                have := lookupN_noLinks st.tree q _ hnl hv
                simp [noLinksN] at this
          · exact absurd rfl (hnotq q h)
        have hq_not_link : ∀ a b c d2, lookupN t1 q ≠ some (Node.link a b c d2) := by
          intro a b c d2 hlk
          have := lookupN_noLinks t1 q _ Pnl hlk
          simp [noLinksN] at this
        have hpar_t1 : ∃ x y, lookupN t1 q.dropLast = some (Node.dir x y) :=
          P4 q.dropLast (List.prefix_refl _)
        have hcwm : copy_with_metadata now t1 q (Node.file sz mt) =
            some (setAt t1 q (Node.file sz mt)) := by
          have h1 : copy_with_metadata now t1 q (Node.file sz mt) =
              copy2At t1 q sz mt := rfl
          rw [h1]
          unfold copy2At
          cases hq1 : lookupN t1 q with
          | none =>
              obtain ⟨x, y, hxy⟩ := hpar_t1
              rw [hxy]
          | some v =>
              cases v with
              | dir x y => exact absurd hq1 (hq_t1 x y)
              | link a b c d2 => exact absurd hq1 (hq_not_link a b c d2)
              | file s2 m2 => rfl
        have heq : copyStep srcT tol false now st q =
            { st with tree := setAt t1 q (Node.file sz mt),
                      copied := st.copied + 1 } := by
          unfold copyStep
          rw [hsrcN]
          simp [hsc, hensure, hcwm]
        have hspq : ∀ s, s <+: q → s ≠ q →
            ∃ x y, lookupN t1 s = some (Node.dir x y) := by
          intro s hpre hne
          exact P4 s (prefix_dropLast s q hpre hne)
        have hself : lookupN (setAt t1 q (Node.file sz mt)) q =
            some (Node.file sz mt) := lookupN_setAt_self t1 q _ hspq
        have hbelow : ∀ x e,
            lookupN (setAt t1 q (Node.file sz mt)) (q ++ x :: e) = none := by
          intro x e
          rw [lookupN_append, hself]
          rfl
        have hbelow1 : ∀ x e, lookupN t1 (q ++ x :: e) = none := by
          intro x e
          rw [lookupN_append]
          cases hq1 : lookupN t1 q with
          | none => rfl
          | some v =>
              cases v with
              | dir a b => exact absurd hq1 (hq_t1 a b)
              | link a b c d2 => exact absurd hq1 (hq_not_link a b c d2)
              | file s2 m2 => rfl
        have haliveT2 : ∀ p, (lookupN t1 p).isSome = true →
            (lookupN (setAt t1 q (Node.file sz mt)) p).isSome = true := by
          intro p hp
          by_cases h1 : q <+: p
          · obtain ⟨ext, hext⟩ := h1
            cases ext with
            | nil =>
                have hpq : p = q := by simpa using hext.symm
                subst hpq
                rw [hself]
                rfl
            | cons x e =>
                rw [← hext, hbelow1 x e] at hp
                simp at hp
          · by_cases h2 : p <+: q
            · have hne : p ≠ q := fun he => h1 (he ▸ List.prefix_refl p)
              obtain ⟨x, y, hxy⟩ := hspq p h2 hne
              obtain ⟨y2, hy2⟩ := lookupN_setAt_prefix_dir t1 q p _ h2 hne x y hxy
              rw [hy2]
              rfl
            · rw [lookupN_setAt_disjoint t1 q p _ h1 h2]
              exact hp
        have hkeepnondir : ∀ p v, p ≠ q → lookupN t1 p = some v →
            (∀ x y, v ≠ Node.dir x y) →
            lookupN (setAt t1 q (Node.file sz mt)) p = some v := by
          intro p v hpq hv hvnd
          by_cases h1 : q <+: p
          · obtain ⟨ext, hext⟩ := h1
            cases ext with
            | nil => exact absurd (by simpa using hext.symm) hpq
            | cons x e =>
                rw [← hext, hbelow1 x e] at hv
                simp at hv
          · by_cases h2 : p <+: q
            · obtain ⟨x, y, hxy⟩ := hspq p h2 hpq
              rw [hxy] at hv
              injection hv with hv2
              exact absurd hv2.symm (hvnd x y)
            · rw [lookupN_setAt_disjoint t1 q p _ h1 h2]
              exact hv
        have haliveT2r : ∀ p,
            (lookupN (setAt t1 q (Node.file sz mt)) p).isSome = true →
            (lookupN t1 p).isSome = true ∨ p = q := by
          intro p hp
          rcases lookupN_setAt_isSome t1 q p _ hp with h | h
          · exact Or.inl h
          · obtain ⟨ext, hext⟩ := h
            cases ext with
            | nil => exact Or.inr (by simpa using hext.symm)
            | cons x e =>
                rw [← hext, hbelow x e] at hp
                simp at hp
        rw [heq]
        refine ⟨?_, ?_, ?_, hf0, ?_, ?_, ?_, ?_, ?_, hups⟩
        · obtain ⟨x, y, hxy⟩ := hspq [] List.nil_prefix (fun h => hqne h.symm)
          obtain ⟨y2, hy2⟩ := lookupN_setAt_prefix_dir t1 q [] _ List.nil_prefix
            (fun h => hqne h.symm) x y hxy
          rw [lookupN_nil] at hy2
          injection hy2 with h3
          exact ⟨x, y2, h3⟩
        · exact wfN_setAt t1 q _ Pwf rfl
        · exact noLinksN_setAt t1 q _ Pnl rfl
        · intro p hpne hal
          rcases haliveT2r p hal with h | rfl
          · rcases (P3 p).mp h with h2 | h2
            · exact halive p hpne h2
            · exact hFpre q p hq (h2.trans hdrop) hpne
          · exact hq
        · intro p sz' mt' hpF hsf x y hdir
          by_cases hpq : p = q
          · subst hpq
            rw [hself] at hdir
            simp at hdir
          · by_cases h1 : q <+: p
            · obtain ⟨ext, hext⟩ := h1
              cases ext with
              | nil => exact hpq (by simpa using hext.symm)
              | cons xx e =>
                  rw [← hext, hbelow xx e] at hdir
                  simp at hdir
            · by_cases h2 : p <+: q
              · obtain ⟨a, b, hab⟩ := src_prefix_dir srcT q p (by rw [hsrcN]; rfl) h2 hpq
                rw [hsf] at hab
                simp at hab
              · rw [lookupN_setAt_disjoint t1 q p _ h1 h2] at hdir
                have hal1 : (lookupN t1 p).isSome = true := by rw [hdir]; rfl
                rcases (P3 p).mp hal1 with h3 | h3
                · obtain ⟨v, hv⟩ := Option.isSome_iff_exists.mp h3
                  cases v with
                  | dir a b => exact absurd hv (hffile p sz' mt' hpF hsf a b)
                  | file s2 m2 =>
                      have h5 := P2 p _ hv (fun a b h4 => by cases h4)
                      rw [h5] at hdir
                      simp at hdir
                  | link a b c d2 =>
                      have := lookupN_noLinks st.tree p _ hnl hv
                      simp [noLinksN] at this
                · exact h2 (h3.trans hdrop)
        · intro p x y hpF hsd hal
          by_cases hpq : p = q
          · subst hpq
            rw [hsrcN] at hsd
            simp at hsd
          · by_cases h2 : p <+: q
            · obtain ⟨a, b, hab⟩ := hspq p h2 hpq
              obtain ⟨b2, hb2⟩ := lookupN_setAt_prefix_dir t1 q p _ h2 hpq a b hab
              exact ⟨a, b2, hb2⟩
            · by_cases h1 : q <+: p
              · obtain ⟨ext, hext⟩ := h1
                cases ext with
                | nil => exact absurd (by simpa using hext.symm) hpq
                | cons xx e =>
                    rw [← hext, hbelow xx e] at hal
                    simp at hal
              · rw [lookupN_setAt_disjoint t1 q p _ h1 h2] at hal ⊢
                rcases (P3 p).mp hal with h3 | h3
                · obtain ⟨x2, y2, hxy2⟩ := hfdir p x y hpF hsd h3
                  obtain ⟨y3, hy3⟩ := P1 p x2 y2 hxy2
                  exact ⟨x2, y3, hy3⟩
                · exact absurd (h3.trans hdrop) h2
        · intro p x y hp hsd
          by_cases hpq : p = q
          · subst hpq
            rw [hsrcN] at hsd
            simp at hsd
          · have hp2 : p ∈ done := by
              rcases List.mem_cons.mp hp with h | h
              · exact absurd h hpq
              · exact h
            exact haliveT2 p ((P3 p).mpr (Or.inl (hdoneD p x y hp2 hsd)))
        · intro p sz' mt' hp hsf
          by_cases hpq : p = q
          · subst hpq
            rw [hsrcN] at hsf
            injection hsf with h
            injection h with h1 h2
            subst h1
            subst h2
            exact ⟨mt, hself, by simpa using htol⟩
          · have hp2 : p ∈ done := by
              rcases List.mem_cons.mp hp with h | h
              · exact absurd h hpq
              · exact h
            obtain ⟨mt2, hm2, hb2⟩ := hdoneF p sz' mt' hp2 hsf
            have h1 : lookupN t1 p = some (Node.file sz' mt2) :=
              P2 p _ hm2 (fun a b h => by cases h)
            exact ⟨mt2, hkeepnondir p _ hpq h1 (fun a b h => by cases h), hb2⟩
      · -- should_copy is false: nothing happens
        rw [Bool.not_eq_true] at hsc
        have heq : copyStep srcT tol false now st q = st := by
          unfold copyStep
          rw [hsrcN]
          simp [hsc]
        rw [heq]
        refine ⟨⟨dm0, dcs0, hroot⟩, hwf, hnl, hf0, halive, hffile, hfdir, ?_, ?_, hups⟩
        · intro p x y hp hsd
          rcases List.mem_cons.mp hp with rfl | hp2
          · rw [hsrcN] at hsd
            simp at hsd
          · exact hdoneD p x y hp2 hsd
        · intro p sz' mt' hp hsf
          rcases List.mem_cons.mp hp with rfl | hp2
          · rw [hsrcN] at hsf
            injection hsf with h
            injection h with h1 h2
            subst h1
            subst h2
            obtain ⟨d', hd'eq, hex', hsym, hsize, hmt⟩ :=
              should_copy_false_spec (Node.file sz mt) (lookupN st.tree p) tol hsc
            cases d' with
            | dir a b => exact absurd hd'eq (hffile p sz mt hq hsrcN a b)
            | link a b c d2 => simp [Node.isSymlinkB] at hsym
            | file s2 m2 =>
                have hsz : sz = s2 := by simpa [Node.lstatSize] using hsize
                have hmt2 : |mt - m2| ≤ tol := by
                  simpa [Node.lstatMtime] using hmt
                subst hsz
                exact ⟨m2, hd'eq, hmt2⟩
          · exact hdoneF p sz' mt' hp2 hsf

/-- The copy loop preserves the invariant over any list of filtered
source paths, accumulating them into the processed set. -/
theorem copyFold_inv (srcT : Node) (F : List RelPath) (tol now : Int)
    (hFsrc : ∀ p, p ∈ F → (lookupN srcT p).isSome = true)
    (hFpre : ∀ p r, p ∈ F → r <+: p → r ≠ [] → r ∈ F)
    (hsnl : noLinksN srcT = true)
    (htol : 0 ≤ tol) :
    ∀ (ps : List RelPath) (st : CopyState) (done : List RelPath),
      (∀ q, q ∈ ps → q ∈ F ∧ q ≠ []) →
      CopyInv srcT F tol st done →
      CopyInv srcT F tol (ps.foldl (copyStep srcT tol false now) st)
        (ps.reverse ++ done) := by
  intro ps
  induction ps with
  | nil =>
      intro st done _ h
      simpa using h
  | cons q rest ih =>
      intro st done hmem hinv
      rw [List.foldl_cons]
      have h1 := copyStep_inv srcT F tol now st done q hinv
        (hmem q (List.mem_cons_self q rest)).1
        (hmem q (List.mem_cons_self q rest)).2 hFsrc hFpre hsnl htol
      have h2 := ih (copyStep srcT tol false now st q) (q :: done)
        (fun r hr => hmem r (List.mem_cons_of_mem q hr)) h1
      simpa [List.append_assoc] using h2

/-- The deferred directory-mtime pass keeps the shape of the tree: it
only rewrites mtimes of existing directories. -/
theorem fixupDirs_spec (srcT : Node) :
    ∀ (ups : List RelPath) (t : Node),
      wfN t = true → noLinksN t = true →
      (∀ p, p ∈ ups → ∃ x y, lookupN t p = some (Node.dir x y)) →
      (∀ r, (lookupN (fixupDirs srcT t ups) r).isSome = (lookupN t r).isSome) ∧
      (∀ r v, lookupN t r = some v → (∀ x y, v ≠ Node.dir x y) →
          lookupN (fixupDirs srcT t ups) r = some v) ∧
      (∀ r x y, lookupN t r = some (Node.dir x y) →
          ∃ x2 y2, lookupN (fixupDirs srcT t ups) r = some (Node.dir x2 y2)) ∧
      wfN (fixupDirs srcT t ups) = true ∧
      noLinksN (fixupDirs srcT t ups) = true := by
  intro ups
  induction ups with
  | nil =>
      intro t hwf hnl _
      exact ⟨fun r => rfl, fun r v hv _ => hv, fun r x y hv => ⟨x, y, hv⟩, hwf, hnl⟩
  | cons p rest ih =>
      intro t hwf hnl hup
      obtain ⟨x0, y0, hp0⟩ := hup p (List.mem_cons_self p rest)
      have hstep : ∀ (t1 : Node),
          (∀ r, (lookupN t1 r).isSome = (lookupN t r).isSome) →
          (∀ r v, lookupN t r = some v → (∀ x y, v ≠ Node.dir x y) →
              lookupN t1 r = some v) →
          (∀ r x y, lookupN t r = some (Node.dir x y) →
              ∃ x2 y2, lookupN t1 r = some (Node.dir x2 y2)) →
          wfN t1 = true → noLinksN t1 = true →
          fixupDirs srcT t (p :: rest) = fixupDirs srcT t1 rest →
          (∀ r, (lookupN (fixupDirs srcT t (p :: rest)) r).isSome =
              (lookupN t r).isSome) ∧
          (∀ r v, lookupN t r = some v → (∀ x y, v ≠ Node.dir x y) →
              lookupN (fixupDirs srcT t (p :: rest)) r = some v) ∧
          (∀ r x y, lookupN t r = some (Node.dir x y) →
              ∃ x2 y2, lookupN (fixupDirs srcT t (p :: rest)) r =
                some (Node.dir x2 y2)) ∧
          wfN (fixupDirs srcT t (p :: rest)) = true ∧
          noLinksN (fixupDirs srcT t (p :: rest)) = true := by
        intro t1 q1 q2 q3 qwf qnl hfe
        have hup1 : ∀ r, r ∈ rest → ∃ x y, lookupN t1 r = some (Node.dir x y) := by
          intro r hr
          obtain ⟨x, y, hxy⟩ := hup r (List.mem_cons_of_mem p hr)
          exact q3 r x y hxy
        obtain ⟨i1, i2, i3, i4, i5⟩ := ih t1 qwf qnl hup1
        rw [hfe]
        refine ⟨?_, ?_, ?_, i4, i5⟩
        · intro r
          rw [i1 r, q1 r]
        · intro r v hv hvnd
          exact i2 r v (q2 r v hv hvnd) hvnd
        · intro r x y hv
          obtain ⟨x2, y2, h2⟩ := q3 r x y hv
          obtain ⟨x3, y3, h3⟩ := i3 r x2 y2 h2
          exact ⟨x3, y3, h3⟩
      cases hsn : lookupN srcT p with
      | none =>
          refine hstep t (fun r => rfl) (fun r v hv _ => hv)
            (fun r x y hv => ⟨x, y, hv⟩) hwf hnl ?_
          show (p :: rest).foldl _ t = rest.foldl _ t
          rw [List.foldl_cons]
          have : (match lookupN srcT p with
              | some sn => setMtimeAt t p sn.lstatMtime
              | none => t) = t := by rw [hsn]
          simp only [fixupDirs] at this ⊢
          rw [this]
      | some sn =>
          obtain ⟨f1, f2, f3, f4, f5⟩ :=
            setMtimeAt_dir_spec t p sn.lstatMtime x0 y0 hp0
          refine hstep (setMtimeAt t p sn.lstatMtime) f1 f2 f3
            (f4 hwf) (f5 hnl) ?_
          show (p :: rest).foldl _ t = rest.foldl _ (setMtimeAt t p sn.lstatMtime)
          rw [List.foldl_cons]
          have : (match lookupN srcT p with
              | some sn2 => setMtimeAt t p sn2.lstatMtime
              | none => t) = setMtimeAt t p sn.lstatMtime := by rw [hsn]
          simp only [fixupDirs] at this ⊢
          rw [this]

/-- The destination-root fixup only changes the root directory's
mtime. -/
theorem rootFixup_spec (src t : Node) (a : Int) (b : Children)
    (h : t = Node.dir a b) :
    rootFixup src t = Node.dir src.lstatMtime b ∧
    (∀ r, r ≠ [] → lookupN (rootFixup src t) r = lookupN t r) ∧
    (wfN t = true → wfN (rootFixup src t) = true) ∧
    (noLinksN t = true → noLinksN (rootFixup src t) = true) := by
  subst h
  refine ⟨rfl, ?_, ?_, ?_⟩
  · intro r hr
    show lookupN (Node.dir src.lstatMtime b) r = lookupN (Node.dir a b) r
    exact lookupN_dir_mtime_irrel _ _ b r hr
  · intro hwf
    simpa [wfN] using hwf
  · intro hnl
    simpa [noLinksN] using hnl

/-- Unfolding of `sync_directories` for a non-dry run on an existing
destination. -/
theorem sync_directories_eq_nondry (a : SyncArgs) (srcT d : Node)
    (hval : validation_error a = false) (hsrc : a.sourceState = some srcT)
    (hdst : a.destState = some d) (hdry : a.dryRun = false) :
    sync_directories a =
      { dest := some (rootFixup srcT (fixupDirs srcT
          (copyPhase srcT a.timeTolerance false a.now
            (deletePhase false d (sorted_deletes (paths_to_delete
              (get_relative_paths d)
              (filtered_source srcT a.excludePatterns)))).1
            (isortLe pathLe (filtered_source srcT a.excludePatterns))).tree
          (copyPhase srcT a.timeTolerance false a.now
            (deletePhase false d (sorted_deletes (paths_to_delete
              (get_relative_paths d)
              (filtered_source srcT a.excludePatterns)))).1
            (isortLe pathLe (filtered_source srcT a.excludePatterns))).dirUps)),
        created_dirs :=
          (copyPhase srcT a.timeTolerance false a.now
            (deletePhase false d (sorted_deletes (paths_to_delete
              (get_relative_paths d)
              (filtered_source srcT a.excludePatterns)))).1
            (isortLe pathLe (filtered_source srcT a.excludePatterns))).created,
        copied_files :=
          (copyPhase srcT a.timeTolerance false a.now
            (deletePhase false d (sorted_deletes (paths_to_delete
              (get_relative_paths d)
              (filtered_source srcT a.excludePatterns)))).1
            (isortLe pathLe (filtered_source srcT a.excludePatterns))).copied,
        deleted_items :=
          (deletePhase false d (sorted_deletes (paths_to_delete
            (get_relative_paths d)
            (filtered_source srcT a.excludePatterns)))).2,
        failed_copies :=
          (copyPhase srcT a.timeTolerance false a.now
            (deletePhase false d (sorted_deletes (paths_to_delete
              (get_relative_paths d)
              (filtered_source srcT a.excludePatterns)))).1
            (isortLe pathLe (filtered_source srcT a.excludePatterns))).failed,
        exited := false } := by
  unfold sync_directories
  rw [if_neg (by simp [hval]), hsrc, hdst, hdry]
  rfl

/-- If validation passes, the source is a directory. -/
theorem validation_source_dir (a : SyncArgs) (srcT : Node)
    (hval : validation_error a = false) (hsrc : a.sourceState = some srcT) :
    srcT.isDirF = true := by
  unfold validation_error at hval
  rw [hsrc] at hval
  by_cases h2 : srcT.isDirF = true
  · exact h2
  · by_cases h1 : srcT.existsF = true
    · simp [h1, h2] at hval
    · simp [h1] at hval

/-- Full characterization of one successful non-dry run on symlink-free,
kind-compatible trees: no failures, the destination's scanned path set
equals the filtered source set, files carry the source size and an
mtime within tolerance, and directories stay directories. -/
theorem sync_run_spec (a : SyncArgs) (srcT d : Node)
    (hdry : a.dryRun = false)
    (hval : validation_error a = false)
    (hsrc : a.sourceState = some srcT)
    (hdst : a.destState = some d)
    (hwfs : wfN srcT = true) (hnls : noLinksN srcT = true)
    (hwfd : wfN d = true) (hnld : noLinksN d = true)
    (hddir : ∃ x y, d = Node.dir x y)
    (htol : 0 ≤ a.timeTolerance)
    (hcompatF : ∀ p sz mt, p ∈ filtered_source srcT a.excludePatterns →
        lookupN srcT p = some (Node.file sz mt) →
        ∀ x y, lookupN d p ≠ some (Node.dir x y))
    (hcompatD : ∀ p x y, p ∈ filtered_source srcT a.excludePatterns →
        lookupN srcT p = some (Node.dir x y) → (lookupN d p).isSome = true →
        ∃ x2 y2, lookupN d p = some (Node.dir x2 y2)) :
    ∃ T, (sync_directories a).dest = some T ∧
      (sync_directories a).failed_copies = 0 ∧
      wfN T = true ∧ noLinksN T = true ∧ (∃ tm tcs, T = Node.dir tm tcs) ∧
      (∀ p, p ∈ get_relative_paths T ↔ p ∈ filtered_source srcT a.excludePatterns) ∧
      (∀ p sz mt, p ∈ filtered_source srcT a.excludePatterns →
          lookupN srcT p = some (Node.file sz mt) →
          ∃ mt2, lookupN T p = some (Node.file sz mt2) ∧
            |mt - mt2| ≤ a.timeTolerance) ∧
      (∀ p x y, p ∈ filtered_source srcT a.excludePatterns →
          lookupN srcT p = some (Node.dir x y) →
          ∃ x2 y2, lookupN T p = some (Node.dir x2 y2)) := by
  obtain ⟨sm, scs, hsdir⟩ := noLinks_isDirF_dir srcT hnls
    (validation_source_dir a srcT hval hsrc)
  rw [sync_directories_eq_nondry a srcT d hval hsrc hdst hdry]
  set F := filtered_source srcT a.excludePatterns with hF
  set cands := sorted_deletes (paths_to_delete (get_relative_paths d) F) with hcands
  set t0 := (deletePhase false d cands).1 with ht0
  set stF := copyPhase srcT a.timeTolerance false a.now t0 (isortLe pathLe F) with hstF
  set T1 := fixupDirs srcT stF.tree stF.dirUps with hT1
  have hFpre : ∀ p r, p ∈ F → r <+: p → r ≠ [] → r ∈ F := by
    intro p r hp hpre hrne
    exact filtered_source_prefix_closed srcT a.excludePatterns sm scs hsdir
      (by rw [hsdir] at hwfs; simpa [wfN] using hwfs) p r hp hpre hrne
  have hFne : ∀ p, p ∈ F → p ≠ [] := by
    intro p hp h
    exact nil_not_mem_get_relative_paths srcT
      (h ▸ filtered_source_subset srcT a.excludePatterns p hp)
  have hFsrc : ∀ p, p ∈ F → (lookupN srcT p).isSome = true := by
    intro p hp
    exact (mem_get_relative_paths_iff_alive srcT hwfs hnls p (hFne p hp)).mp
      (filtered_source_subset srcT a.excludePatterns p hp)
  have hinit := copyInv_initial srcT d F cands a.timeTolerance
    hwfd hnld hddir hcands hFpre hcompatF hcompatD
  have hfold := copyFold_inv srcT F a.timeTolerance a.now hFsrc hFpre hnls htol
    (isortLe pathLe F) ⟨t0, 0, 0, 0, []⟩ []
    (fun q hq => ⟨(mem_isortLe _ q _).mp hq, hFne q ((mem_isortLe _ q _).mp hq)⟩)
    hinit
  have hcp : stF = (isortLe pathLe F).foldl
      (copyStep srcT a.timeTolerance false a.now) ⟨t0, 0, 0, 0, []⟩ := hstF.trans rfl
  rw [← hcp] at hfold
  obtain ⟨⟨tm0, tcs0, htroot⟩, htwf, htnl, htf0, htalive, htffile, htfdir,
    htdoneD, htdoneF, htups⟩ := hfold
  have hdone : ∀ p, p ∈ F →
      p ∈ (isortLe pathLe F).reverse ++ ([] : List RelPath) := by
    intro p hp
    simp [mem_isortLe, hp]
  have hupsdir : ∀ p, p ∈ stF.dirUps →
      ∃ x y, lookupN stF.tree p = some (Node.dir x y) := by
    intro p hp
    obtain ⟨hpF, x, y, hxy⟩ := htups p hp
    exact htfdir p x y hpF hxy (htdoneD p x y (hdone p hpF) hxy)
  obtain ⟨fix1, fix2, fix3, fixwf, fixnl⟩ :=
    fixupDirs_spec srcT stF.dirUps stF.tree htwf htnl hupsdir
  have hT1root : ∃ x y, T1 = Node.dir x y := by
    have h0 : lookupN stF.tree [] = some (Node.dir tm0 tcs0) := by
      rw [htroot, lookupN_nil]
    obtain ⟨x2, y2, h2⟩ := fix3 [] tm0 tcs0 h0
    rw [← hT1, lookupN_nil] at h2
    injection h2 with h3
    exact ⟨x2, y2, h3⟩
  obtain ⟨rm, rcs, hT1r⟩ := hT1root
  obtain ⟨rf1, rf2, rf3, rf4⟩ := rootFixup_spec srcT T1 rm rcs hT1r
  have hTwf : wfN (rootFixup srcT T1) = true := rf3 (hT1 ▸ fixwf)
  have hTnl : noLinksN (rootFixup srcT T1) = true := rf4 (hT1 ▸ fixnl)
  have haliveT : ∀ p, p ≠ [] →
      ((lookupN (rootFixup srcT T1) p).isSome = true ↔ p ∈ F) := by
    intro p hpne
    rw [rf2 p hpne, hT1, fix1 p]
    constructor
    · intro h
      exact htalive p hpne h
    · intro hp
      obtain ⟨n, hn⟩ := Option.isSome_iff_exists.mp (hFsrc p hp)
      cases n with
      | dir x y => exact htdoneD p x y (hdone p hp) hn
      | file sz mt =>
          obtain ⟨mt2, h2, h3⟩ := htdoneF p sz mt (hdone p hp) hn
          rw [h2]
          rfl
      | link x y z w =>
          have := lookupN_noLinks srcT p _ hnls hn
          simp [noLinksN] at this
  have hmemT : ∀ p, p ∈ get_relative_paths (rootFixup srcT T1) ↔ p ∈ F := by
    intro p
    by_cases hpne : p = []
    · subst hpne
      constructor
      · intro h
        exact absurd h (nil_not_mem_get_relative_paths _)
      · intro h
        exact absurd rfl (hFne [] h)
    · rw [mem_get_relative_paths_iff_alive _ hTwf hTnl p hpne]
      exact haliveT p hpne
  have hfileT : ∀ p sz mt, p ∈ F → lookupN srcT p = some (Node.file sz mt) →
      ∃ mt2, lookupN (rootFixup srcT T1) p = some (Node.file sz mt2) ∧
        |mt - mt2| ≤ a.timeTolerance := by
    intro p sz mt hp hs
    obtain ⟨mt2, h2, hb⟩ := htdoneF p sz mt (hdone p hp) hs
    have h3 : lookupN T1 p = some (Node.file sz mt2) := by
      rw [hT1]
      exact fix2 p _ h2 (fun x y h => by cases h)
    refine ⟨mt2, ?_, hb⟩
    rw [rf2 p (hFne p hp), h3]
  have hdirT : ∀ p x y, p ∈ F → lookupN srcT p = some (Node.dir x y) →
      ∃ x2 y2, lookupN (rootFixup srcT T1) p = some (Node.dir x2 y2) := by
    intro p x y hp hs
    have hal := htdoneD p x y (hdone p hp) hs
    obtain ⟨x2, y2, h2⟩ := htfdir p x y hp hs hal
    obtain ⟨x3, y3, h3⟩ := fix3 p x2 y2 h2
    refine ⟨x3, y3, ?_⟩
    rw [rf2 p (hFne p hp), hT1, h3]
  exact ⟨rootFixup srcT T1, rfl, htf0, hTwf, hTnl,
    ⟨srcT.lstatMtime, rcs, rf1⟩, hmemT, hfileT, hdirT⟩

/-- When the working tree already agrees with the source on every
filtered path, one copy-loop iteration changes neither the tree nor
the created/copied counters. -/
theorem copyStep_noop (srcT T : Node) (tol now : Int) (F : List RelPath)
    (hTfile : ∀ p sz mt, p ∈ F → lookupN srcT p = some (Node.file sz mt) →
        ∃ mt2, lookupN T p = some (Node.file sz mt2) ∧ |mt - mt2| ≤ tol)
    (hTdir : ∀ p x y, p ∈ F → lookupN srcT p = some (Node.dir x y) →
        ∃ x2 y2, lookupN T p = some (Node.dir x2 y2))
    (hsnl : noLinksN srcT = true)
    (hFsrc : ∀ p, p ∈ F → (lookupN srcT p).isSome = true)
    (q : RelPath) (hq : q ∈ F) :
    ∀ st : CopyState, st.tree = T →
      (copyStep srcT tol false now st q).tree = T ∧
      (copyStep srcT tol false now st q).created = st.created ∧
      (copyStep srcT tol false now st q).copied = st.copied := by
  intro st htree
  obtain ⟨srcN, hsrcN⟩ := Option.isSome_iff_exists.mp (hFsrc q hq)
  cases srcN with
  | link a b c dd =>
      have := lookupN_noLinks srcT q _ hsnl hsrcN
      simp [noLinksN] at this
  | dir x y =>
      obtain ⟨x2, y2, hd2⟩ := hTdir q x y hq hsrcN
      have hexq : existsAtF st.tree q = true := by
        rw [htree]
        unfold existsAtF
        rw [hd2]
        rfl
      have heq : copyStep srcT tol false now st q =
          { st with dirUps := st.dirUps ++ [q] } := by
        unfold copyStep
        rw [hsrcN]
        simp [hexq]
      rw [heq]
      exact ⟨htree, rfl, rfl⟩
  | file sz mt =>
      obtain ⟨mt2, hf2, hb2⟩ := hTfile q sz mt hq hsrcN
      have hsc : should_copy (Node.file sz mt) (lookupN st.tree q) tol = false := by
        rw [htree, hf2]
        simp [should_copy, Node.existsF, Node.isSymlinkB, Node.lstatSize,
          Node.lstatMtime, Int.not_lt.mpr hb2]
      have heq : copyStep srcT tol false now st q = st := by
        unfold copyStep
        rw [hsrcN]
        simp [hsc]
      rw [heq]
      exact ⟨htree, rfl, rfl⟩

/-- The whole copy loop is a no-op on the tree and the created/copied
counters when the working tree already agrees with the source. -/
theorem copyFold_noop (srcT T : Node) (tol now : Int) (F : List RelPath)
    (hTfile : ∀ p sz mt, p ∈ F → lookupN srcT p = some (Node.file sz mt) →
        ∃ mt2, lookupN T p = some (Node.file sz mt2) ∧ |mt - mt2| ≤ tol)
    (hTdir : ∀ p x y, p ∈ F → lookupN srcT p = some (Node.dir x y) →
        ∃ x2 y2, lookupN T p = some (Node.dir x2 y2))
    (hsnl : noLinksN srcT = true)
    (hFsrc : ∀ p, p ∈ F → (lookupN srcT p).isSome = true) :
    ∀ (ps : List RelPath), (∀ q, q ∈ ps → q ∈ F) →
      ∀ st : CopyState, st.tree = T →
        (ps.foldl (copyStep srcT tol false now) st).tree = T ∧
        (ps.foldl (copyStep srcT tol false now) st).created = st.created ∧
        (ps.foldl (copyStep srcT tol false now) st).copied = st.copied := by
  intro ps
  induction ps with
  | nil =>
      intro _ st h
      exact ⟨h, rfl, rfl⟩
  | cons q rest ih =>
      intro hmem st htree
      rw [List.foldl_cons]
      obtain ⟨h1, h2, h3⟩ := copyStep_noop srcT T tol now F hTfile hTdir hsnl hFsrc q
        (hmem q (List.mem_cons_self q rest)) st htree
      obtain ⟨g1, g2, g3⟩ := ih (fun r hr => hmem r (List.mem_cons_of_mem q hr))
        (copyStep srcT tol false now st q) h1
      refine ⟨g1, ?_, ?_⟩
      · rw [g2, h2]
      · rw [g3, h3]

/-! ## Claim C1: convergence after one successful run -/

/-- C1 counterexample: with a destination directory that contains a
symlink resolving to an existing directory, a non-dry run finishes
with no process exit and no failed copies, yet the destination's
scanned path set does not equal the filtered source path set — the
symlink keeps its parent directory non-empty, `rmdir` skips it
silently, and the run does not converge. -/
theorem C1_counterexample :
    (sync_directories c1cexArgs).exited = false ∧
    (sync_directories c1cexArgs).failed_copies = 0 ∧
    (sync_directories c1cexArgs).dest.map get_relative_paths ≠
      some (filtered_source c1cexSrc c1cexArgs.excludePatterns) := by
  decide

/-- C1 (amended): for a non-dry run that passes validation, on
well-formed, symlink-free source and destination trees whose kinds are
compatible on the filtered source paths, with a directory destination
root and a nonnegative tolerance, one pass of `sync_directories`
reports no failed copies and leaves a destination whose scanned path
set equals the exclusion-filtered source path set, with every file
carrying the source's size and an mtime within `time_tolerance` of the
source's. -/
theorem C1_amended_convergence (a : SyncArgs) (srcT d : Node)
    (hdry : a.dryRun = false)
    (hval : validation_error a = false)
    (hsrc : a.sourceState = some srcT)
    (hdst : a.destState = some d)
    (hwfs : wfN srcT = true) (hnls : noLinksN srcT = true)
    (hwfd : wfN d = true) (hnld : noLinksN d = true)
    (hddir : ∃ x y, d = Node.dir x y)
    (htol : 0 ≤ a.timeTolerance)
    (hcompatF : ∀ p sz mt, p ∈ filtered_source srcT a.excludePatterns →
        lookupN srcT p = some (Node.file sz mt) →
        ∀ x y, lookupN d p ≠ some (Node.dir x y))
    (hcompatD : ∀ p x y, p ∈ filtered_source srcT a.excludePatterns →
        lookupN srcT p = some (Node.dir x y) → (lookupN d p).isSome = true →
        ∃ x2 y2, lookupN d p = some (Node.dir x2 y2)) :
    ∃ T, (sync_directories a).dest = some T ∧
      (sync_directories a).exited = false ∧
      (sync_directories a).failed_copies = 0 ∧
      (∀ p, p ∈ get_relative_paths T ↔
        p ∈ filtered_source srcT a.excludePatterns) ∧
      (∀ p sz mt, p ∈ filtered_source srcT a.excludePatterns →
          lookupN srcT p = some (Node.file sz mt) →
          ∃ mt2, lookupN T p = some (Node.file sz mt2) ∧
            |mt - mt2| ≤ a.timeTolerance) := by
  obtain ⟨T, h1, h2, _, _, _, h6, h7, _⟩ :=
    sync_run_spec a srcT d hdry hval hsrc hdst hwfs hnls hwfd hnld hddir htol
      hcompatF hcompatD
  have hex : (sync_directories a).exited = false := by
    unfold sync_directories
    rw [if_neg (by simp [hval])]
  exact ⟨T, h1, hex, h2, h6, h7⟩

/-- Kind-compatibility of the witness configuration: no filtered
source file collides with a destination directory. -/
theorem wArgs_compatF : ∀ p sz mt, p ∈ filtered_source wSrc wArgs.excludePatterns →
    lookupN wSrc p = some (Node.file sz mt) →
    ∀ x y, lookupN (Node.dir 5 Children.nil) p ≠ some (Node.dir x y) := by
  intro p sz mt hp hs x y hd
  have hF : filtered_source wSrc wArgs.excludePatterns = [["f"]] := by decide
  rw [hF] at hp
  simp at hp
  subst hp
  simp [lookupN, Children.lookup] at hd

/-- Kind-compatibility of the witness configuration: no filtered
source directory collides with a destination non-directory. -/
theorem wArgs_compatD : ∀ p x y, p ∈ filtered_source wSrc wArgs.excludePatterns →
    lookupN wSrc p = some (Node.dir x y) →
    (lookupN (Node.dir 5 Children.nil) p).isSome = true →
    ∃ x2 y2, lookupN (Node.dir 5 Children.nil) p = some (Node.dir x2 y2) := by
  intro p x y hp hs _
  have hF : filtered_source wSrc wArgs.excludePatterns = [["f"]] := by decide
  rw [hF] at hp
  simp at hp
  subst hp
  have hv : lookupN wSrc ["f"] = some (Node.file 3 10) := rfl
  rw [hv] at hs
  simp at hs

/-- Witness for the amended C1 at a concrete configuration. -/
theorem C1_amended_convergence_witness :
    wArgs.dryRun = false ∧ validation_error wArgs = false ∧
    ∃ T, (sync_directories wArgs).dest = some T ∧
      (sync_directories wArgs).exited = false ∧
      (sync_directories wArgs).failed_copies = 0 ∧
      (∀ p, p ∈ get_relative_paths T ↔
        p ∈ filtered_source wSrc wArgs.excludePatterns) ∧
      (∀ p sz mt, p ∈ filtered_source wSrc wArgs.excludePatterns →
          lookupN wSrc p = some (Node.file sz mt) →
          ∃ mt2, lookupN T p = some (Node.file sz mt2) ∧
            |mt - mt2| ≤ wArgs.timeTolerance) :=
  ⟨rfl, by decide,
    C1_amended_convergence wArgs wSrc (Node.dir 5 Children.nil) rfl (by decide)
      rfl rfl (by decide) (by decide) (by decide) (by decide)
      ⟨5, Children.nil, rfl⟩ (by decide) wArgs_compatF wArgs_compatD⟩

/-! ## Claim C3: idempotence of a second run -/

/-- C3 counterexample: a source containing a dangling symlink defeats
idempotence — the first non-dry run completes with no failures and
recreates the link, but `should_copy` returns true for any symlink
destination, so an identical second run copies it again
(`copied_files = 1`, not 0). -/
theorem C3_counterexample :
    (sync_directories c3Args).exited = false ∧
    (sync_directories c3Args).failed_copies = 0 ∧
    (sync_directories c3Args).copied_files = 1 ∧
    (sync_directories { c3Args with
        destState := (sync_directories c3Args).dest }).copied_files = 1 := by
  decide

/-- C3 (amended): for a non-dry run that passes validation, on
well-formed, symlink-free, kind-compatible trees with a directory
destination root and nonnegative tolerance, a second
`sync_directories` call on the first run's output with otherwise
identical inputs reports zero created directories, zero copied files,
and zero deleted items. -/
theorem C3_amended_idempotence (a : SyncArgs) (srcT d : Node)
    (hdry : a.dryRun = false)
    (hval : validation_error a = false)
    (hsrc : a.sourceState = some srcT)
    (hdst : a.destState = some d)
    (hwfs : wfN srcT = true) (hnls : noLinksN srcT = true)
    (hwfd : wfN d = true) (hnld : noLinksN d = true)
    (hddir : ∃ x y, d = Node.dir x y)
    (htol : 0 ≤ a.timeTolerance)
    (hcompatF : ∀ p sz mt, p ∈ filtered_source srcT a.excludePatterns →
        lookupN srcT p = some (Node.file sz mt) →
        ∀ x y, lookupN d p ≠ some (Node.dir x y))
    (hcompatD : ∀ p x y, p ∈ filtered_source srcT a.excludePatterns →
        lookupN srcT p = some (Node.dir x y) → (lookupN d p).isSome = true →
        ∃ x2 y2, lookupN d p = some (Node.dir x2 y2)) :
    (sync_directories { a with
        destState := (sync_directories a).dest }).created_dirs = 0 ∧
    (sync_directories { a with
        destState := (sync_directories a).dest }).copied_files = 0 ∧
    (sync_directories { a with
        destState := (sync_directories a).dest }).deleted_items = 0 := by
  obtain ⟨T, hdest, hfail, hTwf, hTnl, ⟨tm, tcs, hTd⟩, hmem, hfile, hdir⟩ :=
    sync_run_spec a srcT d hdry hval hsrc hdst hwfs hnls hwfd hnld hddir htol
      hcompatF hcompatD
  have hFne : ∀ p, p ∈ filtered_source srcT a.excludePatterns → p ≠ [] := by
    intro p hp h
    exact nil_not_mem_get_relative_paths srcT
      (h ▸ filtered_source_subset srcT a.excludePatterns p hp)
  have hFsrc : ∀ p, p ∈ filtered_source srcT a.excludePatterns →
      (lookupN srcT p).isSome = true := by
    intro p hp
    exact (mem_get_relative_paths_iff_alive srcT hwfs hnls p (hFne p hp)).mp
      (filtered_source_subset srcT a.excludePatterns p hp)
  have hval2 : validation_error { a with
      destState := (sync_directories a).dest } = false := hval
  have hsrc2 : ({ a with destState := (sync_directories a).dest } :
      SyncArgs).sourceState = some srcT := hsrc
  have hdst2 : ({ a with destState := (sync_directories a).dest } :
      SyncArgs).destState = some T := hdest
  have hdry2 : ({ a with destState := (sync_directories a).dest } :
      SyncArgs).dryRun = false := hdry
  rw [sync_directories_eq_nondry { a with destState := (sync_directories a).dest }
    srcT T hval2 hsrc2 hdst2 hdry2]
  have hdel : paths_to_delete (get_relative_paths T)
      (filtered_source srcT a.excludePatterns) = [] := by
    unfold paths_to_delete
    rw [List.filter_eq_nil_iff]
    intro p hp
    have hpF := (hmem p).mp hp
    simp [List.elem_iff, hpF]
  have hnoop := copyFold_noop srcT T a.timeTolerance a.now
    (filtered_source srcT a.excludePatterns) hfile hdir hnls hFsrc
    (isortLe pathLe (filtered_source srcT a.excludePatterns))
    (fun q hq => (mem_isortLe _ q _).mp hq)
    ⟨(deletePhase false T (sorted_deletes ([] : List RelPath))).1, 0, 0, 0, []⟩ rfl
  refine ⟨?_, ?_, ?_⟩
  · show (copyPhase srcT a.timeTolerance false a.now
      (deletePhase false T (sorted_deletes (paths_to_delete (get_relative_paths T)
        (filtered_source srcT a.excludePatterns)))).1
      (isortLe pathLe (filtered_source srcT a.excludePatterns))).created = 0
    rw [hdel]
    exact hnoop.2.1
  · show (copyPhase srcT a.timeTolerance false a.now
      (deletePhase false T (sorted_deletes (paths_to_delete (get_relative_paths T)
        (filtered_source srcT a.excludePatterns)))).1
      (isortLe pathLe (filtered_source srcT a.excludePatterns))).copied = 0
    rw [hdel]
    exact hnoop.2.2
  · show (deletePhase false T (sorted_deletes (paths_to_delete
      (get_relative_paths T) (filtered_source srcT a.excludePatterns)))).2 = 0
    rw [hdel]
    rfl

/-- Witness for the amended C3 at a concrete configuration. -/
theorem C3_amended_idempotence_witness :
    wArgs.dryRun = false ∧ validation_error wArgs = false ∧
    (sync_directories { wArgs with
        destState := (sync_directories wArgs).dest }).created_dirs = 0 ∧
    (sync_directories { wArgs with
        destState := (sync_directories wArgs).dest }).copied_files = 0 ∧
    (sync_directories { wArgs with
        destState := (sync_directories wArgs).dest }).deleted_items = 0 :=
  ⟨rfl, by decide,
    C3_amended_idempotence wArgs wSrc (Node.dir 5 Children.nil) rfl (by decide)
      rfl rfl (by decide) (by decide) (by decide) (by decide)
      ⟨5, Children.nil, rfl⟩ (by decide) wArgs_compatF wArgs_compatD⟩
